import Mathlib

/-!
# image-converter: quantizer, encoder, attribute table, template writer

A shallow embedding of `src/main.cpp` and theorems about it.

Conventions of the embedding.

* A byte (`char`, `unsigned char`, `uint8_t`) is a `Fin 256`.
* `uint16_t` and `uint32_t` fields are `Fin 65536` and `Fin 4294967296`; a
  conversion to one of them reduces modulo `2^16` resp. `2^32`.
* `int` values are mathematical integers. Signed overflow is undefined in C++:
  the `int` arithmetic of `generate_color_indices` (the offsets of lines
  164-168 and 179) and the conversion `static_cast<int>` of line 81 have no
  result (`none`) when the exact value is outside `[-2^31, 2^31 - 1]`, see
  `checked_int`. Theorems about an image therefore assume that its buffer can
  be indexed by an `int`: `width * height * numChannels <= 2^31 - 1`.
* `size_t` values are natural numbers: the sizes computed by the code are sums
  of lengths of objects that live in memory, which stay far below `2^64`.
* The object representation of an unsigned integer is little-endian (a
  little-endian target is assumed, as the specification does), see
  `object_bytes`.
* `float` is IEEE-754 binary32 with round-to-nearest-even; a value is a
  rational number, an infinity or NaN (`Flt`), and every operation rounds its
  exact result (`Format.round`). The sign of zero is not tracked.
* A heap block is a list of bytes. `malloc` returns a block whose contents are
  unspecified: they are taken from an arbitrary function `heap`. `memcpy`
  and a store through a pointer overwrite part of a block; a write or read
  outside the block has no defined result (`none`).
* The plain type `char` is signed (as on x86): the value of a byte `b` held in
  a `char` is `char_value b`, between -128 and 127, and `EOF` is -1.
* The format file `../raw-data.txt` is the list of its bytes, the output file
  is the list of the bytes written to it (no translation of line ends).
* `double` is IEEE-754 binary64; `static_cast<int>` of a `double` discards the
  fractional part and is undefined when the result does not fit an `int`.
-/

namespace ImageConverter

/-- One byte of memory. -/
abbrev Byte := Fin 256

/-- Line 15: `#define HEADER_SIZE_BYTES 12`. -/
def HEADER_SIZE_BYTES : Nat := 12

/-- Line 16: `#define PIXEL_INDEX_SIZE_BYTES 3`. -/
def PIXEL_INDEX_SIZE_BYTES : Nat := 3

/-- Line 17: `#define COLOR_INDEX_SIZE_BYTES 2`. -/
def COLOR_INDEX_SIZE_BYTES : Nat := 2

/-- Lines 23-27: `struct Header`, packed, three `uint32_t` fields. -/
structure Header where
  width : Fin 4294967296
  height : Fin 4294967296
  colorDataSize : Fin 4294967296
deriving DecidableEq, Repr

/-- Lines 29-33: `struct Color3`, three `uint8_t` samples. -/
structure Color3 where
  r : Byte
  g : Byte
  b : Byte
deriving DecidableEq, Repr

/-- Lines 35-38: `struct ColorIndex`. -/
structure ColorIndex where
  pixelIndex : Fin 4294967296
  colorIndex : Fin 65536
deriving DecidableEq, Repr

/-- Conversion of a natural number to `uint8_t`. -/
def to_u8 (n : Nat) : Byte := ⟨n % 256, Nat.mod_lt n (by decide)⟩

/-- Conversion of a natural number to `uint16_t`. -/
def to_u16 (n : Nat) : Fin 65536 := ⟨n % 65536, Nat.mod_lt n (by decide)⟩

/-- Conversion of a natural number to `uint32_t`. -/
def to_u32 (n : Nat) : Fin 4294967296 := ⟨n % 4294967296, Nat.mod_lt n (by decide)⟩

/-- Conversion of an `int` to `uint32_t`: reduction modulo `2^32`. -/
def int_to_u32 (z : Int) : Fin 4294967296 := to_u32 (z % 4294967296).toNat

/-- The first `k` bytes of the little-endian representation of `n`:
`n % 256`, `n / 256 % 256`, ... -/
def object_bytes : Nat → Nat → List Byte
  | 0, _ => []
  | k + 1, n => to_u8 n :: object_bytes k (n / 256)

/-- The value of `sizeof(uint32_t)`. -/
def SIZEOF_U32 : Nat := 4

/-- Object representation of a `uint32_t`: four bytes, least significant first. -/
def u32_object (v : Fin 4294967296) : List Byte := object_bytes SIZEOF_U32 v.val

/-- Object representation of the packed `Header`: its fields in declaration
order, without padding. -/
def Header.object (hd : Header) : List Byte :=
  u32_object hd.width ++ u32_object hd.height ++ u32_object hd.colorDataSize

/-- The value of `sizeof(Header)` for the packed struct. -/
def SIZEOF_HEADER : Nat := 12

/-- The block returned by `malloc(n)`: `n` bytes of unspecified content. -/
def malloc (heap : Nat → Byte) (n : Nat) : List Byte := (List.range n).map heap

/-- The call `memcpy(block + p, src, n)`: bytes `p .. p+n-1` of the block are
replaced by the first `n` bytes of `src`. Undefined when `src` has fewer than
`n` bytes or the range leaves the block. -/
def memcpy (block : List Byte) (p : Nat) (src : List Byte) (n : Nat) : Option (List Byte) :=
  if n ≤ src.length ∧ p + n ≤ block.length then
    some (block.take p ++ src.take n ++ block.drop (p + n))
  else none

/-- Lines 306-315: the loop over `colors`; the state is the block and the
cursor `p` (an offset into the block). -/
def write_colors : List Color3 → List Byte → Nat → Option (List Byte × Nat)
  | [], block, p => some (block, p)
  | color :: rest, block, p =>
    (memcpy block p [color.r] 1).bind fun b1 =>
    (memcpy b1 (p + 1) [color.g] 1).bind fun b2 =>
    (memcpy b2 (p + 2) [color.b] 1).bind fun b3 =>
    write_colors rest b3 (p + 3)

/-- Lines 317-326: the loop over `indices`. Both fields are first copied into
`uint32_t` locals; `memcpy` then takes the first 3 resp. 2 bytes of each. -/
def write_indices : List ColorIndex → List Byte → Nat → Option (List Byte × Nat)
  | [], block, p => some (block, p)
  | index :: rest, block, p =>
    let pixelIndex : Fin 4294967296 := index.pixelIndex
    let colorIndex : Fin 4294967296 := to_u32 index.colorIndex.val
    (memcpy block p (u32_object pixelIndex) PIXEL_INDEX_SIZE_BYTES).bind fun b1 =>
    (memcpy b1 (p + PIXEL_INDEX_SIZE_BYTES) (u32_object colorIndex) COLOR_INDEX_SIZE_BYTES).bind
      fun b2 =>
    write_indices rest b2 (p + PIXEL_INDEX_SIZE_BYTES + COLOR_INDEX_SIZE_BYTES)

/-- Lines 287-329: `encode_image_data`. Returns the block `rawData` and the
value stored in `*totalDataSize`. -/
def encode_image_data (heap : Nat → Byte) (colors : List Color3) (indices : List ColorIndex)
    (width height : Int) : Option (List Byte × Nat) :=
  let colorDataSize : Nat := colors.length * 3
  let indexDataSize : Nat := indices.length * (COLOR_INDEX_SIZE_BYTES + PIXEL_INDEX_SIZE_BYTES)
  let totalDataSize : Nat := SIZEOF_HEADER + colorDataSize + indexDataSize
  let rawData := malloc heap totalDataSize
  let header : Header :=
    { width := int_to_u32 width, height := int_to_u32 height,
      colorDataSize := to_u32 colorDataSize }
  (memcpy rawData 0 header.object SIZEOF_HEADER).bind fun b0 =>
  (write_colors colors b0 SIZEOF_HEADER).bind fun s1 =>
  (write_indices indices s1.1 s1.2).bind fun s2 =>
  some (s2.1, totalDataSize)

/-- A C string: the characters before the terminating NUL, none of which is NUL. -/
structure CString where
  chars : List Byte
  no_nul : ∀ b ∈ chars, b ≠ 0

/-- The bytes a `const char*` to the string points at: the characters and the
terminator. -/
def CString.bytes (s : CString) : List Byte := s.chars ++ [0]

/-- The C library function `strlen`. -/
def strlen (s : CString) : Nat := s.chars.length

/-- Lines 337-344, `remaining` iterations starting at index `i`: the array
`nameLengths` (filled in index order, so kept as the list of the entries written
so far) and the running `totalSize`. Reading an array past its end is undefined. -/
def attributes_size_loop (attribNames : List CString) (attribDataSizes : List Nat) :
    Nat → Nat → List (Fin 4294967296) × Nat → Option (List (Fin 4294967296) × Nat)
  | 0, _, st => some st
  | remaining + 1, i, (nameLengths, totalSize) =>
    (attribNames[i]?).bind fun name =>
    (attribDataSizes[i]?).bind fun dataSize =>
    let nameLength := to_u32 (strlen name)
    let totalSize := totalSize + (nameLength.val + SIZEOF_U32)
    let totalSize := totalSize + dataSize
    let totalSize := totalSize + 1
    let totalSize := totalSize + SIZEOF_U32
    attributes_size_loop attribNames attribDataSizes remaining (i + 1)
      (nameLengths ++ [nameLength], totalSize)

/-- Lines 352-368, `remaining` iterations starting at index `i`; the state is
the block `inData` and the cursor `p`. -/
def attributes_fill_loop (attribNames : List CString) (attribData : List (List Byte))
    (attribDataSizes : List Nat) (nameLengths : List (Fin 4294967296)) :
    Nat → Nat → List Byte × Nat → Option (List Byte × Nat)
  | 0, _, st => some st
  | remaining + 1, i, (block, p) =>
    (nameLengths[i]?).bind fun nameLength =>
    (attribNames[i]?).bind fun name =>
    (attribData[i]?).bind fun data =>
    (attribDataSizes[i]?).bind fun dataSize =>
    (memcpy block p (u32_object nameLength) SIZEOF_U32).bind fun b1 =>
    let p := p + SIZEOF_U32
    (memcpy b1 p name.bytes nameLength.val).bind fun b2 =>
    let p := p + nameLength.val
    (memcpy b2 p [2] 1).bind fun b3 =>
    let p := p + 1
    let attribSize := to_u32 dataSize
    (memcpy b3 p (u32_object attribSize) SIZEOF_U32).bind fun b4 =>
    let p := p + SIZEOF_U32
    (memcpy b4 p data dataSize).bind fun b5 =>
    let p := p + dataSize
    attributes_fill_loop attribNames attribData attribDataSizes nameLengths remaining (i + 1)
      (b5, p)

/-- Lines 333-368 of `encode_rbxmx_attributes`: the block `inData` and
`totalSize`, which are what the function passes to `base64_encode_block`. -/
def attribute_table (heap : Nat → Byte) (attribNames : List CString)
    (attribData : List (List Byte)) (attribDataSizes : List Nat)
    (numAttributes : Fin 4294967296) : Option (List Byte × Nat) :=
  (attributes_size_loop attribNames attribDataSizes numAttributes.val 0 ([], SIZEOF_U32)).bind
    fun s =>
  let nameLengths := s.1
  let totalSize := s.2
  let inData := malloc heap totalSize
  (memcpy inData 0 (u32_object numAttributes) SIZEOF_U32).bind fun b0 =>
  (attributes_fill_loop attribNames attribData attribDataSizes nameLengths numAttributes.val 0
    (b0, SIZEOF_U32)).bind fun s2 =>
  some (s2.1, totalSize)

/-- Lines 331-383: `encode_rbxmx_attributes`. The base64 routines of libb64
(`base64_encode_block` followed by `base64_encode_blockend`) are not part of
the repository; `base64` stands for the text they produce from the first
`totalSize` bytes of `inData`. -/
def encode_rbxmx_attributes (base64 : List Byte → List Byte) (heap : Nat → Byte)
    (attribNames : List CString) (attribData : List (List Byte)) (attribDataSizes : List Nat)
    (numAttributes : Fin 4294967296) : Option (List Byte) :=
  (attribute_table heap attribNames attribData attribDataSizes numAttributes).bind fun s =>
  some (base64 (s.1.take s.2))

/-- Two little-endian bytes of `n` (its low 16 bits). -/
def le16 (n : Nat) : List Byte := [to_u8 n, to_u8 (n / 256)]

/-- Three little-endian bytes of `n` (its low 24 bits). -/
def le24 (n : Nat) : List Byte := [to_u8 n, to_u8 (n / 256), to_u8 (n / 65536)]

/-- Four little-endian bytes of `n` (its low 32 bits). -/
def le32 (n : Nat) : List Byte :=
  [to_u8 n, to_u8 (n / 256), to_u8 (n / 65536), to_u8 (n / 16777216)]

/-- The three palette bytes of a colour. -/
def color_bytes (c : Color3) : List Byte := [c.r, c.g, c.b]

/-- The five bytes of an index record in the blob: 3-byte position, 2-byte
palette index. -/
def record_bytes (x : ColorIndex) : List Byte := le24 x.pixelIndex.val ++ le16 x.colorIndex.val

/-- The bytes of one attribute entry in the table of section 4.4: name length,
name, type tag 2, data length, data. -/
def entry_bytes (e : CString × List Byte) : List Byte :=
  le32 e.1.chars.length ++ e.1.chars ++ [2] ++ le32 e.2.length ++ e.2

/-- The name `"RawData"` used by `write_rbxmx_file` (line 226). -/
def RawData : CString :=
  ⟨[82, 97, 119, 68, 97, 116, 97], by simp⟩

/-! ### A decoder for the container (not part of the program) -/

/-- The number whose little-endian representation starts the byte list: the
value of its first `k` bytes. -/
def read_le : Nat → List Byte → Nat
  | 0, _ => 0
  | _ + 1, [] => 0
  | k + 1, b :: bs => b.val + 256 * read_le k bs

/-- Reads `n` palette colours, three bytes each; returns them and the bytes
that follow. -/
def decode_colors : Nat → List Byte → Option (List Color3 × List Byte)
  | 0, bs => some ([], bs)
  | n + 1, r :: g :: b :: bs =>
    (decode_colors n bs).map fun s => ({ r := r, g := g, b := b } :: s.1, s.2)
  | _ + 1, _ => none

/-- Reads index records, five bytes each, up to the end of the input. -/
def decode_records : List Byte → Option (List ColorIndex)
  | [] => some []
  | p0 :: p1 :: p2 :: c0 :: c1 :: bs =>
    (decode_records bs).map fun xs =>
      { pixelIndex := to_u32 (read_le 3 [p0, p1, p2]),
        colorIndex := to_u16 (read_le 2 [c0, c1]) } :: xs
  | _ => none

/-- Decoder of the Binary Image Blob of section 3: width, height, palette and
index records. -/
def decode_image_blob (bs : List Byte) : Option (Nat × Nat × List Color3 × List ColorIndex) :=
  if bs.length < 12 then none
  else
    let width := read_le 4 bs
    let height := read_le 4 (bs.drop 4)
    let colorDataSize := read_le 4 (bs.drop 8)
    (decode_colors (colorDataSize / 3) (bs.drop 12)).bind fun s =>
    (decode_records s.2).bind fun indices =>
    some (width, height, s.1, indices)

/-- Decoder of an attribute table with the single entry `"RawData"`: checks
count 1, name length 7, the name and the type tag, skips the 4-byte data
length (it only carries the length modulo `2^32`) and decodes the rest as the
image blob. -/
def decode_attributes (bs : List Byte) : Option (Nat × Nat × List Color3 × List ColorIndex) :=
  if bs.take 16 = le32 1 ++ le32 7 ++ RawData.chars ++ [2] ∧ 20 ≤ bs.length then
    decode_image_blob (bs.drop 20)
  else none

/-! ### Floating point (`float`) and the tolerance test -/

/-- Values of a binary floating-point type: finite numbers (the sign of zero is
not tracked), the two infinities and NaN. -/
inductive Flt where
  | finite (q : ℚ)
  | inf (negative : Bool)
  | nan
deriving DecidableEq

/-- A binary floating-point format: precision in bits, smallest and largest
exponent of a normal number. -/
structure Format where
  prec : Nat
  emin : Int
  emax : Int

/-- IEEE-754 binary32, the C++ `float`. -/
def binary32 : Format := { prec := 24, emin := -126, emax := 127 }

/-- Rounding to the nearest integer, ties to even. -/
def round_half_even (x : ℚ) : ℤ :=
  if x - ⌊x⌋ < 1 / 2 then ⌊x⌋
  else if 1 / 2 < x - ⌊x⌋ then ⌊x⌋ + 1
  else if ⌊x⌋ % 2 = 0 then ⌊x⌋ else ⌊x⌋ + 1

/-- Rounding of an exact result to the format, round-to-nearest-even: the unit
in the last place of `q` is `2^e / 2^(prec-1)` where `e` is the exponent of `q`
(at least `emin`, which gives the subnormal range); a rounded magnitude of
`2^(emax+1)` or more overflows to infinity. -/
def Format.round (f : Format) (q : ℚ) : Flt :=
  if q = 0 then Flt.finite 0
  else
    let e : ℤ := max (Int.log 2 |q|) f.emin
    let ulp : ℚ := (2 : ℚ) ^ e / 2 ^ (f.prec - 1)
    let v : ℚ := (round_half_even (|q| / ulp) : ℚ) * ulp
    if (2 : ℚ) ^ (f.emax + 1) ≤ v then Flt.inf (decide (q < 0))
    else Flt.finite (if q < 0 then -v else v)


/-- Negation. -/
def Flt.neg : Flt → Flt
  | .finite q => .finite (-q)
  | .inf s => .inf (!s)
  | .nan => .nan

/-- Absolute value (`fabs`). -/
def Flt.abs : Flt → Flt
  | .finite q => .finite |q|
  | .inf _ => .inf false
  | .nan => .nan

/-- Addition in format `f`. -/
def Flt.add (f : Format) : Flt → Flt → Flt
  | .finite a, .finite b => f.round (a + b)
  | .finite _, .inf s => .inf s
  | .inf s, .finite _ => .inf s
  | .inf s, .inf t => if s = t then .inf s else .nan
  | .nan, _ => .nan
  | _, .nan => .nan

/-- Subtraction in format `f`. -/
def Flt.sub (f : Format) (x y : Flt) : Flt := Flt.add f x (Flt.neg y)

/-- Multiplication in format `f`. -/
def Flt.mul (f : Format) : Flt → Flt → Flt
  | .finite a, .finite b => f.round (a * b)
  | .finite a, .inf s => if a = 0 then .nan else .inf (xor s (decide (a < 0)))
  | .inf s, .finite b => if b = 0 then .nan else .inf (xor s (decide (b < 0)))
  | .inf s, .inf t => .inf (xor s t)
  | .nan, _ => .nan
  | _, .nan => .nan

/-- Division in format `f`. Zero divided by zero is NaN; a non-zero number
divided by zero is an infinity (with the sign of the dividend, the divisor
being taken as `+0`). -/
def Flt.div (f : Format) : Flt → Flt → Flt
  | .finite a, .finite b =>
    if b = 0 then (if a = 0 then .nan else .inf (decide (a < 0))) else f.round (a / b)
  | .finite _, .inf _ => .finite 0
  | .inf s, .finite b => .inf (xor s (decide (b < 0)))
  | .inf _, .inf _ => .nan
  | .nan, _ => .nan
  | _, .nan => .nan

/-- The comparison `x < y`; false whenever an operand is NaN. -/
def Flt.lt : Flt → Flt → Bool
  | .finite a, .finite b => decide (a < b)
  | .finite _, .inf s => !s
  | .inf s, .finite _ => s
  | .inf s, .inf t => s && !t
  | .nan, _ => false
  | _, .nan => false

/-- Line 21: `#define COLOR_FUZZ_PERCENT 0.1f`, the `float` nearest to 1/10. -/
def COLOR_FUZZ_PERCENT : Flt := binary32.round (1 / 10)

/-- The conversion `static_cast<float>` of a `uint8_t`. -/
def u8_to_float (v : Byte) : Flt := binary32.round (v.val : ℚ)

/-- Lines 192-194: `percent_difference`, every operation in `float`; `0.5f` is
the `float` nearest to 1/2. (For the reading in which `fabs` is the `double`
function of C see `percent_difference_wide`; `color_equals_wide` shows that the
outcome of `color_equals` is the same.) -/
def percent_difference (a b : Flt) : Flt :=
  Flt.div binary32 (Flt.abs (Flt.sub binary32 a b))
    (Flt.mul binary32 (Flt.add binary32 a b) (binary32.round (1 / 2)))

/-- Lines 196-200: `color_equals`. -/
def color_equals (a b : Color3) : Bool :=
  Flt.lt (percent_difference (u8_to_float a.r) (u8_to_float b.r)) COLOR_FUZZ_PERCENT
    && Flt.lt (percent_difference (u8_to_float a.g) (u8_to_float b.g)) COLOR_FUZZ_PERCENT
    && Flt.lt (percent_difference (u8_to_float a.b) (u8_to_float b.b)) COLOR_FUZZ_PERCENT

/-- The integer form of the tolerance test on one channel pair. -/
def channel_close (x y : Nat) : Bool := decide (20 * ((x - y) + (y - x)) < x + y)

/-- The integer form of the tolerance test on a pair of colours. -/
def color_close (a b : Color3) : Bool :=
  channel_close a.r.val b.r.val && channel_close a.g.val b.g.val
    && channel_close a.b.val b.b.val

/-- The relative difference `|x - y| / ((x + y) / 2)` of section 4.2, in exact
arithmetic. It is undefined (`0 / 0`) when both channel values are 0. -/
def relative_difference (x y : Nat) : Option ℚ :=
  if x + y = 0 then none else some (|(x : ℚ) - (y : ℚ)| / (((x : ℚ) + (y : ℚ)) / 2))

/-- The relative difference of the channel pair is defined and strictly below
0.1. -/
def below_tolerance (x y : Nat) : Prop :=
  ∃ q : ℚ, relative_difference x y = some q ∧ q < 1 / 10

/-- IEEE-754 binary64, the C++ `double`. -/
def binary64 : Format := { prec := 53, emin := -1022, emax := 1023 }

/-- Conversion of a `double` value to `float`. -/
def Flt.to_float : Flt → Flt
  | .finite q => binary32.round q
  | .inf s => .inf s
  | .nan => .nan

/-- The function `percent_difference` when the unqualified call `fabs(a - b)`
resolves to the C function `double fabs(double)` (as it does with `<cmath>` of
libstdc++): the difference and the halved sum are computed in `float`,
promoted to `double` (exactly), divided in `double`, and the quotient is
converted to `float` by the `return`. -/
def percent_difference_wide (a b : Flt) : Flt :=
  Flt.to_float (Flt.div binary64 (Flt.abs (Flt.sub binary32 a b))
    (Flt.mul binary32 (Flt.add binary32 a b) (binary32.round (1 / 2))))

/-! ### The palette quantizer -/

/-- A counted `for` loop: `count` iterations whose index runs through
`i, i+1, ...`; the state is threaded through the body. -/
def for_loop {σ : Type} (body : Nat → σ → Option σ) : Nat → Nat → σ → Option σ
  | 0, _, s => some s
  | count + 1, i, s => (body i s).bind fun s' => for_loop body count (i + 1) s'

/-- The read `data[i]` with an `int` index; undefined outside the buffer. -/
def read_byte (data : List Byte) (i : Int) : Option Byte :=
  if 0 ≤ i then data[i.toNat]? else none

/-- Conversion of an `int` to `uint16_t`: reduction modulo `2^16`. -/
def int_to_u16 (z : Int) : Fin 65536 := to_u16 (z % 65536).toNat

/-- Lines 170-177: the search loop over `colors`, entered at index `j` with the
entries from `j` on still to be visited; the result is `foundColor` (`-1` when
no entry matches). -/
def find_color (color : Color3) : List Color3 → Nat → Int
  | [], _ => -1
  | c :: rest, j => if color_equals color c then (j : Int) else find_color color rest (j + 1)

/-- The value of an arithmetic expression of type `int` (32 bits) whose exact
result is `z`: undefined (signed overflow) when `z` is outside the range of
`int`. -/
def checked_int (z : Int) : Option Int :=
  if -2147483648 ≤ z ∧ z ≤ 2147483647 then some z else none

/-- Lines 164-187: the body of the inner loop, for the pixel in column `x` of
row `y`; the state is the pair of vectors `colors`, `indices`. The index
arithmetic of lines 164-168 and 179 is done in `int`. -/
def scan_pixel (data : List Byte) (width numChannels : Int) (y x : Nat)
    (st : List Color3 × List ColorIndex) : Option (List Color3 × List ColorIndex) :=
  (checked_int ((y : Int) * width)).bind fun yw =>
  (checked_int (yw + (x : Int))).bind fun k =>
  (checked_int (k * numChannels)).bind fun i =>
  (read_byte data i).bind fun r =>
  (checked_int (i + 1)).bind fun i1 =>
  (read_byte data i1).bind fun g =>
  (checked_int (i + 2)).bind fun i2 =>
  (read_byte data i2).bind fun b =>
  let color : Color3 := { r := r, g := g, b := b }
  let foundColor : Int := find_color color st.1 0
  let pixelIndex : Fin 4294967296 := int_to_u32 k
  if foundColor ≥ 0 then
    some (st.1, st.2 ++ [{ pixelIndex := pixelIndex, colorIndex := int_to_u16 foundColor }])
  else
    let colors := st.1 ++ [color]
    some (colors,
      st.2 ++ [{ pixelIndex := pixelIndex, colorIndex := to_u16 (colors.length - 1) }])

/-- Lines 156-190: `generate_color_indices`; returns the vectors `colors` and
`indices` after the call. -/
def generate_color_indices (data : List Byte) (width height numChannels : Int)
    (colors : List Color3) (indices : List ColorIndex) :
    Option (List Color3 × List ColorIndex) :=
  for_loop
    (fun y st => for_loop (fun x st' => scan_pixel data width numChannels y x st') width.toNat 0 st)
    height.toNat 0 (colors, indices)

/-- The vectors `colors` and `indices` on entry to the loop body (line 164) for
the pixel in column `x` of row `y`, in a call started with empty vectors: the
outer loop has completed the rows `0 .. y-1` and the inner loop the columns
`0 .. x-1` of row `y`. -/
def scan_state (data : List Byte) (width numChannels : Int) (y x : Nat) :
    Option (List Color3 × List ColorIndex) :=
  (generate_color_indices data width (y : Int) numChannels [] []).bind fun st =>
    for_loop (fun x' st' => scan_pixel data width numChannels y x' st') x 0 st

/-- The colour of pixel `k` (row-major) of a buffer with `c` channels: its
first three samples. -/
def pixel_color (data : List Byte) (c k : Nat) : Option Color3 :=
  (data[k * c]?).bind fun r =>
  (data[k * c + 1]?).bind fun g =>
  (data[k * c + 2]?).bind fun b =>
  some { r := r, g := g, b := b }

/-- What the loop body does with the colour of pixel `k`. -/
def quantize_step (color : Color3) (k : Nat) (st : List Color3 × List ColorIndex) :
    List Color3 × List ColorIndex :=
  if find_color color st.1 0 ≥ 0 then
    (st.1, st.2 ++ [{ pixelIndex := to_u32 k, colorIndex := int_to_u16 (find_color color st.1 0) }])
  else
    (st.1 ++ [color], st.2 ++ [{ pixelIndex := to_u32 k, colorIndex := to_u16 st.1.length }])

/-- The loop body as a function of the pixel number `k = y * width + x`. -/
def pixel_step (data : List Byte) (c : Nat) (k : Nat) (st : List Color3 × List ColorIndex) :
    Option (List Color3 × List ColorIndex) :=
  (pixel_color data c k).map fun color => quantize_step color k st

/-- Invariant of the scan after `k` pixels: one record per pixel scanned, in
order, each carrying its pixel number (as `uint32_t`) and a palette slot (as
`uint16_t`) that is first-fit for the pixel's colour: either a matching entry
below some size `n` of the palette, or the entry `n` itself holding the colour. -/
def Scanned (data : List Byte) (c k : Nat) (st : List Color3 × List ColorIndex) : Prop :=
  st.2.length = k ∧ st.1.length ≤ k ∧ (0 < k → 0 < st.1.length) ∧
  ∀ i, i < k → ∃ (color : Color3) (slot n : Nat),
    pixel_color data c i = some color
    ∧ st.2[i]? = some { pixelIndex := to_u32 i, colorIndex := to_u16 slot }
    ∧ n ≤ st.1.length ∧ slot < st.1.length
    ∧ (∀ j q, j < slot → st.1[j]? = some q → color_equals color q = false)
    ∧ ((slot < n ∧ ∃ q, st.1[slot]? = some q ∧ color_equals color q = true)
        ∨ (slot = n ∧ st.1[slot]? = some color))

/-! ### The template writer -/

/-- The value `EOF` of `<cstdio>`. -/
def EOF : Int := -1

/-- The value of a `char` holding the byte `b`; `char` is a signed 8-bit type
on the targets considered (x86). -/
def char_value (b : Byte) : Int := if b.val < 128 then (b.val : Int) else (b.val : Int) - 256

/-- Conversion of an `int` to `char`: the byte congruent to it modulo 256. -/
def int_to_char (z : Int) : Byte := to_u8 (z % 256).toNat

/-- The character constant for the backtick, code 96. -/
def BACKTICK : Byte := 96

/-- The string literal `"attributes"`. -/
def ATTRIBUTES : List Byte := [97, 116, 116, 114, 105, 98, 117, 116, 101, 115]

/-- The string literal `"image_width"`. -/
def IMAGE_WIDTH : List Byte := [105, 109, 97, 103, 101, 95, 119, 105, 100, 116, 104]

/-- The string literal `"image_height"`. -/
def IMAGE_HEIGHT : List Byte := [105, 109, 97, 103, 101, 95, 104, 101, 105, 103, 104, 116]

/-- The C string a `char` buffer holds: its bytes before the first NUL. -/
def c_str (buffer : List Byte) : List Byte := buffer.takeWhile fun b => b ≠ 0

/-- The decimal digits of a natural number as ASCII text, most significant
first; `"0"` for zero. -/
def decimal_digits (n : Nat) : List Byte :=
  if n = 0 then [48] else (Nat.digits 10 n).reverse.map fun d => to_u8 (48 + d)

/-- The library function `std::to_string(int)`: the text `printf("%d")` would
produce. -/
def to_string (z : Int) : List Byte :=
  if z < 0 then 45 :: decimal_digits z.natAbs else decimal_digits z.toNat

/-- Lines 223-243: the dispatch on the closed token; `formatString` already
ends with the pushed NUL and `strcmp(formatString.data(), s) == 0` compares
C strings. The result is the text written to `fileOut`. -/
def format_token (base64 : List Byte → List Byte) (heap : Nat → Byte) (colors : List Color3)
    (indices : List ColorIndex) (width height : Int) (formatString : List Byte) :
    Option (List Byte) :=
  if c_str formatString = ATTRIBUTES then
    (encode_image_data heap colors indices width height).bind fun s =>
    let imageData := s.1
    let totalDataSize := s.2
    encode_rbxmx_attributes base64 heap [RawData] [imageData] [totalDataSize] ⟨1, by decide⟩
  else if c_str formatString = IMAGE_WIDTH then some (to_string width)
  else if c_str formatString = IMAGE_HEIGHT then some (to_string height)
  else some []

/-- Lines 217-258: the `while` loop, as a function of the part of the format
file not yet read; the state is `formatStringOpen`, `formatString` and the
bytes written to `fileOut` so far. `fgetc` yields the next byte as an `int`, or
`EOF` at the end of the file (and `(char)EOF` compares equal to `EOF`); the
value is stored in the `char c` before it is compared with `EOF`. -/
def template_loop (base64 : List Byte → List Byte) (heap : Nat → Byte) (colors : List Color3)
    (indices : List ColorIndex) (width height : Int) :
    List Byte → Bool → List Byte → List Byte → Option (List Byte)
  | [], _, _, fileOut => some fileOut
  | b :: rest, formatStringOpen, formatString, fileOut =>
    let c : Byte := int_to_char (b.val : Int)
    if char_value c = EOF then some fileOut
    else if char_value c = char_value BACKTICK then
      if formatStringOpen then
        let formatString := formatString ++ [0]
        (format_token base64 heap colors indices width height formatString).bind fun text =>
        template_loop base64 heap colors indices width height rest false formatString
          (fileOut ++ text)
      else
        template_loop base64 heap colors indices width height rest true [] fileOut
    else if formatStringOpen then
      template_loop base64 heap colors indices width height rest true (formatString ++ [c])
        fileOut
    else
      template_loop base64 heap colors indices width height rest false formatString
        (fileOut ++ [c])

/-- Lines 202-261: `write_rbxmx_file`, for a format file that exists and holds
the bytes `template` (opened without newline translation); the result is what
has been written to `fileOut`. -/
def write_rbxmx_file (base64 : List Byte → List Byte) (heap : Nat → Byte)
    (template : List Byte) (colors : List Color3) (indices : List ColorIndex)
    (width height : Int) : Option (List Byte) :=
  template_loop base64 heap colors indices width height template false [] []

/-! ### The first-fit scan in the words of the specification -/

/-- Section 4.2, matching algorithm in the words of the specification: the
index of the first palette entry, in insertion order, that the equality policy
accepts for `color`, if there is one. -/
def first_match (color : Color3) : List Color3 → Option Nat
  | [] => none
  | q :: rest =>
    if color_equals color q then some 0 else (first_match color rest).map fun j => j + 1

/-- Section 4.2 for one pixel: it is assigned the slot of the first matching
palette entry; if no entry matches, its colour is appended and it is assigned
the new last slot. The state is the palette and the slots assigned so far
(natural numbers, not truncated). -/
def reference_step (st : List Color3 × List Nat) (color : Color3) : List Color3 × List Nat :=
  match first_match color st.1 with
  | some j => (st.1, st.2 ++ [j])
  | none => (st.1 ++ [color], st.2 ++ [st.1.length])

/-- Section 4.2 for a sequence of pixel colours in scan order: the palette and
the slot assigned to each pixel. -/
def reference_scan (pixels : List Color3) : List Color3 × List Nat :=
  pixels.foldl reference_step ([], [])

/-- The colours of the first `n` pixels of a buffer with `c` channels, in
row-major order. -/
def image_pixels (data : List Byte) (c n : Nat) : List Color3 :=
  (List.range n).filterMap (pixel_color data c)

/-- The index records for a list of slots, numbered from `k`: positions as
`uint32_t`, slots as `uint16_t`. -/
def records_from : Nat → List Nat → List ColorIndex
  | _, [] => []
  | k, s :: rest => { pixelIndex := to_u32 k, colorIndex := to_u16 s } :: records_from (k + 1) rest

/-- The 3-channel buffer that keeps the first three samples of each of the
first `n` pixels of a `c`-channel buffer. -/
def rgb_only (data : List Byte) (c n : Nat) : List Byte :=
  (image_pixels data c n).flatMap color_bytes

/-- Invariant of the specification's scan of `pixels`: every assigned slot is a
palette slot; no palette entry is accepted by the equality policy against an
earlier entry; and `first` lists, for each palette slot `j`, the pixel that
appended entry `j`: it is assigned slot `j`, its colour is entry `j`, every
pixel before it is assigned a smaller slot, and these pixels come in
increasing order. -/
def Assigned (pixels : List Color3) (st : List Color3 × List Nat) : Prop :=
  st.2.length = pixels.length
  ∧ (∀ (i s : Nat), st.2[i]? = some s → s < st.1.length)
  ∧ (∀ (i j : Nat) (qi qj : Color3), i < j → st.1[i]? = some qi → st.1[j]? = some qj →
      color_equals qj qi = false)
  ∧ ∃ first : List Nat, first.length = st.1.length
      ∧ List.Pairwise (fun a b : Nat => a < b) first
      ∧ ∀ (j kj : Nat), first[j]? = some kj →
          st.2[kj]? = some j ∧ pixels[kj]? = st.1[j]?
          ∧ ∀ (i s : Nat), i < kj → st.2[i]? = some s → s < j

/-! ### The target width -/

/-- The conversion `static_cast<double>` of an `int`. -/
def int_to_double (z : Int) : Flt := binary64.round (z : ℚ)

/-- Truncation toward zero. -/
def truncate (q : ℚ) : Int := if 0 ≤ q then ⌊q⌋ else ⌈q⌉

/-- The conversion `static_cast<int>` of a `double`: the fractional part is
discarded; undefined for NaN, for the infinities and when the truncated value
is outside the range of `int`. -/
def double_to_int : Flt → Option Int
  | .finite q => checked_int (truncate q)
  | .inf _ => none
  | .nan => none

/-- Line 81 of `main`: `desiredWidth`, computed in `double` from the width and
height of the loaded image and the requested height. -/
def desired_width (width height desiredHeight : Int) : Option Int :=
  double_to_int
    (Flt.mul binary64 (Flt.div binary64 (int_to_double width) (int_to_double height))
      (int_to_double desiredHeight))

/-! ## Facts about blocks and `memcpy` -/

theorem object_bytes_length (k n : Nat) : (object_bytes k n).length = k := by
  induction k generalizing n with
  | zero => rfl
  | succ k ih => simp [object_bytes, ih]

theorem malloc_length (heap : Nat → Byte) (n : Nat) : (malloc heap n).length = n := by
  simp [malloc]

/-- Writing `n` bytes at the cursor, when the block is `done ++ rest` and the
cursor stands at the end of `done`. -/
theorem memcpy_at_cursor (done rest src : List Byte) (p n : Nat) (hp : p = done.length)
    (hsrc : n ≤ src.length) (hrest : n ≤ rest.length) :
    memcpy (done ++ rest) p src n = some ((done ++ src.take n) ++ rest.drop n) := by
  subst hp
  unfold memcpy
  have hb : done.length + n ≤ (done ++ rest).length := by simp; omega
  rw [if_pos ⟨hsrc, hb⟩]
  simp [List.take_append_eq_append_take, List.drop_append_eq_append_drop, List.drop_of_length_le]

theorem write_colors_at_cursor (colors : List Color3) :
    ∀ (done rest : List Byte) (p : Nat), p = done.length → 3 * colors.length ≤ rest.length →
      write_colors colors (done ++ rest) p =
        some (done ++ colors.flatMap color_bytes ++ rest.drop (3 * colors.length),
          p + 3 * colors.length) := by
  induction colors with
  | nil => intro done rest p _ _; simp [write_colors]
  | cons c cs ih =>
    intro done rest p hp h
    simp only [List.length_cons] at h
    rw [write_colors, memcpy_at_cursor done rest [c.r] p 1 hp (by simp) (by omega)]
    simp only [Option.some_bind]
    rw [memcpy_at_cursor (done ++ [c.r].take 1) (rest.drop 1) [c.g] (p + 1) 1 (by simp [hp])
      (by simp) (by simp; omega)]
    simp only [Option.some_bind]
    rw [memcpy_at_cursor (done ++ [c.r].take 1 ++ [c.g].take 1) ((rest.drop 1).drop 1) [c.b]
      (p + 2) 1 (by simp [hp]) (by simp) (by simp; omega)]
    simp only [Option.some_bind]
    rw [ih _ _ (p + 3) (by simp [hp]) (by simp; omega)]
    simp only [List.drop_drop, List.flatMap_cons, List.length_cons, List.append_assoc,
      List.singleton_append, List.cons_append, List.nil_append, Option.some.injEq, Prod.mk.injEq,
      List.take_succ_cons, List.take_zero, color_bytes]
    constructor
    · rw [show 1 + 1 + 1 + 3 * cs.length = 3 * (cs.length + 1) by omega]
    · omega

theorem u32_object_eq (v : Fin 4294967296) : u32_object v = le32 v.val := by
  simp [u32_object, SIZEOF_U32, object_bytes, le32, Nat.div_div_eq_div_mul]

theorem u32_object_take3 (v : Fin 4294967296) :
    (u32_object v).take PIXEL_INDEX_SIZE_BYTES = le24 v.val := by
  simp [u32_object_eq, le32, le24, PIXEL_INDEX_SIZE_BYTES]

theorem u32_object_take2 (v : Fin 4294967296) :
    (u32_object v).take COLOR_INDEX_SIZE_BYTES = le16 v.val := by
  simp [u32_object_eq, le32, le16, COLOR_INDEX_SIZE_BYTES]

theorem to_u32_u16_val (c : Fin 65536) : (to_u32 c.val).val = c.val := by
  have := c.isLt
  simp only [to_u32]
  omega

theorem write_indices_at_cursor (indices : List ColorIndex) :
    ∀ (done rest : List Byte) (p : Nat), p = done.length → 5 * indices.length ≤ rest.length →
      write_indices indices (done ++ rest) p =
        some (done ++ indices.flatMap record_bytes ++ rest.drop (5 * indices.length),
          p + 5 * indices.length) := by
  induction indices with
  | nil => intro done rest p _ _; simp [write_indices]
  | cons x xs ih =>
    intro done rest p hp h
    simp only [List.length_cons] at h
    have hlen : ∀ v, (u32_object v).length = 4 := fun v => by simp [u32_object_eq, le32]
    simp only [write_indices]
    rw [memcpy_at_cursor done rest _ p _ hp (by simp [hlen, PIXEL_INDEX_SIZE_BYTES])
      (by simp [PIXEL_INDEX_SIZE_BYTES]; omega)]
    simp only [Option.some_bind, u32_object_take3]
    rw [memcpy_at_cursor (done ++ le24 x.pixelIndex.val) (rest.drop PIXEL_INDEX_SIZE_BYTES) _ _ _
      (by simp [hp, le24, PIXEL_INDEX_SIZE_BYTES]) (by simp [hlen, COLOR_INDEX_SIZE_BYTES])
      (by simp [PIXEL_INDEX_SIZE_BYTES, COLOR_INDEX_SIZE_BYTES]; omega)]
    simp only [Option.some_bind, u32_object_take2, to_u32_u16_val]
    rw [ih _ _ _ (by simp [hp, le24, le16, PIXEL_INDEX_SIZE_BYTES, COLOR_INDEX_SIZE_BYTES])
      (by simp [PIXEL_INDEX_SIZE_BYTES, COLOR_INDEX_SIZE_BYTES]; omega)]
    simp only [List.drop_drop, List.flatMap_cons, List.length_cons, List.append_assoc,
      Option.some.injEq, Prod.mk.injEq, record_bytes, PIXEL_INDEX_SIZE_BYTES,
      COLOR_INDEX_SIZE_BYTES]
    constructor
    · rw [show 2 + 3 + 5 * xs.length = 5 * (xs.length + 1) by omega]
    · omega

theorem int_to_u32_natCast (w : Nat) (h : w < 4294967296) : (int_to_u32 (w : Int)).val = w := by
  simp only [int_to_u32, to_u32]
  omega

theorem header_object_eq (hd : Header) :
    hd.object = le32 hd.width.val ++ le32 hd.height.val ++ le32 hd.colorDataSize.val := by
  simp [Header.object, u32_object_eq]

theorem flatMap_color_bytes_length (colors : List Color3) :
    (colors.flatMap color_bytes).length = 3 * colors.length := by
  induction colors with
  | nil => rfl
  | cons c cs ih => simp [List.flatMap_cons, color_bytes, ih]; omega

theorem flatMap_record_bytes_length (indices : List ColorIndex) :
    (indices.flatMap record_bytes).length = 5 * indices.length := by
  induction indices with
  | nil => rfl
  | cons c cs ih => simp [List.flatMap_cons, record_bytes, le24, le16, ih]; omega

/-- The blob of section 3 of the specification, written out. -/
theorem encode_image_data_eq (heap : Nat → Byte) (colors : List Color3)
    (indices : List ColorIndex) (width height : Int) :
    encode_image_data heap colors indices width height =
      some (le32 (int_to_u32 width).val ++ le32 (int_to_u32 height).val
          ++ le32 (3 * colors.length % 4294967296)
          ++ colors.flatMap color_bytes ++ indices.flatMap record_bytes,
        12 + 3 * colors.length + 5 * indices.length) := by
  unfold encode_image_data
  simp only []
  have hm := malloc_length heap
    (SIZEOF_HEADER + colors.length * 3
      + indices.length * (COLOR_INDEX_SIZE_BYTES + PIXEL_INDEX_SIZE_BYTES))
  generalize malloc heap (SIZEOF_HEADER + colors.length * 3
      + indices.length * (COLOR_INDEX_SIZE_BYTES + PIXEL_INDEX_SIZE_BYTES)) = block at hm ⊢
  simp only [SIZEOF_HEADER, COLOR_INDEX_SIZE_BYTES, PIXEL_INDEX_SIZE_BYTES, header_object_eq]
    at hm ⊢
  have hv : (to_u32 (colors.length * 3)).val = 3 * colors.length % 4294967296 := by
    simp [to_u32, Nat.mul_comm]
  rw [hv]
  generalize hH : le32 (int_to_u32 width).val ++ le32 (int_to_u32 height).val
    ++ le32 (3 * colors.length % 4294967296) = hdr
  have hlen : hdr.length = 12 := by rw [← hH]; simp [le32]
  have h0 := memcpy_at_cursor [] block hdr 0 12 rfl (by omega) (by omega)
  rw [List.nil_append] at h0
  rw [h0]
  simp only [Option.some_bind, List.nil_append]
  have htake : List.take 12 hdr = hdr := List.take_of_length_le (by omega)
  rw [htake, write_colors_at_cursor colors _ _ 12 (by omega) (by simp; omega)]
  simp only [Option.some_bind]
  rw [write_indices_at_cursor indices _ _ _
    (by simp only [List.length_append, hlen, flatMap_color_bytes_length]) (by simp; omega)]
  have hdrop : List.drop (5 * indices.length) (List.drop (3 * colors.length) (List.drop 12 block))
      = [] := by
    apply List.drop_of_length_le
    simp
    omega
  simp only [hdrop, List.append_nil]
  rw [show 12 + colors.length * 3 + indices.length * (2 + 3)
    = 12 + 3 * colors.length + 5 * indices.length by omega]
  rfl

/-- C1. For width and height in `[0, 2^32)`, any palette and any index-record
sequence, `encode_image_data` returns a block that is exactly: width, height and
`(3 * |P|) mod 2^32` as 4 little-endian bytes each, the `r, g, b` bytes of each
palette colour in order, then per record the low 3 little-endian bytes of
`pixelIndex` followed by the 2 little-endian bytes of `colorIndex`; the reported
`totalDataSize` is `12 + 3*|P| + 5*|R|`, which is also the length of the block
(no padding, every byte of the block written). -/
theorem encode_image_data_layout (heap : Nat → Byte) (colors : List Color3)
    (indices : List ColorIndex) (width height : Nat)
    (hw : width < 4294967296) (hh : height < 4294967296) :
    ∃ blob : List Byte,
      blob = [to_u8 width, to_u8 (width / 256), to_u8 (width / 65536), to_u8 (width / 16777216)]
          ++ [to_u8 height, to_u8 (height / 256), to_u8 (height / 65536),
              to_u8 (height / 16777216)]
          ++ [to_u8 (3 * colors.length % 4294967296),
              to_u8 (3 * colors.length % 4294967296 / 256),
              to_u8 (3 * colors.length % 4294967296 / 65536),
              to_u8 (3 * colors.length % 4294967296 / 16777216)]
          ++ colors.flatMap (fun c => [c.r, c.g, c.b])
          ++ indices.flatMap (fun x =>
              [to_u8 x.pixelIndex.val, to_u8 (x.pixelIndex.val / 256),
               to_u8 (x.pixelIndex.val / 65536),
               to_u8 x.colorIndex.val, to_u8 (x.colorIndex.val / 256)])
      ∧ encode_image_data heap colors indices (width : Int) (height : Int)
          = some (blob, 12 + 3 * colors.length + 5 * indices.length)
      ∧ blob.length = 12 + 3 * colors.length + 5 * indices.length := by
  refine ⟨_, rfl, ?_, ?_⟩
  · rw [encode_image_data_eq, int_to_u32_natCast width hw, int_to_u32_natCast height hh]
    rfl
  · have h1 := flatMap_color_bytes_length colors
    have h2 := flatMap_record_bytes_length indices
    simp only [List.length_append, List.length_cons, List.length_nil]
    have e1 : (colors.flatMap (fun c => [c.r, c.g, c.b])).length = 3 * colors.length := h1
    have e2 : (indices.flatMap (fun x =>
              [to_u8 x.pixelIndex.val, to_u8 (x.pixelIndex.val / 256),
               to_u8 (x.pixelIndex.val / 65536),
               to_u8 x.colorIndex.val, to_u8 (x.colorIndex.val / 256)])).length
        = 5 * indices.length := h2
    rw [e1, e2]

/-- Witness for C1: a 2 x 1 image with a one-colour palette and two records. -/
theorem encode_image_data_layout_witness :
    ∃ blob : List Byte,
      blob = [2, 0, 0, 0, 1, 0, 0, 0, 3, 0, 0, 0, 10, 20, 30, 0, 0, 0, 0, 0, 1, 0, 0, 0, 0]
      ∧ encode_image_data (fun _ => 0) [⟨10, 20, 30⟩] [⟨0, 0⟩, ⟨1, 0⟩] 2 1 = some (blob, 25)
      ∧ blob.length = 25 :=
  encode_image_data_layout (fun _ => 0) [⟨10, 20, 30⟩] [⟨0, 0⟩, ⟨1, 0⟩] 2 1
    (by decide) (by decide)

/-! ## The attribute table -/

theorem entry_bytes_length (e : CString × List Byte) :
    (entry_bytes e).length = 9 + e.1.chars.length + e.2.length := by
  simp [entry_bytes, le32]
  omega

theorem flatMap_entry_bytes_length (es : List (CString × List Byte)) :
    (es.flatMap entry_bytes).length
      = (es.map (fun e => 9 + e.1.chars.length + e.2.length)).sum := by
  induction es with
  | nil => rfl
  | cons e es ih => simp [List.flatMap_cons, entry_bytes_length, ih]

theorem getElem?_map_at_length {α β : Type} (f : α → β) (ed : List α) (e : α) (er : List α)
    (i : Nat) (hi : i = ed.length) : ((ed ++ e :: er).map f)[i]? = some (f e) := by
  subst hi
  rw [List.map_append, List.getElem?_append_right (by simp)]
  simp

theorem attributes_size_loop_eq (er : List (CString × List Byte)) :
    ∀ (ed : List (CString × List Byte)) (i : Nat) (nl : List (Fin 4294967296)) (t : Nat),
      i = ed.length → (∀ e ∈ er, e.1.chars.length < 4294967296) →
      attributes_size_loop ((ed ++ er).map Prod.fst) ((ed ++ er).map (fun e => e.2.length))
          er.length i (nl, t)
        = some (nl ++ er.map (fun e => to_u32 (strlen e.1)),
            t + (er.map (fun e => 9 + e.1.chars.length + e.2.length)).sum) := by
  induction er with
  | nil => intro ed i nl t _ _; simp [attributes_size_loop]
  | cons e er ih =>
    intro ed i nl t hi hn
    have hlen : e.1.chars.length < 4294967296 := hn e (List.mem_cons_self _ _)
    have hv : (to_u32 (strlen e.1)).val = e.1.chars.length := by
      simp only [to_u32, strlen]
      omega
    simp only [List.length_cons, attributes_size_loop]
    rw [getElem?_map_at_length _ ed e er i hi, getElem?_map_at_length _ ed e er i hi]
    simp only [Option.some_bind, hv, SIZEOF_U32]
    have h := ih (ed ++ [e]) (i + 1) (nl ++ [to_u32 (strlen e.1)])
      (t + (e.1.chars.length + 4) + e.2.length + 1 + 4) (by simp [hi])
      (fun x hx => hn x (List.mem_cons_of_mem _ hx))
    simp only [List.append_assoc, List.singleton_append] at h
    rw [h]
    simp only [List.map_cons, List.sum_cons, Option.some.injEq, Prod.mk.injEq, true_and]
    omega

theorem le32_to_u32 (n : Nat) : le32 (to_u32 n).val = le32 n := by
  simp only [le32, to_u32, to_u8, List.cons.injEq, Fin.mk.injEq, and_true]
  omega

theorem attributes_fill_loop_eq (er : List (CString × List Byte)) :
    ∀ (ed : List (CString × List Byte)) (i : Nat) (done rest : List Byte) (p : Nat),
      i = ed.length → p = done.length →
      (∀ e ∈ er, e.1.chars.length < 4294967296) →
      (er.flatMap entry_bytes).length ≤ rest.length →
      attributes_fill_loop ((ed ++ er).map Prod.fst) ((ed ++ er).map Prod.snd)
          ((ed ++ er).map (fun e => e.2.length))
          ((ed ++ er).map (fun e => to_u32 (strlen e.1))) er.length i (done ++ rest, p)
        = some (done ++ er.flatMap entry_bytes ++ rest.drop (er.flatMap entry_bytes).length,
            p + (er.flatMap entry_bytes).length) := by
  induction er with
  | nil => intro ed i done rest p _ _ _ _; simp [attributes_fill_loop]
  | cons e er ih =>
    intro ed i done rest p hi hp hn hr
    have hlen := hn e (List.mem_cons_self _ _)
    have hv : (to_u32 (strlen e.1)).val = e.1.chars.length := by
      simp only [to_u32, strlen]
      omega
    have hd : le32 (to_u32 e.2.length).val = le32 e.2.length := le32_to_u32 _
    have hobj : ∀ v, (u32_object v).length = 4 := fun v => by simp [u32_object_eq, le32]
    have hobj2 : ∀ v, (u32_object v).take 4 = le32 v.val := fun v => by
      simp [u32_object_eq, le32]
    simp only [List.flatMap_cons, List.length_append, entry_bytes_length] at hr
    simp only [List.length_cons, attributes_fill_loop]
    rw [getElem?_map_at_length _ ed e er i hi, getElem?_map_at_length _ ed e er i hi,
      getElem?_map_at_length _ ed e er i hi, getElem?_map_at_length _ ed e er i hi]
    simp only [Option.some_bind, hv, hd, SIZEOF_U32]
    rw [memcpy_at_cursor done rest _ p 4 hp (by simp [hobj]) (by omega)]
    simp only [Option.some_bind, hobj2, hv]
    rw [memcpy_at_cursor (done ++ le32 e.1.chars.length) (rest.drop 4) e.1.bytes _
      e.1.chars.length (by simp [hp, le32]; try omega) (by simp [CString.bytes]) (by simp; omega)]
    have htk : List.take e.1.chars.length e.1.bytes = e.1.chars := by
      simp [CString.bytes]
    simp only [Option.some_bind, htk]
    rw [memcpy_at_cursor (done ++ le32 e.1.chars.length ++ e.1.chars)
      ((rest.drop 4).drop e.1.chars.length) [2] _ 1 (by simp [hp, le32]; try omega) (by simp)
      (by simp; omega)]
    simp only [Option.some_bind]
    rw [memcpy_at_cursor (done ++ le32 e.1.chars.length ++ e.1.chars ++ List.take 1 [2])
      (((rest.drop 4).drop e.1.chars.length).drop 1) _ _ 4 (by simp [hp, le32]; try omega)
      (by simp [hobj]) (by simp; omega)]
    simp only [Option.some_bind, hobj2, hd]
    rw [memcpy_at_cursor
      (done ++ le32 e.1.chars.length ++ e.1.chars ++ List.take 1 [2] ++ le32 e.2.length)
      ((((rest.drop 4).drop e.1.chars.length).drop 1).drop 4) e.2 _ e.2.length
      (by simp [hp, le32]; omega) (by simp) (by simp; omega)]
    simp only [Option.some_bind, List.take_length]
    have h := ih (ed ++ [e]) (i + 1)
      (done ++ le32 e.1.chars.length ++ e.1.chars ++ List.take 1 [2] ++ le32 e.2.length ++ e.2)
      (((((rest.drop 4).drop e.1.chars.length).drop 1).drop 4).drop e.2.length)
      (p + 4 + e.1.chars.length + 1 + 4 + e.2.length) (by simp [hi])
      (by simp [hp, le32]; omega) (fun x hx => hn x (List.mem_cons_of_mem _ hx))
      (by simp only [List.length_drop]; omega)
    simp only [List.append_assoc, List.singleton_append] at h
    simp only [List.append_assoc]
    rw [h]
    simp only [List.drop_drop, List.flatMap_cons, List.length_append, entry_bytes_length,
      Option.some.injEq, Prod.mk.injEq]
    constructor
    · simp only [entry_bytes, List.append_assoc, List.take_succ_cons, List.take_zero,
        List.singleton_append, List.cons_append, List.nil_append]
      rw [show 4 + e.1.chars.length + 1 + 4 + e.2.length + (er.flatMap entry_bytes).length
        = 9 + e.1.chars.length + e.2.length + (er.flatMap entry_bytes).length by omega]
    · omega

/-- The table of section 4.4 written by lines 333-368, for arrays that hold the
entries `es`. -/
theorem attribute_table_eq (heap : Nat → Byte) (es : List (CString × List Byte))
    (hN : es.length < 4294967296) (hlen : ∀ e ∈ es, e.1.chars.length < 4294967296) :
    attribute_table heap (es.map Prod.fst) (es.map Prod.snd) (es.map (fun e => e.2.length))
        ⟨es.length, hN⟩
      = some (le32 es.length ++ es.flatMap entry_bytes,
          4 + (es.map (fun e => 9 + e.1.chars.length + e.2.length)).sum) := by
  unfold attribute_table
  have h1 := attributes_size_loop_eq es [] 0 [] SIZEOF_U32 rfl hlen
  simp only [List.nil_append] at h1
  rw [h1]
  simp only [Option.some_bind, SIZEOF_U32]
  have hm := malloc_length heap (4 + (es.map (fun e => 9 + e.1.chars.length + e.2.length)).sum)
  generalize malloc heap (4 + (es.map (fun e => 9 + e.1.chars.length + e.2.length)).sum)
    = block at hm ⊢
  have hobj : (u32_object ⟨es.length, hN⟩).take 4 = le32 es.length := by
    simp [u32_object_eq, le32]
  have h0 := memcpy_at_cursor [] block (u32_object ⟨es.length, hN⟩) 0 4 rfl
    (by simp [u32_object_eq, le32]) (by omega)
  rw [List.nil_append] at h0
  rw [h0]
  simp only [Option.some_bind, List.nil_append, hobj]
  have h2 := attributes_fill_loop_eq es [] 0 (le32 es.length) (block.drop 4) 4 rfl
    (by simp [le32]) hlen
    (by rw [flatMap_entry_bytes_length]; simp only [List.length_drop]; omega)
  simp only [List.nil_append] at h2
  rw [h2]
  have hdrop : List.drop (es.flatMap entry_bytes).length (List.drop 4 block) = [] := by
    apply List.drop_of_length_le
    rw [flatMap_entry_bytes_length]
    simp only [List.length_drop]
    omega
  simp only [Option.some_bind, hdrop, List.append_nil]

/-- C10. For `N < 2^32` attribute entries whose name and data lengths are below
`2^32`, the buffer `encode_rbxmx_attributes` hands to the base64 encoder is
exactly: `N` as 4 little-endian bytes, then per entry in order the name length
(4 bytes LE), the name bytes, the byte 2, the data length (4 bytes LE) and the
data bytes; its length, which is the `totalSize` passed along, is
`4 + sum (9 + |name_i| + |data_i|)`. -/
theorem encode_rbxmx_attributes_layout (base64 : List Byte → List Byte) (heap : Nat → Byte)
    (es : List (CString × List Byte)) (hN : es.length < 4294967296)
    (hlen : ∀ e ∈ es, e.1.chars.length < 4294967296 ∧ e.2.length < 4294967296) :
    ∃ table : List Byte,
      table = le32 es.length
          ++ es.flatMap (fun e =>
              le32 e.1.chars.length ++ e.1.chars ++ [2] ++ le32 e.2.length ++ e.2)
      ∧ attribute_table heap (es.map Prod.fst) (es.map Prod.snd)
            (es.map (fun e => e.2.length)) ⟨es.length, hN⟩
          = some (table, 4 + (es.map (fun e => 9 + e.1.chars.length + e.2.length)).sum)
      ∧ table.length = 4 + (es.map (fun e => 9 + e.1.chars.length + e.2.length)).sum
      ∧ encode_rbxmx_attributes base64 heap (es.map Prod.fst) (es.map Prod.snd)
            (es.map (fun e => e.2.length)) ⟨es.length, hN⟩
          = some (base64 table) := by
  have hl : (le32 es.length ++ es.flatMap entry_bytes).length
      = 4 + (es.map (fun e => 9 + e.1.chars.length + e.2.length)).sum := by
    rw [List.length_append, flatMap_entry_bytes_length]
    simp [le32]
  have hnames : ∀ e ∈ es, e.1.chars.length < 4294967296 := fun e he => (hlen e he).1
  refine ⟨_, rfl, attribute_table_eq heap es hN hnames, hl, ?_⟩
  unfold encode_rbxmx_attributes
  rw [attribute_table_eq heap es hN hnames]
  simp only [Option.some_bind]
  rw [List.take_of_length_le (by rw [hl])]
  rfl

/-- Witness for C10: the single entry `("RawData", [1, 2, 3])`. -/
theorem encode_rbxmx_attributes_layout_witness :
    ∃ table : List Byte,
      table = [1, 0, 0, 0] ++ ([7, 0, 0, 0] ++ [82, 97, 119, 68, 97, 116, 97] ++ [2]
          ++ [3, 0, 0, 0] ++ [1, 2, 3] ++ [])
      ∧ attribute_table (fun _ => 0) [RawData] [[1, 2, 3]] [3] ⟨1, by decide⟩
          = some (table, 4 + (19 + 0))
      ∧ table.length = 4 + (19 + 0)
      ∧ encode_rbxmx_attributes id (fun _ => 0) [RawData] [[1, 2, 3]] [3] ⟨1, by decide⟩
          = some (id table) :=
  encode_rbxmx_attributes_layout id (fun _ => 0) [(RawData, [1, 2, 3])] (by decide)
    (by
      intro e he
      rw [List.mem_singleton] at he
      subst he
      exact ⟨by decide, by decide⟩)

/-! ## Round trip -/

theorem read_le_le32 (n : Nat) (rest : List Byte) :
    read_le 4 (le32 n ++ rest) = n % 4294967296 := by
  simp only [le32, List.cons_append, List.nil_append, read_le, to_u8]
  omega

theorem decode_colors_flatMap (colors : List Color3) (rest : List Byte) :
    decode_colors colors.length (colors.flatMap color_bytes ++ rest) = some (colors, rest) := by
  induction colors with
  | nil => simp [decode_colors]
  | cons c cs ih =>
    show decode_colors (cs.length + 1)
      (c.r :: c.g :: c.b :: (cs.flatMap color_bytes ++ rest)) = _
    rw [decode_colors, ih]
    rfl

theorem decode_record_bytes (x : ColorIndex) (hx : x.pixelIndex.val < 16777216) :
    to_u32 (read_le 3 [to_u8 x.pixelIndex.val, to_u8 (x.pixelIndex.val / 256),
        to_u8 (x.pixelIndex.val / 65536)]) = x.pixelIndex
    ∧ to_u16 (read_le 2 [to_u8 x.colorIndex.val, to_u8 (x.colorIndex.val / 256)])
        = x.colorIndex := by
  have hc := x.colorIndex.isLt
  constructor
  · apply Fin.ext
    simp only [read_le, to_u8, to_u32]
    omega
  · apply Fin.ext
    simp only [read_le, to_u8, to_u16]
    omega

theorem decode_records_flatMap (indices : List ColorIndex)
    (h : ∀ x ∈ indices, x.pixelIndex.val < 16777216) :
    decode_records (indices.flatMap record_bytes) = some indices := by
  induction indices with
  | nil => simp [decode_records]
  | cons x xs ih =>
    have hx := decode_record_bytes x (h x (List.mem_cons_self _ _))
    have ih2 := ih (fun y hy => h y (List.mem_cons_of_mem _ hy))
    show decode_records (to_u8 x.pixelIndex.val :: to_u8 (x.pixelIndex.val / 256)
      :: to_u8 (x.pixelIndex.val / 65536) :: to_u8 x.colorIndex.val
      :: to_u8 (x.colorIndex.val / 256) :: xs.flatMap record_bytes) = _
    rw [decode_records, ih2, hx.1, hx.2]
    rfl

theorem decode_image_blob_eq (colors : List Color3) (indices : List ColorIndex)
    (width height : Nat) (hw : width < 4294967296) (hh : height < 4294967296)
    (hP : 3 * colors.length < 4294967296)
    (hR : ∀ x ∈ indices, x.pixelIndex.val < 16777216) :
    decode_image_blob (le32 width ++ le32 height ++ le32 (3 * colors.length % 4294967296)
        ++ colors.flatMap color_bytes ++ indices.flatMap record_bytes)
      = some (width, height, colors, indices) := by
  unfold decode_image_blob
  have hlen : ¬ (le32 width ++ le32 height ++ le32 (3 * colors.length % 4294967296)
        ++ colors.flatMap color_bytes ++ indices.flatMap record_bytes).length < 12 := by
    simp [le32]
  rw [if_neg hlen]
  have e4 : ∀ (a b : List Byte) (n : Nat), List.drop 4 (le32 n ++ a ++ b) = a ++ b := by
    intro a b n
    simp [le32]
  have d4 : (le32 width ++ le32 height ++ le32 (3 * colors.length % 4294967296)
        ++ colors.flatMap color_bytes ++ indices.flatMap record_bytes).drop 4
      = le32 height ++ (le32 (3 * colors.length % 4294967296)
        ++ colors.flatMap color_bytes ++ indices.flatMap record_bytes) := by
    simp [le32]
  have d8 : (le32 width ++ le32 height ++ le32 (3 * colors.length % 4294967296)
        ++ colors.flatMap color_bytes ++ indices.flatMap record_bytes).drop 8
      = le32 (3 * colors.length % 4294967296)
        ++ (colors.flatMap color_bytes ++ indices.flatMap record_bytes) := by
    simp [le32]
  have d12 : (le32 width ++ le32 height ++ le32 (3 * colors.length % 4294967296)
        ++ colors.flatMap color_bytes ++ indices.flatMap record_bytes).drop 12
      = colors.flatMap color_bytes ++ indices.flatMap record_bytes := by
    simp [le32]
  have d0 : le32 width ++ le32 height ++ le32 (3 * colors.length % 4294967296)
        ++ colors.flatMap color_bytes ++ indices.flatMap record_bytes
      = le32 width ++ (le32 height ++ le32 (3 * colors.length % 4294967296)
        ++ colors.flatMap color_bytes ++ indices.flatMap record_bytes) := by
    simp only [List.append_assoc]
  simp only [d4, d8, d12, read_le_le32]
  rw [d0, read_le_le32]
  have hn : 3 * colors.length % 4294967296 % 4294967296 / 3 = colors.length := by omega
  rw [hn, decode_colors_flatMap]
  simp only [Option.some_bind, decode_records_flatMap indices hR]
  rw [Nat.mod_eq_of_lt hw, Nat.mod_eq_of_lt hh]

theorem decode_attributes_table (blob : List Byte) :
    decode_attributes (le32 1 ++ [(RawData, blob)].flatMap entry_bytes)
      = decode_image_blob blob := by
  have h16 : (le32 1 ++ [(RawData, blob)].flatMap entry_bytes).take 16
      = le32 1 ++ le32 7 ++ RawData.chars ++ [2] := by
    simp [entry_bytes, le32, RawData]
  have h20 : (le32 1 ++ [(RawData, blob)].flatMap entry_bytes).drop 20 = blob := by
    simp [entry_bytes, le32, RawData]
  have hl : 20 ≤ (le32 1 ++ [(RawData, blob)].flatMap entry_bytes).length := by
    simp [entry_bytes, le32, RawData]
  unfold decode_attributes
  rw [if_pos ⟨h16, hl⟩, h20]

/-- C2. Round trip. For width, height in `[0, 2^32)`, a palette with
`3 * |P| < 2^32` and index records whose `pixelIndex` is below `2^24`: the
attribute table that `encode_rbxmx_attributes` builds (and passes to base64)
for the single entry `"RawData"` whose data is the block returned by
`encode_image_data` is decoded by `decode_attributes` to exactly
`(width, height, P, R)`. The encoding is therefore injective on this domain. -/
theorem attribute_table_round_trip (heap heap2 : Nat → Byte) (colors : List Color3)
    (indices : List ColorIndex) (width height : Nat)
    (hw : width < 4294967296) (hh : height < 4294967296)
    (hP : 3 * colors.length < 4294967296)
    (hR : ∀ x ∈ indices, x.pixelIndex.val < 16777216) :
    ∃ (blob table : List Byte) (totalDataSize : Nat),
      encode_image_data heap colors indices (width : Int) (height : Int)
          = some (blob, totalDataSize)
      ∧ attribute_table heap2 [RawData] [blob] [totalDataSize] ⟨1, by decide⟩
          = some (table, table.length)
      ∧ (∀ base64 : List Byte → List Byte,
          encode_rbxmx_attributes base64 heap2 [RawData] [blob] [totalDataSize] ⟨1, by decide⟩
            = some (base64 table))
      ∧ decode_attributes table = some (width, height, colors, indices) := by
  have hblob := encode_image_data_eq heap colors indices (width : Int) (height : Int)
  rw [int_to_u32_natCast width hw, int_to_u32_natCast height hh] at hblob
  generalize hb : le32 width ++ le32 height ++ le32 (3 * colors.length % 4294967296)
    ++ colors.flatMap color_bytes ++ indices.flatMap record_bytes = blob at hblob
  have hbl : blob.length = 12 + 3 * colors.length + 5 * indices.length := by
    rw [← hb]
    simp only [List.length_append, flatMap_color_bytes_length, flatMap_record_bytes_length]
    simp [le32]
  have htab := attribute_table_eq heap2 [(RawData, blob)]
    (by simp only [List.length_singleton]; decide)
    (by
      intro e he
      rw [List.mem_singleton] at he
      subst he
      show RawData.chars.length < 4294967296
      decide)
  have htl : (le32 1 ++ [(RawData, blob)].flatMap entry_bytes).length
      = 4 + ([(RawData, blob)].map (fun e => 9 + e.1.chars.length + e.2.length)).sum := by
    rw [List.length_append, flatMap_entry_bytes_length]
    simp [le32]
  refine ⟨blob, le32 1 ++ [(RawData, blob)].flatMap entry_bytes,
    12 + 3 * colors.length + 5 * indices.length, hblob, ?_, ?_, ?_⟩
  · rw [htl, ← hbl]
    exact htab
  · intro base64
    unfold encode_rbxmx_attributes
    rw [← hbl]
    have htab2 : attribute_table heap2 [RawData] [blob] [blob.length] ⟨1, by decide⟩
        = some (le32 1 ++ [(RawData, blob)].flatMap entry_bytes,
            4 + ([(RawData, blob)].map (fun e => 9 + e.1.chars.length + e.2.length)).sum) :=
      htab
    rw [htab2]
    simp only [Option.some_bind]
    rw [List.take_of_length_le (by rw [htl])]
  · rw [decode_attributes_table, ← hb]
    exact decode_image_blob_eq colors indices width height hw hh hP hR

/-- Witness for C2: a 2 x 1 image, one palette colour, two records. -/
theorem attribute_table_round_trip_witness :
    ∃ (blob table : List Byte) (totalDataSize : Nat),
      encode_image_data (fun _ => 0) [⟨10, 20, 30⟩] [⟨0, 0⟩, ⟨1, 0⟩] 2 1
          = some (blob, totalDataSize)
      ∧ attribute_table (fun _ => 255) [RawData] [blob] [totalDataSize] ⟨1, by decide⟩
          = some (table, table.length)
      ∧ (∀ base64 : List Byte → List Byte,
          encode_rbxmx_attributes base64 (fun _ => 255) [RawData] [blob] [totalDataSize]
            ⟨1, by decide⟩ = some (base64 table))
      ∧ decode_attributes table = some (2, 1, [⟨10, 20, 30⟩], [⟨0, 0⟩, ⟨1, 0⟩]) :=
  attribute_table_round_trip (fun _ => 0) (fun _ => 255) [⟨10, 20, 30⟩] [⟨0, 0⟩, ⟨1, 0⟩] 2 1
    (by decide) (by decide) (by decide) (by decide)

/-! ## Floating-point rounding and the tolerance test -/

theorem round_half_even_err (x : ℚ) : |(round_half_even x : ℚ) - x| ≤ 1 / 2 := by
  have h1 := Int.floor_le x
  have h2 := Int.lt_floor_add_one x
  unfold round_half_even
  rw [abs_le]
  split_ifs <;> push_cast <;> constructor <;> linarith

theorem round_half_even_intCast (n : ℤ) : round_half_even (n : ℚ) = n := by
  simp [round_half_even]

/-- Relative error of rounding a positive number in the normal range. -/
theorem Format.round_pos_spec (f : Format) (x : ℚ) (hx : 0 < x) (hp : 1 ≤ f.prec)
    (hmin : (2 : ℚ) ^ f.emin ≤ x) (hmax : x * 2 < (2 : ℚ) ^ (f.emax + 1)) :
    ∃ v : ℚ, f.round x = Flt.finite v ∧ |v - x| * 2 ^ f.prec ≤ x := by
  have hlog1 : (2 : ℚ) ^ Int.log 2 x ≤ x := by
    have := Int.zpow_log_le_self (b := 2) (by decide) hx
    simpa using this
  have hemin : f.emin ≤ Int.log 2 x := by
    have := (Int.zpow_le_iff_le_log (b := 2) (by decide) hx (x := f.emin)).1
      (by simpa using hmin)
    exact this
  have hpow : (0 : ℚ) < 2 ^ (f.prec - 1) := by positivity
  have hpp : (2 : ℚ) ^ f.prec = 2 * 2 ^ (f.prec - 1) := by
    rw [← pow_succ']
    congr 1
    omega
  have hz : (0 : ℚ) < (2 : ℚ) ^ Int.log 2 x := by positivity
  set ulp : ℚ := (2 : ℚ) ^ Int.log 2 x / 2 ^ (f.prec - 1) with hulp
  have hulp_pos : 0 < ulp := div_pos hz hpow
  have herr := round_half_even_err (x / ulp)
  set m : ℚ := (round_half_even (x / ulp) : ℚ) with hm
  have hvx : m * ulp - x = (m - x / ulp) * ulp := by
    field_simp
  have habs : |m * ulp - x| ≤ ulp / 2 := by
    rw [hvx, abs_mul, abs_of_pos hulp_pos]
    nlinarith
  have hulp2 : ulp / 2 * 2 ^ f.prec = (2 : ℚ) ^ Int.log 2 x := by
    rw [hpp, hulp]
    generalize (2 : ℚ) ^ Int.log 2 x = a
    have hb : (2 : ℚ) ^ (f.prec - 1) ≠ 0 := hpow.ne'
    generalize (2 : ℚ) ^ (f.prec - 1) = b at hb
    rw [div_div, mul_comm 2 b, div_mul_cancel₀ _ (mul_ne_zero hb two_ne_zero)]
  have hbound : |m * ulp - x| * 2 ^ f.prec ≤ x := by
    have h2p : (0 : ℚ) < 2 ^ f.prec := by positivity
    calc |m * ulp - x| * 2 ^ f.prec ≤ ulp / 2 * 2 ^ f.prec :=
          mul_le_mul_of_nonneg_right habs h2p.le
      _ = (2 : ℚ) ^ Int.log 2 x := hulp2
      _ ≤ x := hlog1
  refine ⟨m * ulp, ?_, hbound⟩
  have hle : m * ulp - x ≤ x := by
    have h1 : (1 : ℚ) ≤ 2 ^ f.prec := one_le_pow₀ (by norm_num)
    have h3 : 0 ≤ |m * ulp - x| := abs_nonneg _
    have h2 : |m * ulp - x| ≤ |m * ulp - x| * 2 ^ f.prec := by nlinarith
    linarith [le_abs_self (m * ulp - x)]
  have hno : ¬ (2 : ℚ) ^ (f.emax + 1) ≤ m * ulp := by
    intro h
    linarith
  unfold Format.round
  rw [if_neg hx.ne']
  simp only [abs_of_pos hx, max_eq_left hemin]
  rw [if_neg hno, if_neg (not_lt.2 hx.le)]


/-- Half-integers of small magnitude are representable: rounding is exact. -/
theorem Format.round_half_int (f : Format) (n : ℤ) (hp : 2 ≤ f.prec) (hemin : f.emin ≤ 0)
    (hemax : (f.prec : ℤ) ≤ f.emax + 2) (hn : |n| < 2 ^ f.prec) :
    f.round ((n : ℚ) / 2) = Flt.finite ((n : ℚ) / 2) := by
  by_cases hn0 : n = 0
  · subst hn0
    simp [Format.round]
  have hx0 : (n : ℚ) / 2 ≠ 0 := by
    have : (n : ℚ) ≠ 0 := by exact_mod_cast hn0
    positivity
  have habsx : |(n : ℚ) / 2| = (|n| : ℤ) / 2 := by
    rw [abs_div, abs_of_pos (by norm_num : (0 : ℚ) < 2)]
    push_cast
    rfl
  have hnpos : (0 : ℚ) < (|n| : ℤ) := by
    have : 0 < |n| := abs_pos.2 hn0
    exact_mod_cast this
  have hxpos : 0 < |(n : ℚ) / 2| := abs_pos.2 hx0
  have hnq : ((|n| : ℤ) : ℚ) < 2 ^ f.prec := by exact_mod_cast hn
  have hpp : (2 : ℚ) ^ f.prec = 2 * 2 ^ (f.prec - 1) := by
    rw [← pow_succ']
    congr 1
    omega
  have hpp1 : (2 : ℚ) ^ (f.prec - 1) = 2 * 2 ^ (f.prec - 2) := by
    rw [← pow_succ']
    congr 1
    omega
  have hxlt : |(n : ℚ) / 2| < (2 : ℚ) ^ (((f.prec - 1 : ℕ) : ℤ)) := by
    rw [zpow_natCast, habsx]
    linarith
  have hlog : Int.log 2 |(n : ℚ) / 2| < ((f.prec - 1 : ℕ) : ℤ) := by
    have := (Int.lt_zpow_iff_log_lt (b := 2) (by decide) hxpos
      (x := ((f.prec - 1 : ℕ) : ℤ))).1 (by simpa using hxlt)
    exact this
  set E : ℤ := max (Int.log 2 |(n : ℚ) / 2|) f.emin with hEdef
  have hE : E ≤ ((f.prec - 2 : ℕ) : ℤ) := by
    apply max_le <;> omega
  obtain ⟨k, hk⟩ : ∃ k : ℕ, ((f.prec - 2 : ℕ) : ℤ) - E = k :=
    ⟨(((f.prec - 2 : ℕ) : ℤ) - E).toNat, by omega⟩
  have hEk : E = ((f.prec - 2 : ℕ) : ℤ) - (k : ℤ) := by omega
  have h2E : (2 : ℚ) ^ E = 2 ^ (f.prec - 2) / 2 ^ k := by
    rw [hEk, zpow_sub₀ (by norm_num), zpow_natCast, zpow_natCast]
  have hk0 : (2 : ℚ) ^ k ≠ 0 := by positivity
  have hq0 : (2 : ℚ) ^ (f.prec - 2) ≠ 0 := by positivity
  have hulp : (2 : ℚ) ^ E / 2 ^ (f.prec - 1) = 1 / (2 * 2 ^ k) := by
    rw [h2E, hpp1]
    field_simp
    ring
  have hquot : |(n : ℚ) / 2| / ((2 : ℚ) ^ E / 2 ^ (f.prec - 1)) = ((|n| * 2 ^ k : ℤ) : ℚ) := by
    rw [hulp, habsx]
    push_cast
    field_simp
    ring
  have hv : ((|n| * 2 ^ k : ℤ) : ℚ) * ((2 : ℚ) ^ E / 2 ^ (f.prec - 1)) = |(n : ℚ) / 2| := by
    rw [hulp, habsx]
    push_cast
    field_simp
    ring
  have hno : ¬ (2 : ℚ) ^ (f.emax + 1) ≤ |(n : ℚ) / 2| := by
    intro h
    have h1 : (2 : ℚ) ^ (((f.prec - 1 : ℕ) : ℤ)) ≤ 2 ^ (f.emax + 1) :=
      zpow_le_zpow_right₀ (by norm_num) (by omega)
    linarith
  unfold Format.round
  rw [if_neg hx0]
  simp only []
  rw [← hEdef, hquot, round_half_even_intCast, hv, if_neg hno]
  congr 1
  split_ifs with hneg
  · rw [abs_of_neg hneg]
    ring
  · rw [abs_of_nonneg (not_lt.1 hneg)]


theorem binary32_round_half_int (n : ℤ) (hn : |n| < 16777216) :
    binary32.round ((n : ℚ) / 2) = Flt.finite ((n : ℚ) / 2) :=
  Format.round_half_int binary32 n (by decide) (by decide) (by decide) (by simpa [binary32] using hn)

theorem binary32_round_int (n : ℤ) (hn : |n| < 8388608) :
    binary32.round (n : ℚ) = Flt.finite (n : ℚ) := by
  have h := binary32_round_half_int (2 * n) (by rw [abs_mul]; norm_num; omega)
  have e : (((2 * n : ℤ) : ℚ)) / 2 = (n : ℚ) := by push_cast; ring
  rwa [e] at h

theorem binary32_round_pos (x : ℚ) (h1 : 1 / 1000 ≤ x) (h2 : x ≤ 1000) :
    ∃ v : ℚ, binary32.round x = Flt.finite v ∧ |v - x| * 16777216 ≤ x := by
  have hx : 0 < x := by linarith
  have hmin : (2 : ℚ) ^ binary32.emin ≤ x := by
    have : (2 : ℚ) ^ binary32.emin ≤ 1 / 1000 := by
      simp only [binary32]
      rw [zpow_neg, inv_le_comm₀ (by positivity) (by norm_num)]
      norm_num
    linarith
  have hmax : x * 2 < (2 : ℚ) ^ (binary32.emax + 1) := by
    have : (2000 : ℚ) < (2 : ℚ) ^ (binary32.emax + 1) := by
      simp only [binary32]
      norm_num
    linarith
  obtain ⟨v, hv, hb⟩ := Format.round_pos_spec binary32 x hx (by decide) hmin hmax
  exact ⟨v, hv, by simpa [binary32] using hb⟩


theorem u8_to_float_eq (a : Byte) : u8_to_float a = Flt.finite (a.val : ℚ) := by
  have h := binary32_round_int (a.val : ℤ) (by have := a.isLt; rw [abs_of_nonneg] <;> omega)
  simpa [u8_to_float] using h

theorem percent_difference_u8 (a b : Byte) :
    percent_difference (u8_to_float a) (u8_to_float b)
      = if a.val + b.val = 0 then Flt.nan
        else binary32.round (|(a.val : ℚ) - b.val| / (((a.val : ℚ) + b.val) / 2)) := by
  have ha := a.isLt
  have hb := b.isLt
  have hsub : binary32.round ((a.val : ℚ) + -(b.val : ℚ)) = Flt.finite ((a.val : ℚ) - b.val) := by
    have h := binary32_round_int ((a.val : ℤ) - b.val) (by rw [abs_lt]; constructor <;> omega)
    push_cast at h
    rw [← sub_eq_add_neg]
    exact h
  have hadd : binary32.round ((a.val : ℚ) + (b.val : ℚ)) = Flt.finite ((a.val : ℚ) + b.val) := by
    have h := binary32_round_int ((a.val : ℤ) + b.val) (by rw [abs_lt]; constructor <;> omega)
    push_cast at h
    exact h
  have hhalf : binary32.round (1 / 2) = Flt.finite (1 / 2) := by
    have h := binary32_round_half_int 1 (by norm_num)
    simpa using h
  have hmul : binary32.round (((a.val : ℚ) + b.val) * (1 / 2))
      = Flt.finite (((a.val : ℚ) + b.val) / 2) := by
    have h := binary32_round_half_int ((a.val : ℤ) + b.val)
      (by rw [abs_lt]; constructor <;> omega)
    push_cast at h
    rw [mul_one_div]
    exact h
  simp only [percent_difference, u8_to_float_eq, Flt.sub, Flt.neg, Flt.add, Flt.abs, Flt.mul,
    Flt.div, hsub, hadd, hhalf, hmul]
  by_cases h0 : a.val + b.val = 0
  · have ha0 : a.val = 0 := by omega
    have hb0 : b.val = 0 := by omega
    simp [ha0, hb0]
  · have hq : ((a.val : ℚ) + b.val) / 2 ≠ 0 := by
      have : (0 : ℚ) < (a.val : ℚ) + b.val := by
        have : 0 < a.val + b.val := by omega
        exact_mod_cast this
      positivity
    rw [if_neg hq, if_neg h0]


theorem abs_le_of_scaled {v q : ℚ} (h : |v - q| * 16777216 ≤ q) :
    q - q / 16777216 ≤ v ∧ v ≤ q + q / 16777216 := by
  have h1 : |v - q| ≤ q / 16777216 := by
    rw [le_div_iff₀ (by norm_num)]
    exact h
  have h2 := abs_le.1 h1
  constructor <;> linarith [h2.1, h2.2]

/-- The `float` comparison of line 197 on one channel pair is the integer
test `20 * |x - y| < x + y`. -/
theorem channel_lt_eq (a b : Byte) :
    Flt.lt (percent_difference (u8_to_float a) (u8_to_float b)) COLOR_FUZZ_PERCENT
      = channel_close a.val b.val := by
  have ha := a.isLt
  have hb := b.isLt
  obtain ⟨c, hc, hcb⟩ := binary32_round_pos (1 / 10) (by norm_num) (by norm_num)
  obtain ⟨hc1, hc2⟩ := abs_le_of_scaled hcb
  rw [percent_difference_u8, COLOR_FUZZ_PERCENT, hc]
  by_cases h0 : a.val + b.val = 0
  · rw [if_pos h0]
    simp [Flt.lt, channel_close, h0]
  rw [if_neg h0]
  have habs : |(a.val : ℚ) - b.val| = (((a.val - b.val) + (b.val - a.val) : ℕ) : ℚ) := by
    rcases le_total a.val b.val with h | h
    · rw [abs_of_nonpos (by simpa using (Nat.cast_le (α := ℚ)).2 h)]
      rw [Nat.sub_eq_zero_of_le h, Nat.zero_add, Nat.cast_sub h]
      ring
    · rw [abs_of_nonneg (by simpa using (Nat.cast_le (α := ℚ)).2 h)]
      rw [Nat.sub_eq_zero_of_le h, Nat.add_zero, Nat.cast_sub h]
  have hsum : (a.val : ℚ) + b.val = ((a.val + b.val : ℕ) : ℚ) := by push_cast; rfl
  rw [habs, hsum, channel_close]
  have hdlt : (a.val - b.val) + (b.val - a.val) < 256 := by omega
  have hslt : a.val + b.val ≤ 510 := by omega
  generalize (a.val - b.val) + (b.val - a.val) = d at hdlt ⊢
  generalize a.val + b.val = s at h0 hslt ⊢
  have hs1 : (1 : ℚ) ≤ (s : ℚ) := by
    have : 1 ≤ s := by omega
    exact_mod_cast this
  have hs2 : (s : ℚ) ≤ 510 := by exact_mod_cast hslt
  have hd2 : (d : ℚ) ≤ 255 := by
    have : d ≤ 255 := by omega
    exact_mod_cast this
  by_cases hd0 : d = 0
  · subst hd0
    have hcpos : (0 : ℚ) < c := by linarith
    simp [Format.round, Flt.lt, hcpos]
    omega
  have hd1 : (1 : ℚ) ≤ (d : ℚ) := by
    have : 1 ≤ d := by omega
    exact_mod_cast this
  set q : ℚ := (d : ℚ) / ((s : ℚ) / 2) with hq
  have hqs : q * s = 2 * d := by
    rw [hq]
    field_simp
    ring
  have hs0 : (0 : ℚ) < (s : ℚ) := by linarith
  have hq1 : 1 / 1000 ≤ q := by
    by_contra h
    push_neg at h
    have := mul_lt_mul_of_pos_right h hs0
    linarith
  have hq2 : q ≤ 1000 := by
    by_contra h
    push_neg at h
    have := mul_lt_mul_of_pos_right h hs0
    linarith
  rcases lt_trichotomy (20 * d) s with hlt | heq | hgt
  · obtain ⟨v, hv, hvb⟩ := binary32_round_pos q hq1 hq2
    obtain ⟨hv1, hv2⟩ := abs_le_of_scaled hvb
    have hltq : (20 : ℚ) * d + 1 ≤ s := by exact_mod_cast hlt
    have hqb : q ≤ 509 / 5100 := by
      by_contra h
      push_neg at h
      have := mul_lt_mul_of_pos_right h hs0
      linarith
    have hvc : v < c := by linarith
    simp [hv, Flt.lt, hvc, hlt]
  · have hq10 : q = 1 / 10 := by
      have hh : (20 : ℚ) * d = s := by exact_mod_cast heq
      rw [hq, ← hh]
      field_simp
      ring
    rw [hq10, hc]
    simp [Flt.lt, heq]
  · obtain ⟨v, hv, hvb⟩ := binary32_round_pos q hq1 hq2
    obtain ⟨hv1, hv2⟩ := abs_le_of_scaled hvb
    have hgtq : (s : ℚ) + 1 ≤ 20 * d := by exact_mod_cast hgt
    have hqb : 511 / 5100 ≤ q := by
      by_contra h
      push_neg at h
      have := mul_lt_mul_of_pos_right h hs0
      linarith
    have hvc : ¬ v < c := by
      rw [not_lt]
      linarith
    simp [hv, Flt.lt, hvc]
    omega

theorem color_equals_eq_color_close (a b : Color3) : color_equals a b = color_close a b := by
  simp only [color_equals, color_close, channel_lt_eq]

theorem below_tolerance_iff (x y : Nat) (h : x + y ≠ 0) :
    below_tolerance x y ↔ 20 * |(x : ℤ) - (y : ℤ)| < (x : ℤ) + (y : ℤ) := by
  have hs : (0 : ℚ) < ((x : ℚ) + (y : ℚ)) / 2 := by
    have : 0 < x + y := Nat.pos_of_ne_zero h
    have : (0 : ℚ) < (x : ℚ) + (y : ℚ) := by exact_mod_cast this
    positivity
  have hcast : (20 * |(x : ℤ) - (y : ℤ)| < (x : ℤ) + (y : ℤ))
      ↔ (20 : ℚ) * |(x : ℚ) - (y : ℚ)| < (x : ℚ) + (y : ℚ) := by
    rw [← Int.cast_lt (R := ℚ)]
    push_cast
    rfl
  rw [hcast, below_tolerance, relative_difference, if_neg h]
  constructor
  · rintro ⟨q, hq, hlt⟩
    rw [Option.some.injEq] at hq
    rw [← hq, div_lt_iff₀ hs] at hlt
    linarith
  · intro hlt
    refine ⟨_, rfl, ?_⟩
    rw [div_lt_iff₀ hs]
    linarith

theorem channel_close_iff (x y : Nat) : channel_close x y = true ↔ below_tolerance x y := by
  by_cases h : x + y = 0
  · have hx : x = 0 := by omega
    have hy : y = 0 := by omega
    subst hx hy
    simp [channel_close, below_tolerance, relative_difference]
  · rw [below_tolerance_iff x y h, channel_close, decide_eq_true_iff]
    rcases le_total x y with hxy | hxy
    · rw [abs_of_nonpos (by omega)]
      omega
    · rw [abs_of_nonneg (by omega)]
      omega

/-- C7. `color_equals(a, b)` is true exactly when, for each of R, G and B, the
relative difference `|x - y| / ((x + y) / 2)` of the two channel values is
defined and strictly less than 0.1; for a channel pair that is not both 0 this
is `20 * |x - y| < x + y`; a pair exactly at 10% (19 and 21) is not equal. For a
channel pair that is both 0 the relative difference is `0 / 0`, the `float`
quotient is NaN and the comparison is false. -/
theorem color_equals_iff_below_tolerance (a b : Color3) :
    (color_equals a b = true ↔
      below_tolerance a.r.val b.r.val ∧ below_tolerance a.g.val b.g.val
        ∧ below_tolerance a.b.val b.b.val)
    ∧ (∀ x y : Nat, x + y ≠ 0 →
        (below_tolerance x y ↔ 20 * |(x : ℤ) - (y : ℤ)| < (x : ℤ) + (y : ℤ)))
    ∧ (∀ g1 b1 g2 b2 : Byte, color_equals ⟨19, g1, b1⟩ ⟨21, g2, b2⟩ = false) := by
  refine ⟨?_, below_tolerance_iff, ?_⟩
  · rw [color_equals_eq_color_close, color_close, Bool.and_eq_true, Bool.and_eq_true,
      channel_close_iff, channel_close_iff, channel_close_iff, and_assoc]
  · intro g1 b1 g2 b2
    rw [color_equals_eq_color_close, color_close]
    have h : channel_close (19 : Byte).val (21 : Byte).val = false := by decide
    rw [h]
    rfl

/-- C8. `color_equals` is reflexive on colours whose three channels are all
non-zero. -/
theorem color_equals_refl (c : Color3) (hr : c.r ≠ 0) (hg : c.g ≠ 0) (hb : c.b ≠ 0) :
    color_equals c c = true := by
  have key : ∀ x : Byte, x ≠ 0 → channel_close x.val x.val = true := by
    intro x hx
    have : x.val ≠ 0 := fun h => hx (Fin.ext h)
    simp only [channel_close, decide_eq_true_iff]
    omega
  rw [color_equals_eq_color_close, color_close, key _ hr, key _ hg, key _ hb]
  rfl

/-- Witness for C8: the colour (10, 200, 1). -/
theorem color_equals_refl_witness : color_equals ⟨10, 200, 1⟩ ⟨10, 200, 1⟩ = true :=
  color_equals_refl ⟨10, 200, 1⟩ (by decide) (by decide) (by decide)

/-! ### The quotient computed in `double` -/

theorem round_half_even_eq_of_near (y : ℚ) (m : ℤ) (h : |y - (m : ℚ)| < 1 / 2) :
    round_half_even y = m := by
  have h' := abs_lt.1 h
  rcases le_or_lt (m : ℚ) y with hle | hlt
  · have hf : ⌊y⌋ = m := by
      rw [Int.floor_eq_iff]
      constructor <;> linarith [h'.1, h'.2]
    unfold round_half_even
    rw [hf, if_pos (by linarith [h'.2])]
  · have hf : ⌊y⌋ = m - 1 := by
      rw [Int.floor_eq_iff]
      push_cast
      constructor <;> linarith [h'.1, h'.2]
    unfold round_half_even
    rw [hf]
    push_cast
    rw [if_neg (by linarith [h'.1]), if_pos (by linarith [h'.1])]
    ring

/-- Rounding a positive number whose exponent `e` and nearest significand `m`
are known. -/
theorem Format.round_eq_of_near (f : Format) (x : ℚ) (e m : ℤ) (hx : 0 < x)
    (he1 : (2 : ℚ) ^ e ≤ x) (he2 : x < (2 : ℚ) ^ (e + 1)) (hemin : f.emin ≤ e)
    (hm : |x / ((2 : ℚ) ^ e / 2 ^ (f.prec - 1)) - (m : ℚ)| < 1 / 2)
    (hmax : (m : ℚ) * ((2 : ℚ) ^ e / 2 ^ (f.prec - 1)) < (2 : ℚ) ^ (f.emax + 1)) :
    f.round x = Flt.finite ((m : ℚ) * ((2 : ℚ) ^ e / 2 ^ (f.prec - 1))) := by
  have hlog : Int.log 2 x = e := by
    have h1 : e ≤ Int.log 2 x :=
      (Int.zpow_le_iff_le_log (b := 2) (by decide) hx (x := e)).1 (by simpa using he1)
    have h2 : Int.log 2 x < e + 1 :=
      (Int.lt_zpow_iff_log_lt (b := 2) (by decide) hx (x := e + 1)).1 (by simpa using he2)
    omega
  unfold Format.round
  rw [if_neg hx.ne']
  simp only [abs_of_pos hx, hlog, max_eq_left hemin]
  rw [round_half_even_eq_of_near _ m hm, if_neg (not_le.2 hmax), if_neg (not_lt.2 hx.le)]

theorem COLOR_FUZZ_PERCENT_eq : COLOR_FUZZ_PERCENT = Flt.finite (13421773 / 134217728) := by
  have h := Format.round_eq_of_near binary32 (1 / 10) (-4) 13421773 (by norm_num)
    (by norm_num) (by norm_num) (by decide)
    (by simp only [binary32]; rw [abs_lt]; constructor <;> norm_num)
    (by simp only [binary32]; norm_num)
  rw [COLOR_FUZZ_PERCENT, h]
  simp only [binary32]
  norm_num

theorem binary64_round_pos (x : ℚ) (h1 : 1 / 1000 ≤ x) (h2 : x ≤ 1000) :
    ∃ v : ℚ, binary64.round x = Flt.finite v ∧ |v - x| * 9007199254740992 ≤ x := by
  have hx : 0 < x := by linarith
  have hmin : (2 : ℚ) ^ binary64.emin ≤ x := by
    have : (2 : ℚ) ^ binary64.emin ≤ 1 / 1000 := by
      simp only [binary64]
      rw [zpow_neg, inv_le_comm₀ (by positivity) (by norm_num)]
      norm_num
    linarith
  have hmax : x * 2 < (2 : ℚ) ^ (binary64.emax + 1) := by
    have : (2000 : ℚ) < (2 : ℚ) ^ (binary64.emax + 1) := by
      simp only [binary64]
      norm_num
    linarith
  obtain ⟨v, hv, hb⟩ := Format.round_pos_spec binary64 x hx (by decide) hmin hmax
  exact ⟨v, hv, by simpa [binary64] using hb⟩

theorem abs_le_of_scaled64 {v q : ℚ} (h : |v - q| * 9007199254740992 ≤ q) :
    q - q / 9007199254740992 ≤ v ∧ v ≤ q + q / 9007199254740992 := by
  have h1 : |v - q| ≤ q / 9007199254740992 := by
    rw [le_div_iff₀ (by norm_num)]
    exact h
  have h2 := abs_le.1 h1
  constructor <;> linarith [h2.1, h2.2]

/-- The value `0.1` as a `double`, converted to `float`, is `0.1f`. -/
theorem to_float_round64_tenth :
    Flt.to_float (binary64.round (1 / 10)) = Flt.finite (13421773 / 134217728) := by
  have h := Format.round_eq_of_near binary64 (1 / 10) (-4) 7205759403792794 (by norm_num)
    (by norm_num) (by norm_num) (by decide)
    (by simp only [binary64]; rw [abs_lt]; constructor <;> norm_num)
    (by simp only [binary64]; norm_num)
  have h2 := Format.round_eq_of_near binary32 (7205759403792794 / 72057594037927936) (-4)
    13421773 (by norm_num) (by norm_num) (by norm_num) (by decide)
    (by simp only [binary32]; rw [abs_lt]; constructor <;> norm_num)
    (by simp only [binary32]; norm_num)
  have e1 : ((7205759403792794 : ℤ) : ℚ) * ((2 : ℚ) ^ (-4 : ℤ) / 2 ^ (binary64.prec - 1))
      = 7205759403792794 / 72057594037927936 := by
    simp only [binary64]
    norm_num
  have e2 : ((13421773 : ℤ) : ℚ) * ((2 : ℚ) ^ (-4 : ℤ) / 2 ^ (binary32.prec - 1))
      = 13421773 / 134217728 := by
    simp only [binary32]
    norm_num
  rw [h, e1, Flt.to_float, h2, e2]

/-- With the quotient computed in `double` and converted to `float`, the
comparison of line 197 on one channel pair is the same integer test. -/
theorem channel_lt_wide_eq (a b : Byte) :
    Flt.lt (percent_difference_wide (u8_to_float a) (u8_to_float b)) COLOR_FUZZ_PERCENT
      = channel_close a.val b.val := by
  have ha := a.isLt
  have hb := b.isLt
  have hsub : binary32.round ((a.val : ℚ) + -(b.val : ℚ)) = Flt.finite ((a.val : ℚ) - b.val) := by
    have h := binary32_round_int ((a.val : ℤ) - b.val) (by rw [abs_lt]; constructor <;> omega)
    push_cast at h
    rw [← sub_eq_add_neg]
    exact h
  have hadd : binary32.round ((a.val : ℚ) + (b.val : ℚ)) = Flt.finite ((a.val : ℚ) + b.val) := by
    have h := binary32_round_int ((a.val : ℤ) + b.val) (by rw [abs_lt]; constructor <;> omega)
    push_cast at h
    exact h
  have hhalf : binary32.round (1 / 2) = Flt.finite (1 / 2) := by
    have h := binary32_round_half_int 1 (by norm_num)
    simpa using h
  have hmul : binary32.round (((a.val : ℚ) + b.val) * (1 / 2))
      = Flt.finite (((a.val : ℚ) + b.val) / 2) := by
    have h := binary32_round_half_int ((a.val : ℤ) + b.val)
      (by rw [abs_lt]; constructor <;> omega)
    push_cast at h
    rw [mul_one_div]
    exact h
  rw [COLOR_FUZZ_PERCENT_eq]
  simp only [percent_difference_wide, u8_to_float_eq, Flt.sub, Flt.neg, Flt.add, Flt.abs,
    Flt.mul, Flt.div, hsub, hadd, hhalf, hmul]
  by_cases h0 : a.val + b.val = 0
  · have ha0 : a.val = 0 := by omega
    have hb0 : b.val = 0 := by omega
    simp [ha0, hb0, Flt.to_float, Flt.lt, channel_close]
  have hq : ((a.val : ℚ) + b.val) / 2 ≠ 0 := by
    have : (0 : ℚ) < (a.val : ℚ) + b.val := by
      have : 0 < a.val + b.val := by omega
      exact_mod_cast this
    positivity
  rw [if_neg hq]
  have habs : |(a.val : ℚ) - b.val| = (((a.val - b.val) + (b.val - a.val) : ℕ) : ℚ) := by
    rcases le_total a.val b.val with h | h
    · rw [abs_of_nonpos (by simpa using (Nat.cast_le (α := ℚ)).2 h)]
      rw [Nat.sub_eq_zero_of_le h, Nat.zero_add, Nat.cast_sub h]
      ring
    · rw [abs_of_nonneg (by simpa using (Nat.cast_le (α := ℚ)).2 h)]
      rw [Nat.sub_eq_zero_of_le h, Nat.add_zero, Nat.cast_sub h]
  have hsum : (a.val : ℚ) + b.val = ((a.val + b.val : ℕ) : ℚ) := by push_cast; rfl
  rw [habs, hsum, channel_close]
  have hdlt : (a.val - b.val) + (b.val - a.val) < 256 := by omega
  have hslt : a.val + b.val ≤ 510 := by omega
  generalize (a.val - b.val) + (b.val - a.val) = d at hdlt ⊢
  generalize a.val + b.val = s at h0 hslt ⊢
  have hs1 : (1 : ℚ) ≤ (s : ℚ) := by
    have : 1 ≤ s := by omega
    exact_mod_cast this
  have hs2 : (s : ℚ) ≤ 510 := by exact_mod_cast hslt
  have hd2 : (d : ℚ) ≤ 255 := by
    have : d ≤ 255 := by omega
    exact_mod_cast this
  by_cases hd0 : d = 0
  · subst hd0
    simp [Format.round, Flt.to_float, Flt.lt]
    omega
  have hd1 : (1 : ℚ) ≤ (d : ℚ) := by
    have : 1 ≤ d := by omega
    exact_mod_cast this
  set q : ℚ := (d : ℚ) / ((s : ℚ) / 2) with hqdef
  have hqs : q * s = 2 * d := by
    rw [hqdef]
    field_simp
    ring
  have hs0 : (0 : ℚ) < (s : ℚ) := by linarith
  have hq1 : 1 / 500 ≤ q := by
    by_contra h
    push_neg at h
    have := mul_lt_mul_of_pos_right h hs0
    linarith
  have hq2 : q ≤ 600 := by
    by_contra h
    push_neg at h
    have := mul_lt_mul_of_pos_right h hs0
    linarith
  rcases lt_trichotomy (20 * d) s with hlt | heq | hgt
  · obtain ⟨u, hu, hub⟩ := binary64_round_pos q (by linarith) (by linarith)
    obtain ⟨hu1, hu2⟩ := abs_le_of_scaled64 hub
    obtain ⟨v, hv, hvb⟩ := binary32_round_pos u (by linarith) (by linarith)
    obtain ⟨hv1, hv2⟩ := abs_le_of_scaled hvb
    have hltq : (20 : ℚ) * d + 1 ≤ s := by exact_mod_cast hlt
    have hqb : q ≤ 509 / 5100 := by
      by_contra h
      push_neg at h
      have := mul_lt_mul_of_pos_right h hs0
      linarith
    have hvc : v < 13421773 / 134217728 := by linarith
    simp [hu, Flt.to_float, hv, Flt.lt, hvc, hlt]
  · have hq10 : q = 1 / 10 := by
      have hh : (20 : ℚ) * d = s := by exact_mod_cast heq
      rw [hqdef, ← hh]
      field_simp
      ring
    rw [hq10, to_float_round64_tenth]
    simp [Flt.lt, heq]
  · obtain ⟨u, hu, hub⟩ := binary64_round_pos q (by linarith) (by linarith)
    obtain ⟨hu1, hu2⟩ := abs_le_of_scaled64 hub
    obtain ⟨v, hv, hvb⟩ := binary32_round_pos u (by linarith) (by linarith)
    obtain ⟨hv1, hv2⟩ := abs_le_of_scaled hvb
    have hgtq : (s : ℚ) + 1 ≤ 20 * d := by exact_mod_cast hgt
    have hqb : 511 / 5100 ≤ q := by
      by_contra h
      push_neg at h
      have := mul_lt_mul_of_pos_right h hs0
      linarith
    have hvc : ¬ v < 13421773 / 134217728 := by
      rw [not_lt]
      linarith
    simp [hu, Flt.to_float, hv, Flt.lt, hvc]
    omega

/-- Whichever overload of `fabs` the compiler selects, the three comparisons of
`color_equals` have the same outcome. -/
theorem color_equals_wide (a b : Color3) :
    (Flt.lt (percent_difference_wide (u8_to_float a.r) (u8_to_float b.r)) COLOR_FUZZ_PERCENT
      && Flt.lt (percent_difference_wide (u8_to_float a.g) (u8_to_float b.g)) COLOR_FUZZ_PERCENT
      && Flt.lt (percent_difference_wide (u8_to_float a.b) (u8_to_float b.b)) COLOR_FUZZ_PERCENT)
      = color_equals a b := by
  rw [color_equals_eq_color_close, color_close, channel_lt_wide_eq, channel_lt_wide_eq,
    channel_lt_wide_eq]

/-! ## The palette quantizer -/

theorem for_loop_add {σ : Type} (body : Nat → σ → Option σ) (n m : Nat) :
    ∀ (i : Nat) (s : σ),
      for_loop body (n + m) i s = (for_loop body n i s).bind (for_loop body m (i + n)) := by
  induction n with
  | zero => intro i s; simp [for_loop]
  | succ n ih =>
    intro i s
    rw [show n + 1 + m = (n + m) + 1 by omega]
    simp only [for_loop]
    cases body i s with
    | none => rfl
    | some s' =>
      simp only [Option.some_bind]
      rw [ih (i + 1) s', show i + 1 + n = i + (n + 1) by omega]

theorem for_loop_shift {σ : Type} (body : Nat → σ → Option σ) (a n : Nat) :
    ∀ (i : Nat) (s : σ),
      for_loop (fun x st => body (a + x) st) n i s = for_loop body n (a + i) s := by
  induction n with
  | zero => intro i s; rfl
  | succ n ih =>
    intro i s
    simp only [for_loop]
    cases body (a + i) s with
    | none => rfl
    | some s' =>
      simp only [Option.some_bind]
      rw [ih (i + 1) s']
      rfl

theorem for_loop_flatten {σ : Type} (body : Nat → σ → Option σ) (w h : Nat) :
    ∀ (y0 : Nat) (s : σ),
      for_loop (fun y st => for_loop (fun x st' => body (y * w + x) st') w 0 st) h y0 s
        = for_loop body (h * w) (y0 * w) s := by
  induction h with
  | zero => intro y0 s; simp [for_loop]
  | succ h ih =>
    intro y0 s
    have hr : for_loop body ((h + 1) * w) (y0 * w) s
        = (for_loop body w (y0 * w) s).bind (for_loop body (h * w) (y0 * w + w)) := by
      rw [show (h + 1) * w = w + h * w by ring]
      exact for_loop_add body w (h * w) (y0 * w) s
    rw [hr]
    simp only [for_loop]
    rw [for_loop_shift body (y0 * w) w 0 s, Nat.add_zero]
    cases for_loop body w (y0 * w) s with
    | none => rfl
    | some s' =>
      simp only [Option.some_bind]
      rw [ih (y0 + 1) s', show (y0 + 1) * w = y0 * w + w by ring]

theorem for_loop_succ {σ : Type} (body : Nat → σ → Option σ) (n i : Nat) (s : σ) :
    for_loop body (n + 1) i s = (for_loop body n i s).bind (body (i + n)) := by
  rw [for_loop_add body n 1 i s]
  congr 1
  funext s'
  simp only [for_loop]
  cases body (i + n) s' <;> rfl

theorem for_loop_congr {σ : Type} (f g : Nat → σ → Option σ) (n : Nat) :
    ∀ (i : Nat) (s : σ), (∀ j s', i ≤ j → j < i + n → f j s' = g j s') →
      for_loop f n i s = for_loop g n i s := by
  induction n with
  | zero => intro i s _; rfl
  | succ n ih =>
    intro i s hfg
    simp only [for_loop]
    rw [hfg i s (Nat.le_refl _) (by omega)]
    cases g i s with
    | none => rfl
    | some s' =>
      simp only [Option.some_bind]
      exact ih (i + 1) s' fun j s'' h1 h2 => hfg j s'' (by omega) (by omega)

theorem checked_int_natCast (n : Nat) (hn : n ≤ 2147483647) :
    checked_int (n : Int) = some (n : Int) := by
  unfold checked_int
  rw [if_pos]
  constructor <;> omega

/-- The offsets of a pixel of an image whose buffer can be indexed by an `int`
are in the range of `int`. -/
theorem pixel_offset_le (w h c y x : Nat) (hc : 3 ≤ c) (hint : w * h * c ≤ 2147483647)
    (hy : y < h) (hx : x < w) : (y * w + x) * c + 2 ≤ 2147483647 := by
  have h1 : (y + 1) * w ≤ h * w := Nat.mul_le_mul_right w hy
  have h2 : y * w + x + 1 ≤ h * w := by
    rw [Nat.add_mul, Nat.one_mul] at h1
    omega
  have h3 : (y * w + x + 1) * c ≤ h * w * c := Nat.mul_le_mul_right c h2
  rw [Nat.add_mul, Nat.one_mul, Nat.mul_comm h w] at h3
  omega

theorem scan_pixel_eq (data : List Byte) (w c y x : Nat) (st : List Color3 × List ColorIndex)
    (hc : 1 ≤ c) (hk : (y * w + x) * c + 2 ≤ 2147483647) :
    scan_pixel data (w : Int) (c : Int) y x st = pixel_step data c (y * w + x) st := by
  have hle : y * w + x ≤ (y * w + x) * c := Nat.le_mul_of_pos_right _ hc
  have e1 : checked_int ((y : Int) * (w : Int)) = some ((y * w : Nat) : Int) := by
    rw [← Nat.cast_mul]
    exact checked_int_natCast _ (by omega)
  have e2 : checked_int (((y * w : Nat) : Int) + (x : Int)) = some ((y * w + x : Nat) : Int) := by
    rw [← Nat.cast_add]
    exact checked_int_natCast _ (by omega)
  have e3 : checked_int (((y * w + x : Nat) : Int) * (c : Int))
      = some (((y * w + x) * c : Nat) : Int) := by
    rw [← Nat.cast_mul]
    exact checked_int_natCast _ (by omega)
  have e4 : checked_int ((((y * w + x) * c : Nat) : Int) + 1)
      = some (((y * w + x) * c + 1 : Nat) : Int) := by
    rw [show ((((y * w + x) * c : Nat) : Int) + 1) = (((y * w + x) * c + 1 : Nat) : Int) by
      push_cast; rfl]
    exact checked_int_natCast _ (by omega)
  have e5 : checked_int ((((y * w + x) * c : Nat) : Int) + 2)
      = some (((y * w + x) * c + 2 : Nat) : Int) := by
    rw [show ((((y * w + x) * c : Nat) : Int) + 2) = (((y * w + x) * c + 2 : Nat) : Int) by
      push_cast; rfl]
    exact checked_int_natCast _ (by omega)
  have hr : ∀ n : Nat, read_byte data ((n : Nat) : Int) = data[n]? := by
    intro n
    rw [read_byte, if_pos (Int.natCast_nonneg _), Int.toNat_natCast]
  have hpix : int_to_u32 ((y * w + x : Nat) : Int) = to_u32 (y * w + x) := by
    apply Fin.ext
    simp only [int_to_u32, to_u32]
    omega
  unfold scan_pixel pixel_step pixel_color
  simp only [e1, Option.some_bind, e2, e3, e4, e5, hr, hpix]
  cases data[(y * w + x) * c]? with
  | none => rfl
  | some r =>
    cases data[(y * w + x) * c + 1]? with
    | none => rfl
    | some g =>
      cases data[(y * w + x) * c + 2]? with
      | none => rfl
      | some b =>
        simp only [Option.some_bind, Option.map_some', quantize_step, List.length_append,
          List.length_singleton, Nat.add_sub_cancel]
        split_ifs <;> rfl

/-- Beyond the range of `int` the loop body has no result: for an image of
width 2049, height 1 and 1048576 channels the offset of the last pixel is
`2048 * 1048576 = 2^31`. -/
theorem scan_pixel_overflow (data : List Byte) (st : List Color3 × List ColorIndex) :
    scan_pixel data 2049 1048576 0 2048 st = none := by
  have e1 : checked_int (((0 : Nat) : Int) * 2049) = some 0 := by decide
  have e2 : checked_int ((0 : Int) + ((2048 : Nat) : Int)) = some 2048 := by decide
  have e3 : checked_int ((2048 : Int) * 1048576) = none := by decide
  unfold scan_pixel
  rw [e1, Option.some_bind, e2, Option.some_bind, e3]
  rfl

/-- On a buffer that an `int` can index the nested loops are one loop over the
pixel number. -/
theorem generate_color_indices_eq (data : List Byte) (w h c : Nat) (colors : List Color3)
    (indices : List ColorIndex) (hc : 3 ≤ c) (hint : w * h * c ≤ 2147483647) :
    generate_color_indices data (w : Int) (h : Int) (c : Int) colors indices
      = for_loop (pixel_step data c) (h * w) 0 (colors, indices) := by
  unfold generate_color_indices
  simp only [Int.toNat_natCast]
  have houter : for_loop
      (fun y st => for_loop (fun x st' => scan_pixel data (w : Int) (c : Int) y x st') w 0 st)
      h 0 (colors, indices)
      = for_loop
          (fun y st => for_loop (fun x st' => pixel_step data c (y * w + x) st') w 0 st)
          h 0 (colors, indices) := by
    apply for_loop_congr
    intro y st _ hy
    apply for_loop_congr
    intro x st' _ hx
    exact scan_pixel_eq data w c y x st' (by omega)
      (pixel_offset_le w h c y x hc hint (by omega) (by omega))
  rw [houter]
  have := for_loop_flatten (pixel_step data c) w h 0 (colors, indices)
  simpa using this

theorem find_color_cases (color : Color3) (P : List Color3) :
    ∀ j : Nat,
      (find_color color P j = -1 ∧ ∀ q ∈ P, color_equals color q = false)
      ∨ (∃ (i : Nat) (q : Color3), find_color color P j = ((j + i : Nat) : Int)
          ∧ P[i]? = some q ∧ color_equals color q = true
          ∧ ∀ i' q', i' < i → P[i']? = some q' → color_equals color q' = false) := by
  induction P with
  | nil => intro j; left; simp [find_color]
  | cons p P ih =>
    intro j
    by_cases hp : color_equals color p = true
    · right
      refine ⟨0, p, ?_, by simp, hp, ?_⟩
      · simp [find_color, hp]
      · intro i' q' hi'
        omega
    · have hpf : color_equals color p = false := by simpa using hp
      rcases ih (j + 1) with ⟨h1, h2⟩ | ⟨i, q, h1, h2, h3, h4⟩
      · left
        refine ⟨by simp [find_color, hpf, h1], ?_⟩
        intro q hq
        rcases List.mem_cons.1 hq with rfl | hq
        · exact hpf
        · exact h2 q hq
      · right
        refine ⟨i + 1, q, ?_, by simpa using h2, h3, ?_⟩
        · simp only [find_color, hpf, Bool.false_eq_true, if_false, h1]
          congr 1
          omega
        · intro i' q' hi' hq'
          cases i' with
          | zero =>
            simp only [List.getElem?_cons_zero, Option.some.injEq] at hq'
            rw [← hq']
            exact hpf
          | succ i' =>
            simp only [List.getElem?_cons_succ] at hq'
            exact h4 i' q' (by omega) hq'

theorem int_to_u16_natCast (n : Nat) : int_to_u16 (n : Int) = to_u16 n := by
  apply Fin.ext
  simp only [int_to_u16, to_u16]
  omega

/-- The two outcomes of the loop body on a colour. -/
theorem quantize_step_cases (color : Color3) (k : Nat) (P : List Color3) (R : List ColorIndex) :
    (∃ (i : Nat) (q : Color3), P[i]? = some q ∧ color_equals color q = true
        ∧ (∀ i' q', i' < i → P[i']? = some q' → color_equals color q' = false)
        ∧ quantize_step color k (P, R)
            = (P, R ++ [{ pixelIndex := to_u32 k, colorIndex := to_u16 i }]))
    ∨ ((∀ q ∈ P, color_equals color q = false)
        ∧ quantize_step color k (P, R)
            = (P ++ [color], R ++ [{ pixelIndex := to_u32 k, colorIndex := to_u16 P.length }])) := by
  rcases find_color_cases color P 0 with ⟨h1, h2⟩ | ⟨i, q, h1, h2, h3, h4⟩
  · right
    refine ⟨h2, ?_⟩
    simp [quantize_step, h1]
  · left
    refine ⟨i, q, h2, h3, h4, ?_⟩
    have hge : find_color color P 0 ≥ 0 := by rw [h1]; exact Int.natCast_nonneg _
    unfold quantize_step
    rw [if_pos hge, h1, int_to_u16_natCast, Nat.zero_add]

theorem pixel_color_isSome (data : List Byte) (c n k : Nat) (hlen : data.length = n * c)
    (hc : 3 ≤ c) (hk : k < n) : ∃ color, pixel_color data c k = some color := by
  have h1 : (k + 1) * c ≤ n * c := Nat.mul_le_mul_right c hk
  have h2 : k * c + c ≤ data.length := by rw [hlen]; linarith [h1, Nat.succ_mul k c]
  have key : ∀ i, i < data.length → ∃ v, data[i]? = some v :=
    fun i hi => ⟨_, List.getElem?_eq_getElem hi⟩
  obtain ⟨r, e0⟩ := key (k * c) (by omega)
  obtain ⟨g, e1⟩ := key (k * c + 1) (by omega)
  obtain ⟨b, e2⟩ := key (k * c + 2) (by omega)
  exact ⟨{ r := r, g := g, b := b }, by simp only [pixel_color, e0, e1, e2, Option.some_bind]⟩

theorem scanned_zero (data : List Byte) (c : Nat) : Scanned data c 0 ([], []) := by
  refine ⟨rfl, Nat.le_refl _, fun h => absurd h (Nat.lt_irrefl 0), fun i hi => ?_⟩
  omega

theorem scanned_step (data : List Byte) (c k : Nat) (st : List Color3 × List ColorIndex)
    (color : Color3) (hcol : pixel_color data c k = some color) (h : Scanned data c k st) :
    Scanned data c (k + 1) (quantize_step color k st) := by
  obtain ⟨P, R⟩ := st
  obtain ⟨hR, hP, hpos, hall⟩ := h
  simp only at hR hP hpos hall
  rcases quantize_step_cases color k P R with ⟨i0, q0, hq0, heq0, hfirst, hst⟩ | ⟨hnone, hst⟩
  · rw [hst]
    have hi0 : i0 < P.length := by
      by_contra hcon
      rw [List.getElem?_eq_none (by omega)] at hq0
      exact Option.noConfusion hq0
    refine ⟨by simp [hR], by simp only; omega, fun _ => by simp only; omega, fun i hi => ?_⟩
    by_cases hik : i < k
    · obtain ⟨col, slot, n, h1, h2, h3, h4, h5, h6⟩ := hall i hik
      refine ⟨col, slot, n, h1, ?_, h3, h4, h5, h6⟩
      simp only
      rw [List.getElem?_append_left (by omega)]
      exact h2
    · have hik2 : i = k := by omega
      subst hik2
      refine ⟨color, i0, P.length, hcol, ?_, Nat.le_refl _, hi0, ?_, Or.inl ⟨hi0, q0, hq0, heq0⟩⟩
      · simp only
        rw [List.getElem?_append_right (by omega), hR]
        simp
      · intro j q hj hq
        exact hfirst j q hj hq
  · rw [hst]
    refine ⟨by simp [hR], by simp only [List.length_append, List.length_singleton]; omega,
      fun _ => by simp, fun i hi => ?_⟩
    by_cases hik : i < k
    · obtain ⟨col, slot, n, h1, h2, h3, h4, h5, h6⟩ := hall i hik
      refine ⟨col, slot, n, h1, ?_, ?_, ?_, ?_, ?_⟩
      · simp only
        rw [List.getElem?_append_left (by omega)]
        exact h2
      · simp only [List.length_append, List.length_singleton]
        omega
      · simp only [List.length_append, List.length_singleton]
        omega
      · intro j q hj hq
        simp only at hq
        rw [List.getElem?_append_left (by omega)] at hq
        exact h5 j q hj hq
      · simp only
        rw [List.getElem?_append_left h4]
        exact h6
    · have hik2 : i = k := by omega
      subst hik2
      refine ⟨color, P.length, P.length, hcol, ?_, by simp, by simp, ?_, Or.inr ⟨rfl, by simp⟩⟩
      · simp only
        rw [List.getElem?_append_right (by omega), hR]
        simp
      · intro j q hj hq
        simp only at hq
        rw [List.getElem?_append_left hj] at hq
        exact hnone q (List.mem_iff_getElem?.2 ⟨j, hq⟩)

/-- The scan of the first `k` pixels of a well-formed image succeeds and
satisfies the invariant. -/
theorem for_loop_scanned (data : List Byte) (c n : Nat) (hlen : data.length = n * c)
    (hc : 3 ≤ c) :
    ∀ k, k ≤ n → ∃ st, for_loop (pixel_step data c) k 0 ([], []) = some st
      ∧ Scanned data c k st := by
  intro k
  induction k with
  | zero => intro _; exact ⟨([], []), rfl, scanned_zero data c⟩
  | succ k ih =>
    intro hk
    obtain ⟨st, hst, hinv⟩ := ih (by omega)
    obtain ⟨color, hcol⟩ := pixel_color_isSome data c n k hlen hc (by omega)
    refine ⟨quantize_step color k st, ?_, scanned_step data c k st color hcol hinv⟩
    rw [for_loop_succ, hst]
    simp [pixel_step, hcol]

/-- On a well-formed image `generate_color_indices`, started with empty
vectors, returns and its result satisfies the scan invariant. -/
theorem generate_color_indices_scanned (data : List Byte) (w h c : Nat)
    (hlen : data.length = w * h * c) (hc : 3 ≤ c) (hint : w * h * c ≤ 2147483647) :
    ∃ P R, generate_color_indices data (w : Int) (h : Int) (c : Int) [] [] = some (P, R)
      ∧ Scanned data c (w * h) (P, R) := by
  rw [generate_color_indices_eq data w h c [] [] hc hint]
  obtain ⟨st, h1, h2⟩ := for_loop_scanned data c (h * w)
    (by rw [hlen, Nat.mul_comm w h]) hc (h * w) (Nat.le_refl _)
  refine ⟨st.1, st.2, h1, ?_⟩
  rw [Nat.mul_comm w h]
  exact h2

/-- The number of pixels of a buffer that an `int` can index. -/
theorem pixel_count_le (w h c : Nat) (hc : 3 ≤ c) (hint : w * h * c ≤ 2147483647) :
    w * h ≤ 2147483647 := by
  have : w * h * 1 ≤ w * h * c := Nat.mul_le_mul_left _ (by omega)
  omega

/-- C3. For every width `w`, height `h`, channel count `c >= 3` and pixel
buffer of size `w*h*c` (a size that an `int` can index, as the code does at
line 164), `generate_color_indices` started with empty vectors returns exactly
`w*h` index records, and the `k`-th record has `pixelIndex = k`. -/
theorem generate_color_indices_positions (data : List Byte) (w h c : Nat)
    (hlen : data.length = w * h * c) (hc : 3 ≤ c) (hint : w * h * c ≤ 2147483647) :
    ∃ P R, generate_color_indices data (w : Int) (h : Int) (c : Int) [] [] = some (P, R)
      ∧ R.length = w * h
      ∧ ∀ k, k < w * h → ∃ x, R[k]? = some x ∧ x.pixelIndex.val = k := by
  obtain ⟨P, R, hgen, hR, -, -, hall⟩ := generate_color_indices_scanned data w h c hlen hc hint
  refine ⟨P, R, hgen, hR, fun k hk => ?_⟩
  obtain ⟨color, slot, n, -, hx, -⟩ := hall k hk
  refine ⟨_, hx, ?_⟩
  have := pixel_count_le w h c hc hint
  simp only [to_u32]
  omega

/-- Witness for C3: a 2 x 1 three-channel image. -/
theorem generate_color_indices_positions_witness :
    ∃ P R, generate_color_indices [1, 2, 3, 4, 5, 6] ((2 : Nat) : Int) ((1 : Nat) : Int)
          ((3 : Nat) : Int) [] [] = some (P, R)
      ∧ R.length = 2 * 1
      ∧ ∀ k, k < 2 * 1 → ∃ x, R[k]? = some x ∧ x.pixelIndex.val = k :=
  generate_color_indices_positions [1, 2, 3, 4, 5, 6] 2 1 3 (by decide) (by decide) (by decide)

/-- C9. For a well-formed image with at least one pixel (channel count at least
3, buffer size within the range of the `int` index of line 164) the palette returned by `generate_color_indices`, started with empty
vectors, has at least 1 and at most `width * height` entries. -/
theorem generate_color_indices_palette_size (data : List Byte) (w h c : Nat)
    (hlen : data.length = w * h * c) (hc : 3 ≤ c) (hint : w * h * c ≤ 2147483647)
    (hpix : 1 ≤ w * h) :
    ∃ P R, generate_color_indices data (w : Int) (h : Int) (c : Int) [] [] = some (P, R)
      ∧ 1 ≤ P.length ∧ P.length ≤ w * h := by
  obtain ⟨P, R, hgen, -, hP, hpos, -⟩ := generate_color_indices_scanned data w h c hlen hc hint
  exact ⟨P, R, hgen, hpos hpix, hP⟩

/-- Witness for C9: a 2 x 1 three-channel image. -/
theorem generate_color_indices_palette_size_witness :
    ∃ P R, generate_color_indices [1, 2, 3, 4, 5, 6] ((2 : Nat) : Int) ((1 : Nat) : Int)
          ((3 : Nat) : Int) [] [] = some (P, R)
      ∧ 1 ≤ P.length ∧ P.length ≤ 2 * 1 :=
  generate_color_indices_palette_size [1, 2, 3, 4, 5, 6] 2 1 3 (by decide) (by decide)
    (by decide) (by decide)

theorem scan_state_eq (data : List Byte) (w h c y x : Nat) (hc : 3 ≤ c)
    (hint : w * h * c ≤ 2147483647) (hy : y < h) (hx : x < w) :
    scan_state data (w : Int) (c : Int) y x
      = for_loop (pixel_step data c) (y * w + x) 0 ([], []) := by
  have hint2 : w * y * c ≤ 2147483647 := by
    have : w * y * c ≤ w * h * c :=
      Nat.mul_le_mul_right c (Nat.mul_le_mul_left w (Nat.le_of_lt hy))
    omega
  unfold scan_state
  rw [generate_color_indices_eq data w y c [] [] hc hint2,
    for_loop_add (pixel_step data c) (y * w) x 0 ([], [])]
  congr 1
  funext st
  have h1 : for_loop (fun x' st' => scan_pixel data (w : Int) (c : Int) y x' st') x 0 st
      = for_loop (fun x' st' => pixel_step data c (y * w + x') st') x 0 st := by
    apply for_loop_congr
    intro x' st' _ hx'
    exact scan_pixel_eq data w c y x' st' (by omega)
      (pixel_offset_le w h c y x' hc hint hy (by omega))
  rw [h1, for_loop_shift (pixel_step data c) (y * w) x 0 st, Nat.add_zero, Nat.zero_add]

/-- The loop only appends: the vectors before a run are initial segments of
the vectors after it. -/
theorem for_loop_pixel_step_extends (data : List Byte) (c : Nat) (m : Nat) :
    ∀ (i : Nat) (st st' : List Color3 × List ColorIndex),
      for_loop (pixel_step data c) m i st = some st' →
      ∃ P2 R2, st'.1 = st.1 ++ P2 ∧ st'.2 = st.2 ++ R2 := by
  induction m with
  | zero =>
    intro i st st' h
    simp only [for_loop, Option.some.injEq] at h
    subst h
    exact ⟨[], [], by simp, by simp⟩
  | succ m ih =>
    intro i st st' h
    simp only [for_loop] at h
    cases hp : pixel_step data c i st with
    | none => rw [hp] at h; exact absurd h (by simp)
    | some s1 =>
      rw [hp, Option.some_bind] at h
      obtain ⟨P2, R2, e1, e2⟩ := ih (i + 1) s1 st' h
      simp only [pixel_step] at hp
      cases hcol : pixel_color data c i with
      | none => rw [hcol] at hp; exact absurd hp (by simp)
      | some color =>
        rw [hcol, Option.map_some', Option.some.injEq] at hp
        rcases quantize_step_cases color i st.1 st.2 with
          ⟨j, q, -, -, -, hq⟩ | ⟨-, hq⟩
        · rw [hq] at hp
          subst hp
          exact ⟨P2, { pixelIndex := to_u32 i, colorIndex := to_u16 j } :: R2, e1,
            by rw [e2]; simp⟩
        · rw [hq] at hp
          subst hp
          exact ⟨color :: P2,
            { pixelIndex := to_u32 i, colorIndex := to_u16 st.1.length } :: R2,
            by rw [e1]; simp, by rw [e2]; simp⟩

/-- C4. First fit. For a well-formed image (buffer size within the range of
the `int` index of line 164) whose resulting palette `P` has at most 65536
entries, and for every pixel `k` with colour `color` and emitted record `x`
(the `k`-th, with `pixelIndex = k`); `Pk`, `Rk` being the vectors `colors`,
`indices` at the moment the loop body is entered for pixel `k`: the entries
`Pk` existing at that moment are the first entries of `P`, the `colorIndex` `p`
of the record is a valid slot of `P`, no slot `j < p` holds a colour that
`color_equals` accepts, and either `p` is a slot of `Pk`, `color_equals(color,
P[p])` holds and the body leaves the palette as it is, or no entry of `Pk`
matches, `p` is the size of `Pk`, `P[p]` is exactly `color`, and the body
appends `color` as the new last entry. -/
theorem generate_color_indices_first_fit (data : List Byte) (w h c : Nat)
    (hlen : data.length = w * h * c) (hc : 3 ≤ c) (hint : w * h * c ≤ 2147483647) :
    ∃ P R, generate_color_indices data (w : Int) (h : Int) (c : Int) [] [] = some (P, R)
      ∧ (P.length ≤ 65536 → ∀ k, k < w * h →
          ∃ (color : Color3) (x : ColorIndex) (Pk : List Color3) (Rk : List ColorIndex),
            pixel_color data c k = some color
            ∧ R[k]? = some x ∧ x.pixelIndex.val = k
            ∧ scan_state data (w : Int) (c : Int) (k / w) (k % w) = some (Pk, Rk)
            ∧ Pk = P.take Pk.length
            ∧ x.colorIndex.val < P.length
            ∧ (∀ j q, j < x.colorIndex.val → P[j]? = some q → color_equals color q = false)
            ∧ ((x.colorIndex.val < Pk.length
                  ∧ (∃ q, P[x.colorIndex.val]? = some q ∧ color_equals color q = true)
                  ∧ scan_pixel data (w : Int) (c : Int) (k / w) (k % w) (Pk, Rk)
                      = some (Pk, Rk ++ [x]))
                ∨ ((∀ q ∈ Pk, color_equals color q = false)
                  ∧ x.colorIndex.val = Pk.length
                  ∧ P[x.colorIndex.val]? = some color
                  ∧ scan_pixel data (w : Int) (c : Int) (k / w) (k % w) (Pk, Rk)
                      = some (Pk ++ [color], Rk ++ [x])))) := by
  obtain ⟨P, R, hgen, -⟩ := generate_color_indices_scanned data w h c hlen hc hint
  refine ⟨P, R, hgen, fun hP k hk => ?_⟩
  have hn := pixel_count_le w h c hc hint
  have hw : 0 < w := by
    rcases Nat.eq_zero_or_pos w with h0 | h0
    · subst h0
      simp at hk
    · exact h0
  have hy : k / w < h := by
    rw [Nat.div_lt_iff_lt_mul hw, Nat.mul_comm h w]
    exact hk
  have hx : k % w < w := Nat.mod_lt k hw
  have hyx : k / w * w + k % w = k := Nat.div_add_mod' k w
  have hlen2 : data.length = (w * h) * c := hlen
  obtain ⟨st, hst, hinv⟩ := for_loop_scanned data c (w * h) hlen2 hc k (Nat.le_of_lt hk)
  obtain ⟨Pk, Rk⟩ := st
  have hRk : Rk.length = k := hinv.1
  obtain ⟨color, hcol⟩ := pixel_color_isSome data c (w * h) k hlen2 hc hk
  have hstate : scan_state data (w : Int) (c : Int) (k / w) (k % w) = some (Pk, Rk) := by
    rw [scan_state_eq data w h c (k / w) (k % w) hc hint hy hx, hyx]
    exact hst
  have hbody : scan_pixel data (w : Int) (c : Int) (k / w) (k % w) (Pk, Rk)
      = some (quantize_step color k (Pk, Rk)) := by
    rw [scan_pixel_eq data w c (k / w) (k % w) (Pk, Rk) (by omega)
      (pixel_offset_le w h c (k / w) (k % w) hc hint hy hx), hyx, pixel_step, hcol]
    rfl
  -- the rest of the run, from pixel `k + 1` on
  have hsplit : for_loop (pixel_step data c) (h * w) 0 ([], [])
      = (for_loop (pixel_step data c) (k + 1) 0 ([], [])).bind
          (for_loop (pixel_step data c) (h * w - (k + 1)) (0 + (k + 1))) := by
    rw [← for_loop_add]
    congr 1
    rw [Nat.mul_comm h w]
    omega
  have hk1 : for_loop (pixel_step data c) (k + 1) 0 ([], [])
      = some (quantize_step color k (Pk, Rk)) := by
    rw [for_loop_succ, hst, Option.some_bind, Nat.zero_add, pixel_step, hcol]
    rfl
  rw [generate_color_indices_eq data w h c [] [] hc hint, hsplit, hk1, Option.some_bind] at hgen
  obtain ⟨P2, R2, e1, e2⟩ := for_loop_pixel_step_extends data c _ _ _ _ hgen
  simp only at e1 e2
  have hidx : (to_u32 k).val = k := by
    simp only [to_u32]
    omega
  rcases quantize_step_cases color k Pk Rk with ⟨i, q, hq, hmatch, hfirst, hstep⟩ | ⟨hnone, hstep⟩
  · rw [hstep] at e1 e2 hbody
    simp only at e1 e2
    have hi : i < Pk.length := by
      by_contra hcon
      rw [List.getElem?_eq_none (by omega)] at hq
      exact Option.noConfusion hq
    have hPlen : P.length = Pk.length + P2.length := by rw [e1, List.length_append]
    have hval : (to_u16 i).val = i := by
      simp only [to_u16]
      omega
    have hPi : ∀ j, j < Pk.length → P[j]? = Pk[j]? := by
      intro j hj
      rw [e1, List.getElem?_append_left hj]
    refine ⟨color, { pixelIndex := to_u32 k, colorIndex := to_u16 i }, Pk, Rk, hcol, ?_, hidx,
      hstate, ?_, ?_, ?_, Or.inl ⟨?_, ⟨q, ?_, hmatch⟩, hbody⟩⟩
    · rw [e2, List.append_assoc, List.getElem?_append_right (by omega), hRk, Nat.sub_self]
      simp
    · rw [e1, List.take_left']
      rfl
    · show (to_u16 i).val < P.length
      rw [hval]
      omega
    · intro j q' hj hq'
      have hj2 : j < i := by
        have : j < (to_u16 i).val := hj
        rwa [hval] at this
      rw [hPi j (by omega)] at hq'
      exact hfirst j q' hj2 hq'
    · show (to_u16 i).val < Pk.length
      rw [hval]
      exact hi
    · show P[(to_u16 i).val]? = some q
      rw [hval, hPi i hi]
      exact hq
  · rw [hstep] at e1 e2 hbody
    simp only at e1 e2
    have hPlen : P.length = Pk.length + 1 + P2.length := by
      rw [e1, List.length_append, List.length_append, List.length_singleton]
    have hval : (to_u16 Pk.length).val = Pk.length := by
      simp only [to_u16]
      omega
    have hPi : ∀ j, j < Pk.length → P[j]? = Pk[j]? := by
      intro j hj
      rw [e1, List.append_assoc, List.getElem?_append_left hj]
    refine ⟨color, { pixelIndex := to_u32 k, colorIndex := to_u16 Pk.length }, Pk, Rk, hcol, ?_,
      hidx, hstate, ?_, ?_, ?_, Or.inr ⟨hnone, hval, ?_, hbody⟩⟩
    · rw [e2, List.append_assoc, List.getElem?_append_right (by omega), hRk, Nat.sub_self]
      simp
    · rw [e1, List.append_assoc, List.take_left']
      rfl
    · show (to_u16 Pk.length).val < P.length
      rw [hval]
      omega
    · intro j q' hj hq'
      have hj2 : j < Pk.length := by
        have : j < (to_u16 Pk.length).val := hj
        rwa [hval] at this
      rw [hPi j hj2] at hq'
      exact hnone q' (List.getElem?_mem hq')
    · show P[(to_u16 Pk.length).val]? = some color
      rw [hval, e1, List.append_assoc, List.getElem?_append_right (Nat.le_refl _), Nat.sub_self]
      simp

/-- Witness for C4: a 2 x 1 three-channel image. -/
theorem generate_color_indices_first_fit_witness :
    ∃ P R, generate_color_indices [1, 2, 3, 4, 5, 6] ((2 : Nat) : Int) ((1 : Nat) : Int)
          ((3 : Nat) : Int) [] [] = some (P, R)
      ∧ (P.length ≤ 65536 → ∀ k, k < 2 * 1 →
          ∃ (color : Color3) (x : ColorIndex) (Pk : List Color3) (Rk : List ColorIndex),
            pixel_color [1, 2, 3, 4, 5, 6] 3 k = some color
            ∧ R[k]? = some x ∧ x.pixelIndex.val = k
            ∧ scan_state [1, 2, 3, 4, 5, 6] ((2 : Nat) : Int) ((3 : Nat) : Int) (k / 2) (k % 2)
                = some (Pk, Rk)
            ∧ Pk = P.take Pk.length
            ∧ x.colorIndex.val < P.length
            ∧ (∀ j q, j < x.colorIndex.val → P[j]? = some q → color_equals color q = false)
            ∧ ((x.colorIndex.val < Pk.length
                  ∧ (∃ q, P[x.colorIndex.val]? = some q ∧ color_equals color q = true)
                  ∧ scan_pixel [1, 2, 3, 4, 5, 6] ((2 : Nat) : Int) ((3 : Nat) : Int) (k / 2)
                      (k % 2) (Pk, Rk) = some (Pk, Rk ++ [x]))
                ∨ ((∀ q ∈ Pk, color_equals color q = false)
                  ∧ x.colorIndex.val = Pk.length
                  ∧ P[x.colorIndex.val]? = some color
                  ∧ scan_pixel [1, 2, 3, 4, 5, 6] ((2 : Nat) : Int) ((3 : Nat) : Int) (k / 2)
                      (k % 2) (Pk, Rk) = some (Pk ++ [color], Rk ++ [x])))) :=
  generate_color_indices_first_fit [1, 2, 3, 4, 5, 6] 2 1 3 (by decide) (by decide) (by decide)

/-- C5, the code at the failing input: for the 2 x 1 three-channel image whose
two pixels are both (0, 0, 0) the palette returned is `[(0,0,0), (0,0,0)]`: the
same colour twice. The quotient of the tolerance test is `0 / 0` for a channel
pair that is both 0, so a colour with a zero channel never matches a palette
entry, not even an identical one. -/
theorem generate_color_indices_duplicate_black :
    generate_color_indices [0, 0, 0, 0, 0, 0] 2 1 3 [] []
      = some ([⟨0, 0, 0⟩, ⟨0, 0, 0⟩], [⟨0, 0⟩, ⟨1, 1⟩]) := by
  have h := generate_color_indices_eq [0, 0, 0, 0, 0, 0] 2 1 3 [] [] (by decide) (by decide)
  simp only [Nat.cast_ofNat, Nat.cast_one] at h
  rw [h]
  simp [for_loop, pixel_step, pixel_color, quantize_step, find_color,
    color_equals_eq_color_close, color_close, channel_close]
  decide

/-- The scan of the 2 x 2 image of section 8, evaluated. -/
theorem scenario_eval :
    generate_color_indices [10, 10, 10, 10, 10, 10, 200, 50, 50, 9, 9, 9] 2 2 3 [] []
      = some ([⟨10, 10, 10⟩, ⟨200, 50, 50⟩, ⟨9, 9, 9⟩],
          [⟨0, 0⟩, ⟨1, 0⟩, ⟨2, 1⟩, ⟨3, 2⟩]) := by
  have h := generate_color_indices_eq [10, 10, 10, 10, 10, 10, 200, 50, 50, 9, 9, 9] 2 2 3 [] []
    (by decide) (by decide)
  simp only [Nat.cast_ofNat] at h
  rw [h]
  simp [for_loop, pixel_step, pixel_color, quantize_step, find_color,
    color_equals_eq_color_close, color_close, channel_close]
  decide

/-- C6 (as amended). For the 2 x 2 three-channel image with pixels
(10,10,10), (10,10,10), (200,50,50), (9,9,9) the scan returns the palette
`[(10,10,10), (200,50,50), (9,9,9)]` and the records
`[(0,0), (1,0), (2,1), (3,2)]`: the relative difference of 9 and 10 is
`1 / 9.5`, above 10%, so the last pixel gets a palette entry of its own. -/
theorem generate_color_indices_scenario :
    generate_color_indices [10, 10, 10, 10, 10, 10, 200, 50, 50, 9, 9, 9] 2 2 3 [] []
      = some ([⟨10, 10, 10⟩, ⟨200, 50, 50⟩, ⟨9, 9, 9⟩],
          [⟨0, 0⟩, ⟨1, 0⟩, ⟨2, 1⟩, ⟨3, 2⟩]) :=
  scenario_eval

/-- C6, counterexample: on the image of the scenario the result is not the
palette `[(10,10,10), (200,50,50)]` with records `[(0,0), (1,0), (2,1), (3,p)]`,
neither for `p = 0` nor for `p = 1` (nor for any other `p`). -/
theorem generate_color_indices_scenario_counterexample :
    ¬ ∃ p : Fin 65536,
      generate_color_indices [10, 10, 10, 10, 10, 10, 200, 50, 50, 9, 9, 9] 2 2 3 [] []
        = some ([⟨10, 10, 10⟩, ⟨200, 50, 50⟩], [⟨0, 0⟩, ⟨1, 0⟩, ⟨2, 1⟩, ⟨3, p⟩]) := by
  rintro ⟨p, hp⟩
  rw [scenario_eval] at hp
  simp at hp

/-! ## The template writer -/

theorem int_to_char_val (b : Byte) : int_to_char (b.val : Int) = b := by
  apply Fin.ext
  have := b.isLt
  simp only [int_to_char, to_u8]
  omega

theorem char_value_eq_EOF_iff (b : Byte) : char_value b = EOF ↔ b = 255 := by
  have := b.isLt
  constructor
  · intro h
    apply Fin.ext
    show b.val = 255
    simp only [char_value, EOF] at h
    split_ifs at h
    omega
  · rintro rfl
    decide

theorem char_value_eq_backtick_iff (b : Byte) : char_value b = char_value BACKTICK ↔ b = 96 := by
  have := b.isLt
  have hb : char_value BACKTICK = 96 := by decide
  rw [hb]
  constructor
  · intro h
    apply Fin.ext
    show b.val = 96
    simp only [char_value] at h
    split_ifs at h <;> omega
  · rintro rfl
    decide

/-- One iteration of the loop of `write_rbxmx_file`, by cases on the byte
read. -/
theorem template_loop_cons (base64 : List Byte → List Byte) (heap : Nat → Byte)
    (colors : List Color3) (indices : List ColorIndex) (width height : Int)
    (b : Byte) (rest : List Byte) (isOpen : Bool) (fs out : List Byte) :
    template_loop base64 heap colors indices width height (b :: rest) isOpen fs out
      = if b = 255 then some out
        else if b = 96 then
          if isOpen then
            (format_token base64 heap colors indices width height (fs ++ [0])).bind fun text =>
              template_loop base64 heap colors indices width height rest false (fs ++ [0])
                (out ++ text)
          else template_loop base64 heap colors indices width height rest true [] out
        else if isOpen then
          template_loop base64 heap colors indices width height rest true (fs ++ [b]) out
        else template_loop base64 heap colors indices width height rest false fs (out ++ [b]) := by
  simp only [template_loop, int_to_char_val, char_value_eq_EOF_iff, char_value_eq_backtick_iff]

/-- Outside a token, bytes other than the backtick and 0xFF are copied. -/
theorem template_loop_literal (base64 : List Byte → List Byte) (heap : Nat → Byte)
    (colors : List Color3) (indices : List ColorIndex) (width height : Int)
    (lit : List Byte) :
    ∀ (rest fs out : List Byte), (96 : Byte) ∉ lit → (255 : Byte) ∉ lit →
      template_loop base64 heap colors indices width height (lit ++ rest) false fs out
        = template_loop base64 heap colors indices width height rest false fs (out ++ lit) := by
  induction lit with
  | nil => intro rest fs out _ _; simp
  | cons b lit ih =>
    intro rest fs out h96 h255
    have hb96 : b ≠ 96 := fun h => h96 (by simp [h])
    have hb255 : b ≠ 255 := fun h => h255 (by simp [h])
    rw [List.cons_append, template_loop_cons, if_neg hb255, if_neg hb96]
    simp only [Bool.false_eq_true, if_false]
    rw [ih rest fs (out ++ [b]) (fun h => h96 (List.mem_cons_of_mem _ h))
      (fun h => h255 (List.mem_cons_of_mem _ h))]
    simp

/-- Inside a token, bytes other than the backtick and 0xFF are appended to
`formatString`. -/
theorem template_loop_name (base64 : List Byte → List Byte) (heap : Nat → Byte)
    (colors : List Color3) (indices : List ColorIndex) (width height : Int)
    (name : List Byte) :
    ∀ (rest fs out : List Byte), (96 : Byte) ∉ name → (255 : Byte) ∉ name →
      template_loop base64 heap colors indices width height (name ++ rest) true fs out
        = template_loop base64 heap colors indices width height rest true (fs ++ name) out := by
  induction name with
  | nil => intro rest fs out _ _; simp
  | cons b name ih =>
    intro rest fs out h96 h255
    have hb96 : b ≠ 96 := fun h => h96 (by simp [h])
    have hb255 : b ≠ 255 := fun h => h255 (by simp [h])
    rw [List.cons_append, template_loop_cons, if_neg hb255, if_neg hb96]
    simp only [if_true]
    rw [ih rest (fs ++ [b]) out (fun h => h96 (List.mem_cons_of_mem _ h))
      (fun h => h255 (List.mem_cons_of_mem _ h))]
    simp

/-- A closed token whose name has no 0xFF byte is replaced by the text of
`format_token`. -/
theorem template_loop_token (base64 : List Byte → List Byte) (heap : Nat → Byte)
    (colors : List Color3) (indices : List ColorIndex) (width height : Int)
    (name rest fs out : List Byte) (h96 : (96 : Byte) ∉ name) (h255 : (255 : Byte) ∉ name) :
    template_loop base64 heap colors indices width height (96 :: (name ++ 96 :: rest)) false fs out
      = (format_token base64 heap colors indices width height (name ++ [0])).bind fun text =>
          template_loop base64 heap colors indices width height rest false (name ++ [0])
            (out ++ text) := by
  rw [template_loop_cons, if_neg (by decide), if_pos rfl]
  simp only [Bool.false_eq_true, if_false]
  rw [template_loop_name _ _ _ _ _ _ name _ _ _ h96 h255, template_loop_cons,
    if_neg (by decide), if_pos rfl]
  simp

/-- An opened token that is never closed writes nothing. -/
theorem template_loop_unterminated (base64 : List Byte → List Byte) (heap : Nat → Byte)
    (colors : List Color3) (indices : List ColorIndex) (width height : Int)
    (rest : List Byte) :
    ∀ (fs out : List Byte), (96 : Byte) ∉ rest →
      template_loop base64 heap colors indices width height rest true fs out = some out := by
  induction rest with
  | nil => intro fs out _; rfl
  | cons b rest ih =>
    intro fs out h96
    have hb96 : b ≠ 96 := fun h => h96 (by simp [h])
    rw [template_loop_cons, if_neg hb96]
    by_cases hb : b = 255
    · rw [if_pos hb]
    · rw [if_neg hb]
      simp only [if_true]
      exact ih _ _ (fun h => h96 (List.mem_cons_of_mem _ h))

/-- The text written for an `attributes` token. -/
theorem format_token_attributes (base64 : List Byte → List Byte) (heap : Nat → Byte)
    (colors : List Color3) (indices : List ColorIndex) (width height : Int)
    (fs : List Byte) (hfs : c_str fs = ATTRIBUTES) :
    format_token base64 heap colors indices width height fs
      = some (base64 (le32 1 ++ le32 7 ++ RawData.chars ++ [2]
          ++ le32 ((12 + 3 * colors.length + 5 * indices.length) % 4294967296)
          ++ (le32 (int_to_u32 width).val ++ le32 (int_to_u32 height).val
            ++ le32 (3 * colors.length % 4294967296)
            ++ colors.flatMap color_bytes ++ indices.flatMap record_bytes))) := by
  unfold format_token
  rw [if_pos hfs, encode_image_data_eq]
  simp only [Option.some_bind]
  generalize hb : le32 (int_to_u32 width).val ++ le32 (int_to_u32 height).val
    ++ le32 (3 * colors.length % 4294967296)
    ++ colors.flatMap color_bytes ++ indices.flatMap record_bytes = blob
  have hbl : blob.length = 12 + 3 * colors.length + 5 * indices.length := by
    rw [← hb]
    simp only [List.length_append, flatMap_color_bytes_length, flatMap_record_bytes_length]
    simp [le32]
  have htab := attribute_table_eq heap [(RawData, blob)]
    (by simp only [List.length_singleton]; decide)
    (by
      intro e he
      rw [List.mem_singleton] at he
      subst he
      show RawData.chars.length < 4294967296
      decide)
  have htab2 : attribute_table heap [RawData] [blob] [blob.length] ⟨1, by decide⟩
      = some (le32 1 ++ [(RawData, blob)].flatMap entry_bytes,
          4 + ([(RawData, blob)].map (fun e => 9 + e.1.chars.length + e.2.length)).sum) :=
    htab
  have htl : (le32 1 ++ [(RawData, blob)].flatMap entry_bytes).length
      = 4 + ([(RawData, blob)].map (fun e => 9 + e.1.chars.length + e.2.length)).sum := by
    rw [List.length_append, flatMap_entry_bytes_length]
    simp [le32]
  unfold encode_rbxmx_attributes
  rw [← hbl, htab2]
  simp only [Option.some_bind]
  rw [List.take_of_length_le (by rw [htl])]
  have hle : le32 (blob.length % 4294967296) = le32 blob.length := by
    have := le32_to_u32 blob.length
    simpa [to_u32] using this
  rw [hle]
  congr 2
  simp [entry_bytes, RawData, List.append_assoc]

theorem format_token_isSome (base64 : List Byte → List Byte) (heap : Nat → Byte)
    (colors : List Color3) (indices : List ColorIndex) (width height : Int) (fs : List Byte) :
    ∃ text, format_token base64 heap colors indices width height fs = some text := by
  by_cases h : c_str fs = ATTRIBUTES
  · exact ⟨_, format_token_attributes base64 heap colors indices width height fs h⟩
  · unfold format_token
    rw [if_neg h]
    split_ifs <;> exact ⟨_, rfl⟩

/-- The loop always terminates with some output. -/
theorem template_loop_isSome (base64 : List Byte → List Byte) (heap : Nat → Byte)
    (colors : List Color3) (indices : List ColorIndex) (width height : Int)
    (file : List Byte) :
    ∀ (isOpen : Bool) (fs out : List Byte),
      ∃ res, template_loop base64 heap colors indices width height file isOpen fs out
        = some res := by
  induction file with
  | nil => intro isOpen fs out; exact ⟨out, rfl⟩
  | cons b rest ih =>
    intro isOpen fs out
    rw [template_loop_cons]
    split_ifs
    · exact ⟨_, rfl⟩
    · obtain ⟨text, ht⟩ := format_token_isSome base64 heap colors indices width height (fs ++ [0])
      rw [ht]
      exact ih _ _ _
    · exact ih _ _ _
    · exact ih _ _ _
    · exact ih _ _ _

theorem c_str_append_nul (name : List Byte) : c_str (name ++ [0]) = c_str name := by
  induction name with
  | nil => simp [c_str]
  | cons b name ih =>
    simp only [c_str, List.cons_append, List.takeWhile_cons] at ih ⊢
    split_ifs
    · rw [ih]
    · rfl

/-- Without backtick and without 0xFF byte the format file is copied. -/
theorem write_rbxmx_file_copy (base64 : List Byte → List Byte) (heap : Nat → Byte)
    (template : List Byte) (colors : List Color3) (indices : List ColorIndex)
    (width height : Int) (h96 : (96 : Byte) ∉ template) (h255 : (255 : Byte) ∉ template) :
    write_rbxmx_file base64 heap template colors indices width height = some template := by
  have h := template_loop_literal base64 heap colors indices width height template [] [] []
    h96 h255
  rw [List.append_nil] at h
  rw [write_rbxmx_file, h]
  rfl

/-- One token between two literal parts, none of which has a 0xFF byte. -/
theorem write_rbxmx_file_one_token (base64 : List Byte → List Byte) (heap : Nat → Byte)
    (colors : List Color3) (indices : List ColorIndex) (width height : Int)
    (pre name post : List Byte)
    (hpre : (96 : Byte) ∉ pre ∧ (255 : Byte) ∉ pre)
    (hname : (96 : Byte) ∉ name ∧ (255 : Byte) ∉ name)
    (hpost : (96 : Byte) ∉ post ∧ (255 : Byte) ∉ post) :
    write_rbxmx_file base64 heap (pre ++ 96 :: (name ++ 96 :: post)) colors indices width height
      = (format_token base64 heap colors indices width height (name ++ [0])).bind fun text =>
          some (pre ++ text ++ post) := by
  rw [write_rbxmx_file, template_loop_literal _ _ _ _ _ _ pre _ _ _ hpre.1 hpre.2,
    template_loop_token _ _ _ _ _ _ name _ _ _ hname.1 hname.2]
  congr 1
  funext text
  have h := template_loop_literal base64 heap colors indices width height post []
    (name ++ [0]) ([] ++ pre ++ text) hpost.1 hpost.2
  rw [List.append_nil] at h
  rw [h]
  simp [template_loop]

/-- C11 (as amended). When `write_rbxmx_file` meets a closed `attributes` token
(so that `formatString` is `"attributes"` followed by the pushed NUL), the
bytes it submits for base64 encoding are exactly: u32 1, u32 7, the 7 bytes
`"RawData"`, the byte 2, the u32 `L mod 2^32`, then the `L` bytes of the block
returned by `encode_image_data`, where `L = 12 + 3*|colors| + 5*|indices|`; the
text written for the token is the base64 text of these bytes. -/
theorem write_rbxmx_file_attributes (base64 : List Byte → List Byte) (heap : Nat → Byte)
    (colors : List Color3) (indices : List ColorIndex) (width height : Int) :
    ∃ (blob : List Byte) (L : Nat),
      encode_image_data heap colors indices width height = some (blob, L)
      ∧ L = 12 + 3 * colors.length + 5 * indices.length ∧ blob.length = L
      ∧ format_token base64 heap colors indices width height (ATTRIBUTES ++ [0])
          = some (base64 (le32 1 ++ le32 7 ++ [82, 97, 119, 68, 97, 116, 97] ++ [2]
              ++ le32 (L % 4294967296) ++ blob))
      ∧ write_rbxmx_file base64 heap (96 :: (ATTRIBUTES ++ [96])) colors indices width height
          = some (base64 (le32 1 ++ le32 7 ++ [82, 97, 119, 68, 97, 116, 97] ++ [2]
              ++ le32 (L % 4294967296) ++ blob)) := by
  have hfs : c_str (ATTRIBUTES ++ [0]) = ATTRIBUTES := by
    rw [c_str_append_nul]
    decide
  have hft := format_token_attributes base64 heap colors indices width height
    (ATTRIBUTES ++ [0]) hfs
  have hbl : (le32 (int_to_u32 width).val ++ le32 (int_to_u32 height).val
      ++ le32 (3 * colors.length % 4294967296)
      ++ colors.flatMap color_bytes ++ indices.flatMap record_bytes).length
      = 12 + 3 * colors.length + 5 * indices.length := by
    simp only [List.length_append, flatMap_color_bytes_length, flatMap_record_bytes_length]
    simp [le32]
  refine ⟨_, _, encode_image_data_eq heap colors indices width height, rfl, hbl, hft, ?_⟩
  have h := write_rbxmx_file_one_token base64 heap colors indices width height [] ATTRIBUTES []
    (by simp) (by decide) (by simp)
  simp only [List.nil_append] at h
  rw [h, hft]
  simp only [Option.some_bind, List.append_nil]
  rfl

/-- C11, counterexample. For an empty palette and 858993457 index records the
block has `L = 4294967297` bytes and the length field of the submitted table
(its bytes 16..19) holds the u32 1, not `L`. -/
theorem write_rbxmx_file_attributes_counterexample :
    ∃ table : List Byte,
      format_token id (fun _ => 0) [] (List.replicate 858993457 ⟨0, 0⟩) 0 0 (ATTRIBUTES ++ [0])
        = some table
      ∧ (table.drop 16).take 4 = [1, 0, 0, 0]
      ∧ 12 + 3 * ([] : List Color3).length
          + 5 * (List.replicate 858993457 (⟨0, 0⟩ : ColorIndex)).length = 4294967297 := by
  have hfs : c_str (ATTRIBUTES ++ [0]) = ATTRIBUTES := by
    rw [c_str_append_nul]
    decide
  refine ⟨_, format_token_attributes id (fun _ => 0) [] _ 0 0 (ATTRIBUTES ++ [0]) hfs, ?_, ?_⟩
  · rw [List.length_replicate]
    simp only [id, le32, RawData, List.length_nil, List.append_assoc, List.cons_append,
      List.nil_append, List.drop_succ_cons, List.drop_zero, List.take_succ_cons, List.take_zero]
    decide
  · rw [List.length_replicate]
    rfl

/-- C12, the code at the failing input: the three-byte format file
`0x41 0xFF 0x42` has no backtick, yet only `0x41` is written. The byte 0xFF,
stored in the `char c`, compares equal to `EOF` and ends the loop. -/
theorem write_rbxmx_file_stops_at_0xFF (base64 : List Byte → List Byte) (heap : Nat → Byte)
    (colors : List Color3) (indices : List ColorIndex) (width height : Int) :
    write_rbxmx_file base64 heap [65, 255, 66] colors indices width height = some [65] := by
  rw [write_rbxmx_file, template_loop_cons, if_neg (by decide), if_neg (by decide),
    template_loop_cons, if_pos rfl]
  rfl

/-- C13 (as amended). For a format file `pre ++ "`" ++ name ++ "`" ++ post` in
which `pre`, `name` and `post` contain neither a backtick nor the byte 0xFF, and
the token name read as a C string (its bytes before the first NUL) is none of
`"attributes"`, `"image_width"`, `"image_height"`, the output is exactly
`pre ++ post`. -/
theorem write_rbxmx_file_unknown_token (base64 : List Byte → List Byte) (heap : Nat → Byte)
    (colors : List Color3) (indices : List ColorIndex) (width height : Int)
    (pre name post : List Byte)
    (hpre : (96 : Byte) ∉ pre ∧ (255 : Byte) ∉ pre)
    (hname : (96 : Byte) ∉ name ∧ (255 : Byte) ∉ name)
    (hpost : (96 : Byte) ∉ post ∧ (255 : Byte) ∉ post)
    (h1 : c_str name ≠ ATTRIBUTES) (h2 : c_str name ≠ IMAGE_WIDTH)
    (h3 : c_str name ≠ IMAGE_HEIGHT) :
    write_rbxmx_file base64 heap (pre ++ [96] ++ name ++ [96] ++ post) colors indices
        width height
      = some (pre ++ post) := by
  have e : pre ++ [96] ++ name ++ [96] ++ post = pre ++ 96 :: (name ++ 96 :: post) := by simp
  rw [e, write_rbxmx_file_one_token base64 heap colors indices width height pre name post
    hpre hname hpost]
  unfold format_token
  rw [c_str_append_nul, if_neg h1, if_neg h2, if_neg h3]
  simp

/-- Witness for C13 (as amended): the format file ``a`foo`b``. -/
theorem write_rbxmx_file_unknown_token_witness :
    write_rbxmx_file id (fun _ => 0) ([97] ++ [96] ++ [102, 111, 111] ++ [96] ++ [98]) [] [] 3 4
      = some ([97] ++ [98]) :=
  write_rbxmx_file_unknown_token id (fun _ => 0) [] [] 3 4 [97] [102, 111, 111] [98]
    (by decide) (by decide) (by decide) (by decide) (by decide) (by decide)

/-- C13, counterexample. The token name `"image_width"` followed by a NUL byte
is a backtick-free byte string that is not one of the three names, yet the
token is replaced by the decimal text of the width (here `"5"`), not dropped. -/
theorem write_rbxmx_file_unknown_token_counterexample :
    write_rbxmx_file id (fun _ => 0) ([] ++ [96] ++ (IMAGE_WIDTH ++ [0]) ++ [96] ++ [])
        [] [] 5 0 = some [53]
      ∧ IMAGE_WIDTH ++ [0] ≠ ATTRIBUTES ∧ IMAGE_WIDTH ++ [0] ≠ IMAGE_WIDTH
      ∧ IMAGE_WIDTH ++ [0] ≠ IMAGE_HEIGHT ∧ (96 : Byte) ∉ IMAGE_WIDTH ++ [0] := by
  refine ⟨?_, by decide, by decide, by decide, by decide⟩
  have h := write_rbxmx_file_one_token id (fun _ => 0) [] [] 5 0 [] (IMAGE_WIDTH ++ [0]) []
    (by simp) (by decide) (by simp)
  have e : ([] : List Byte) ++ [96] ++ (IMAGE_WIDTH ++ [0]) ++ [96] ++ []
      = [] ++ 96 :: ((IMAGE_WIDTH ++ [0]) ++ 96 :: []) := by simp
  rw [e, h]
  have hc : c_str (IMAGE_WIDTH ++ [0] ++ [0]) = IMAGE_WIDTH := by decide
  have hne : IMAGE_WIDTH ≠ ATTRIBUTES := by decide
  unfold format_token
  rw [hc, if_neg hne, if_pos rfl]
  simp [to_string, decimal_digits]
  decide

/-- The tokens `image_width` and `image_height` between literal parts without
0xFF byte are replaced by the text of `std::to_string`. -/
theorem write_rbxmx_file_size_tokens (base64 : List Byte → List Byte) (heap : Nat → Byte)
    (colors : List Color3) (indices : List ColorIndex) (width height : Int)
    (pre post : List Byte)
    (hpre : (96 : Byte) ∉ pre ∧ (255 : Byte) ∉ pre)
    (hpost : (96 : Byte) ∉ post ∧ (255 : Byte) ∉ post) :
    write_rbxmx_file base64 heap (pre ++ 96 :: (IMAGE_WIDTH ++ 96 :: post)) colors indices
        width height = some (pre ++ to_string width ++ post)
    ∧ write_rbxmx_file base64 heap (pre ++ 96 :: (IMAGE_HEIGHT ++ 96 :: post)) colors indices
        width height = some (pre ++ to_string height ++ post) := by
  have hw : c_str (IMAGE_WIDTH ++ [0]) = IMAGE_WIDTH := by decide
  have hh : c_str (IMAGE_HEIGHT ++ [0]) = IMAGE_HEIGHT := by decide
  have n1 : IMAGE_WIDTH ≠ ATTRIBUTES := by decide
  have n2 : IMAGE_HEIGHT ≠ ATTRIBUTES := by decide
  have n3 : IMAGE_HEIGHT ≠ IMAGE_WIDTH := by decide
  constructor
  · rw [write_rbxmx_file_one_token base64 heap colors indices width height pre IMAGE_WIDTH post
      hpre (by decide) hpost]
    unfold format_token
    rw [hw, if_neg n1, if_pos rfl]
    rfl
  · rw [write_rbxmx_file_one_token base64 heap colors indices width height pre IMAGE_HEIGHT post
      hpre (by decide) hpost]
    unfold format_token
    rw [hh, if_neg n2, if_neg n3, if_pos rfl]
    rfl

/-- C14, the code at the failing input: for the format file consisting of the
byte 0xFF followed by the token `image_width`, and width 7, nothing is written
(the claim asks for the byte 0xFF followed by `"7"`). The byte 0xFF ends the
loop, as for C12. -/
theorem write_rbxmx_file_width_after_0xFF (base64 : List Byte → List Byte) (heap : Nat → Byte)
    (colors : List Color3) (indices : List ColorIndex) (height : Int) :
    write_rbxmx_file base64 heap ([255] ++ 96 :: (IMAGE_WIDTH ++ [96])) colors indices 7 height
      = some [] := by
  rw [write_rbxmx_file, List.singleton_append, template_loop_cons, if_pos rfl]

/-- Parity of the backticks read decides whether the loop is inside a token:
an opening backtick met outside a token, with no backtick after it, adds
nothing to the output. -/
theorem template_loop_unterminated_tail (base64 : List Byte → List Byte) (heap : Nat → Byte)
    (colors : List Color3) (indices : List ColorIndex) (width height : Int)
    (rest : List Byte) (hrest : (96 : Byte) ∉ rest) (t : List Byte) :
    ∀ (isOpen : Bool) (fs out : List Byte),
      (t.count 96 + (if isOpen then 1 else 0)) % 2 = 0 →
      template_loop base64 heap colors indices width height (t ++ 96 :: rest) isOpen fs out
        = template_loop base64 heap colors indices width height t isOpen fs out := by
  induction t with
  | nil =>
    intro isOpen fs out hpar
    cases isOpen with
    | true => simp at hpar
    | false =>
      rw [List.nil_append, template_loop_cons, if_neg (by decide), if_pos rfl]
      simp only [Bool.false_eq_true, if_false]
      rw [template_loop_unterminated _ _ _ _ _ _ rest _ _ hrest]
      rfl
  | cons b t ih =>
    intro isOpen fs out hpar
    rw [List.cons_append, template_loop_cons, template_loop_cons]
    by_cases h255 : b = 255
    · rw [if_pos h255, if_pos h255]
    rw [if_neg h255, if_neg h255]
    by_cases h96 : b = 96
    · subst h96
      rw [if_pos rfl, if_pos rfl]
      rw [List.count_cons_self] at hpar
      cases isOpen with
      | true =>
        simp only [if_true] at hpar ⊢
        congr 1
        funext text
        exact ih false _ _ (by simp only [Bool.false_eq_true, if_false]; omega)
      | false =>
        simp only [Bool.false_eq_true, if_false] at hpar ⊢
        exact ih true _ _ (by simp only [if_true]; omega)
    · rw [if_neg h96, if_neg h96]
      rw [List.count_cons_of_ne (Ne.symm h96)] at hpar
      cases isOpen with
      | true =>
        simp only [if_true]
        exact ih true _ _ hpar
      | false =>
        simp only [Bool.false_eq_true, if_false]
        exact ih false _ _ hpar

/-- C15. Unterminated token: for a format file `t ++ "`" ++ rest` where `t` has
an even number of backticks and `rest` has none, `write_rbxmx_file` returns, and
its output is its output on `t` alone: neither the opening backtick nor the
bytes of `rest` are written. -/
theorem write_rbxmx_file_unterminated (base64 : List Byte → List Byte) (heap : Nat → Byte)
    (colors : List Color3) (indices : List ColorIndex) (width height : Int)
    (t rest : List Byte) (ht : Even (t.count 96)) (hrest : (96 : Byte) ∉ rest) :
    ∃ out : List Byte,
      write_rbxmx_file base64 heap (t ++ [96] ++ rest) colors indices width height = some out
      ∧ write_rbxmx_file base64 heap t colors indices width height = some out := by
  obtain ⟨out, hout⟩ := template_loop_isSome base64 heap colors indices width height t false [] []
  refine ⟨out, ?_, hout⟩
  have e : t ++ [96] ++ rest = t ++ 96 :: rest := by simp
  rw [write_rbxmx_file, e, template_loop_unterminated_tail base64 heap colors indices width height
    rest hrest t false [] [] (by
      simp only [Bool.false_eq_true, if_false, Nat.add_zero]
      exact Nat.even_iff.1 ht)]
  exact hout

/-- Witness for C15: the format file ``a`image_width`b`cd``. -/
theorem write_rbxmx_file_unterminated_witness :
    ∃ out : List Byte,
      write_rbxmx_file id (fun _ => 0) ((97 :: 96 :: (IMAGE_WIDTH ++ [96, 98])) ++ [96]
          ++ [99, 100]) [] [] 12 0 = some out
      ∧ write_rbxmx_file id (fun _ => 0) (97 :: 96 :: (IMAGE_WIDTH ++ [96, 98])) [] [] 12 0
          = some out :=
  write_rbxmx_file_unterminated id (fun _ => 0) [] [] 12 0
    (97 :: 96 :: (IMAGE_WIDTH ++ [96, 98])) [99, 100] (by decide) (by decide)

/-- The text of `decimal_digits`: ASCII digits only, whose value is the number,
without a leading zero (except for the text `"0"` of zero). -/
theorem decimal_digits_spec (n : Nat) :
    (∀ b ∈ decimal_digits n, 48 ≤ b.val ∧ b.val ≤ 57)
    ∧ Nat.ofDigits 10 ((decimal_digits n).reverse.map fun b => b.val - 48) = n
    ∧ (n ≠ 0 → (decimal_digits n).head? ≠ some 48) := by
  by_cases hn : n = 0
  · subst hn
    refine ⟨?_, ?_, fun h => absurd rfl h⟩
    · intro b hb
      simp only [decimal_digits, if_true, List.mem_singleton] at hb
      subst hb
      decide
    · simp only [decimal_digits, if_true, List.reverse_singleton, List.map_singleton]
      rfl
  have hd : ∀ d ∈ Nat.digits 10 n, d < 10 := fun d hd => Nat.digits_lt_base (by decide) hd
  have hval : ∀ d, d < 10 → (to_u8 (48 + d)).val = 48 + d := by
    intro d hd
    simp only [to_u8]
    omega
  refine ⟨?_, ?_, fun _ => ?_⟩
  · intro b hb
    simp only [decimal_digits, if_neg hn, List.mem_map, List.mem_reverse] at hb
    obtain ⟨d, hdm, rfl⟩ := hb
    rw [hval d (hd d hdm)]
    have := hd d hdm
    omega
  · have hmap : ((decimal_digits n).reverse.map fun b => b.val - 48) = Nat.digits 10 n := by
      simp only [decimal_digits, if_neg hn, ← List.map_reverse, List.reverse_reverse,
        List.map_map]
      conv_rhs => rw [← List.map_id (Nat.digits 10 n)]
      apply List.map_congr_left
      intro d hdm
      simp only [Function.comp, id]
      rw [hval d (hd d hdm)]
      omega
    rw [hmap, Nat.ofDigits_digits]
  · have hne : Nat.digits 10 n ≠ [] := Nat.digits_ne_nil_iff_ne_zero.2 hn
    have hlast := Nat.getLast_digit_ne_zero 10 hn
    simp only [decimal_digits, if_neg hn]
    rw [List.head?_map, List.head?_reverse, List.getLast?_eq_getLast _ hne]
    simp only [Option.map_some', ne_eq, Option.some.injEq]
    intro h
    have hlt := hd _ (List.getLast_mem hne)
    have h2 := congrArg Fin.val h
    rw [hval _ hlt] at h2
    have h3 : ((48 : Byte)).val = 48 := rfl
    rw [h3] at h2
    exact hlast (by omega)

/-! ## The quantizer and the first-fit scan -/

theorem find_color_eq_first_match (color : Color3) (P : List Color3) :
    ∀ j : Nat, find_color color P j
      = match first_match color P with
        | some i => ((j + i : Nat) : Int)
        | none => -1 := by
  induction P with
  | nil => intro j; rfl
  | cons q P ih =>
    intro j
    simp only [find_color, first_match]
    split_ifs with hq
    · simp
    · rw [ih (j + 1)]
      cases first_match color P with
      | none => rfl
      | some i =>
        simp only [Option.map_some']
        congr 1
        omega

theorem records_from_append (S : List Nat) :
    ∀ (k s : Nat), records_from k (S ++ [s])
      = records_from k S ++ [{ pixelIndex := to_u32 (k + S.length), colorIndex := to_u16 s }] := by
  induction S with
  | nil => intro k s; simp [records_from]
  | cons a S ih =>
    intro k s
    rw [List.cons_append, records_from, ih (k + 1) s, records_from, List.length_cons,
      show k + 1 + S.length = k + (S.length + 1) by omega]
    rfl

theorem records_from_length (S : List Nat) : ∀ k, (records_from k S).length = S.length := by
  induction S with
  | nil => intro k; rfl
  | cons a S ih => intro k; simp [records_from, ih]

theorem records_from_getElem? (S : List Nat) :
    ∀ (k i : Nat), (records_from k S)[i]?
      = (S[i]?).map fun s => { pixelIndex := to_u32 (k + i), colorIndex := to_u16 s } := by
  induction S with
  | nil => intro k i; simp [records_from]
  | cons a S ih =>
    intro k i
    cases i with
    | zero => simp [records_from]
    | succ i =>
      simp only [records_from, List.getElem?_cons_succ, ih]
      rw [show k + 1 + i = k + (i + 1) by omega]

/-- The loop body and the step of the specification agree. -/
theorem quantize_step_eq_reference (color : Color3) (k : Nat) (P : List Color3) (S : List Nat)
    (hS : S.length = k) :
    quantize_step color k (P, records_from 0 S)
      = ((reference_step (P, S) color).1, records_from 0 (reference_step (P, S) color).2) := by
  unfold quantize_step reference_step
  simp only [find_color_eq_first_match]
  cases hfm : first_match color P with
  | none =>
    simp only [records_from_append, hS, Nat.zero_add]
    rw [if_neg (by decide)]
  | some i =>
    simp only [records_from_append, hS, Nat.zero_add]
    rw [if_pos (Int.natCast_nonneg _), int_to_u16_natCast]

theorem reference_scan_append (pixels : List Color3) (color : Color3) :
    reference_scan (pixels ++ [color]) = reference_step (reference_scan pixels) color := by
  simp [reference_scan, List.foldl_append]

theorem reference_scan_slots_length (pixels : List Color3) :
    (reference_scan pixels).2.length = pixels.length := by
  induction pixels using List.reverseRecOn with
  | nil => rfl
  | append_singleton l a ih =>
    rw [reference_scan_append, reference_step]
    cases first_match a (reference_scan l).1 <;> simp [ih]

theorem image_pixels_succ (data : List Byte) (c k : Nat) (color : Color3)
    (h : pixel_color data c k = some color) :
    image_pixels data c (k + 1) = image_pixels data c k ++ [color] := by
  simp [image_pixels, List.range_succ, List.filterMap_append, h]

theorem image_pixels_length (data : List Byte) (c n : Nat) (hlen : data.length = n * c)
    (hc : 3 ≤ c) : ∀ k, k ≤ n → (image_pixels data c k).length = k := by
  intro k
  induction k with
  | zero => intro _; rfl
  | succ k ih =>
    intro hk
    obtain ⟨color, hcol⟩ := pixel_color_isSome data c n k hlen hc (by omega)
    rw [image_pixels_succ data c k color hcol, List.length_append, ih (by omega)]
    rfl

theorem image_pixels_getElem? (data : List Byte) (c n : Nat) (hlen : data.length = n * c)
    (hc : 3 ≤ c) : ∀ k, k ≤ n → ∀ i, i < k →
      (image_pixels data c k)[i]? = pixel_color data c i := by
  intro k
  induction k with
  | zero => intro _ i hi; omega
  | succ k ih =>
    intro hk i hi
    obtain ⟨color, hcol⟩ := pixel_color_isSome data c n k hlen hc (by omega)
    have hl := image_pixels_length data c n hlen hc k (by omega)
    rw [image_pixels_succ data c k color hcol]
    by_cases hik : i < k
    · rw [List.getElem?_append_left (by omega)]
      exact ih (by omega) i hik
    · have : i = k := by omega
      subst this
      rw [List.getElem?_append_right (by omega), hl, hcol]
      simp

/-- The scan of the first `k` pixels computes the palette and the slots of the
specification, the slots reduced to `uint16_t`. -/
theorem for_loop_refines (data : List Byte) (c n : Nat) (hlen : data.length = n * c)
    (hc : 3 ≤ c) :
    ∀ k, k ≤ n → for_loop (pixel_step data c) k 0 ([], [])
      = some ((reference_scan (image_pixels data c k)).1,
          records_from 0 (reference_scan (image_pixels data c k)).2) := by
  intro k
  induction k with
  | zero => intro _; rfl
  | succ k ih =>
    intro hk
    obtain ⟨color, hcol⟩ := pixel_color_isSome data c n k hlen hc (by omega)
    rw [for_loop_succ, ih (by omega), image_pixels_succ data c k color hcol,
      reference_scan_append]
    simp only [Option.some_bind, Nat.zero_add, pixel_step, hcol, Option.map_some']
    rw [quantize_step_eq_reference color k _ _
      (by rw [reference_scan_slots_length, image_pixels_length data c n hlen hc k (by omega)])]

/-- Refinement: on a well-formed image `generate_color_indices`, started with
empty vectors, returns the palette of the specification's scan and one record
per pixel with the assigned slot reduced modulo `2^16`. -/
theorem generate_color_indices_refines (data : List Byte) (w h c : Nat)
    (hlen : data.length = w * h * c) (hc : 3 ≤ c) (hint : w * h * c ≤ 2147483647) :
    generate_color_indices data (w : Int) (h : Int) (c : Int) [] []
      = some ((reference_scan (image_pixels data c (w * h))).1,
          records_from 0 (reference_scan (image_pixels data c (w * h))).2) := by
  rw [generate_color_indices_eq data w h c [] [] hc hint, Nat.mul_comm h w]
  exact for_loop_refines data c (w * h) hlen hc (w * h) (Nat.le_refl _)

theorem first_match_some (color : Color3) (P : List Color3) :
    ∀ j, first_match color P = some j →
      j < P.length ∧ ∃ q, P[j]? = some q ∧ color_equals color q = true
        ∧ ∀ i q', i < j → P[i]? = some q' → color_equals color q' = false := by
  induction P with
  | nil => intro j h; simp [first_match] at h
  | cons p P ih =>
    intro j h
    simp only [first_match] at h
    split_ifs at h with hp
    · simp only [Option.some.injEq] at h
      subst h
      exact ⟨by simp, p, by simp, hp, fun i q' hi => by omega⟩
    · cases hfm : first_match color P with
      | none => simp [hfm] at h
      | some j' =>
        simp only [hfm, Option.map_some', Option.some.injEq] at h
        subst h
        obtain ⟨h1, q, h2, h3, h4⟩ := ih j' hfm
        refine ⟨by simp only [List.length_cons]; omega, q, by simpa using h2, h3, ?_⟩
        intro i q' hi hq'
        cases i with
        | zero =>
          simp only [List.getElem?_cons_zero, Option.some.injEq] at hq'
          rw [← hq']
          simpa using hp
        | succ i =>
          simp only [List.getElem?_cons_succ] at hq'
          exact h4 i q' (by omega) hq'

theorem first_match_none (color : Color3) (P : List Color3) :
    first_match color P = none → ∀ q ∈ P, color_equals color q = false := by
  induction P with
  | nil => intro _ q hq; simp at hq
  | cons p P ih =>
    intro h q hq
    simp only [first_match] at h
    split_ifs at h with hp
    cases hfm : first_match color P with
    | some j => simp [hfm] at h
    | none =>
      rcases List.mem_cons.1 hq with rfl | hq
      · simpa using hp
      · exact ih hfm q hq

theorem assigned_nil : Assigned [] ([], []) := by
  refine ⟨rfl, ?_, ?_, [], rfl, List.Pairwise.nil, ?_⟩
  · intro i s h
    simp at h
  · intro i j qi qj _ h
    simp at h
  · intro j kj h
    simp at h

theorem assigned_step (pixels : List Color3) (st : List Color3 × List Nat) (color : Color3)
    (h : Assigned pixels st) : Assigned (pixels ++ [color]) (reference_step st color) := by
  obtain ⟨P, S⟩ := st
  obtain ⟨hlen, hslot, hsep, first, hfl, hfp, hfirst⟩ := h
  simp only at hlen hslot hsep hfl hfirst
  have hk_lt : ∀ (j kj : Nat), first[j]? = some kj → kj < S.length := by
    intro j kj hj
    have := (hfirst j kj hj).1
    by_contra hcon
    rw [List.getElem?_eq_none (by omega)] at this
    exact Option.noConfusion this
  have hj_lt : ∀ (j kj : Nat), first[j]? = some kj → j < P.length := by
    intro j kj hj
    by_contra hcon
    rw [List.getElem?_eq_none (by omega)] at hj
    exact Option.noConfusion hj
  unfold reference_step
  cases hfm : first_match color P with
  | some j0 =>
    obtain ⟨hj0, -⟩ := first_match_some color P j0 hfm
    refine ⟨by simp [hlen], ?_, hsep, first, hfl, hfp, ?_⟩
    · intro i s hi
      simp only at hi ⊢
      by_cases hiS : i < S.length
      · rw [List.getElem?_append_left hiS] at hi
        exact hslot i s hi
      · rw [List.getElem?_append_right (by omega)] at hi
        have h0 : i - S.length = 0 := by
          by_contra hne
          rw [List.getElem?_eq_none (by simp; omega)] at hi
          exact Option.noConfusion hi
        rw [h0] at hi
        simp only [List.getElem?_cons_zero, Option.some.injEq] at hi
        omega
    · intro j kj hj
      obtain ⟨h1, h2, h3⟩ := hfirst j kj hj
      have hkl := hk_lt j kj hj
      refine ⟨?_, ?_, ?_⟩
      · simp only
        rw [List.getElem?_append_left hkl]
        exact h1
      · simp only
        rw [List.getElem?_append_left (by omega)]
        exact h2
      · intro i s hi hs
        simp only at hs
        rw [List.getElem?_append_left (by omega)] at hs
        exact h3 i s hi hs
  | none =>
    have hnone := first_match_none color P hfm
    refine ⟨by simp [hlen], ?_, ?_, first ++ [S.length], by simp [hfl], ?_, ?_⟩
    · intro i s hi
      simp only [List.length_append, List.length_singleton] at hi ⊢
      by_cases hiS : i < S.length
      · rw [List.getElem?_append_left hiS] at hi
        have := hslot i s hi
        omega
      · rw [List.getElem?_append_right (by omega)] at hi
        have h0 : i - S.length = 0 := by
          by_contra hne
          rw [List.getElem?_eq_none (by simp; omega)] at hi
          exact Option.noConfusion hi
        rw [h0] at hi
        simp only [List.getElem?_cons_zero, Option.some.injEq] at hi
        omega
    · intro i j qi qj hij hi hj
      simp only at hi hj
      have hjl : j < P.length + 1 := by
        by_contra hcon
        rw [List.getElem?_eq_none (by simp; omega)] at hj
        exact Option.noConfusion hj
      rw [List.getElem?_append_left (by omega)] at hi
      by_cases hjP : j < P.length
      · rw [List.getElem?_append_left hjP] at hj
        exact hsep i j qi qj hij hi hj
      · have hjeq : j = P.length := by omega
        rw [List.getElem?_append_right (by omega), hjeq] at hj
        simp only [Nat.sub_self, List.getElem?_cons_zero, Option.some.injEq] at hj
        rw [← hj]
        exact hnone qi (List.mem_iff_getElem?.2 ⟨i, hi⟩)
    · rw [List.pairwise_append]
      refine ⟨hfp, List.pairwise_singleton _ _, ?_⟩
      intro a ha b hb
      rw [List.mem_singleton] at hb
      subst hb
      obtain ⟨j, hj⟩ := List.mem_iff_getElem?.1 ha
      exact hk_lt j a hj
    · intro j kj hj
      by_cases hjf : j < first.length
      · rw [List.getElem?_append_left hjf] at hj
        obtain ⟨h1, h2, h3⟩ := hfirst j kj hj
        have hkl := hk_lt j kj hj
        have hjl := hj_lt j kj hj
        refine ⟨?_, ?_, ?_⟩
        · simp only
          rw [List.getElem?_append_left hkl]
          exact h1
        · simp only
          rw [List.getElem?_append_left (by omega), List.getElem?_append_left hjl]
          exact h2
        · intro i s hi hs
          simp only at hs
          rw [List.getElem?_append_left (by omega)] at hs
          exact h3 i s hi hs
      · rw [List.getElem?_append_right (by omega)] at hj
        have h0 : j - first.length = 0 := by
          by_contra hne
          rw [List.getElem?_eq_none (by simp; omega)] at hj
          exact Option.noConfusion hj
        rw [h0] at hj
        simp only [List.getElem?_cons_zero, Option.some.injEq] at hj
        subst hj
        have hjeq : j = P.length := by omega
        subst hjeq
        refine ⟨?_, ?_, ?_⟩
        · simp only
          rw [List.getElem?_append_right (Nat.le_refl _)]
          simp
        · simp only
          rw [List.getElem?_append_right (by omega), List.getElem?_append_right (Nat.le_refl _),
            hlen]
          simp
        · intro i s hi hs
          simp only at hs
          rw [List.getElem?_append_left hi] at hs
          exact hslot i s hs

theorem reference_scan_assigned (pixels : List Color3) :
    Assigned pixels (reference_scan pixels) := by
  induction pixels using List.reverseRecOn with
  | nil => exact assigned_nil
  | append_singleton l a ih =>
    rw [reference_scan_append]
    exact assigned_step l _ a ih

/-- The result of `generate_color_indices` on a well-formed image, with the
invariant of the specification's scan. -/
theorem generate_color_indices_assigned (data : List Byte) (w h c : Nat)
    (hlen : data.length = w * h * c) (hc : 3 ≤ c) (hint : w * h * c ≤ 2147483647) :
    ∃ (P : List Color3) (S : List Nat),
      generate_color_indices data (w : Int) (h : Int) (c : Int) [] []
        = some (P, records_from 0 S)
      ∧ reference_scan (image_pixels data c (w * h)) = (P, S)
      ∧ S.length = w * h
      ∧ Assigned (image_pixels data c (w * h)) (P, S) := by
  have h1 := generate_color_indices_refines data w h c hlen hc hint
  have h2 := reference_scan_assigned (image_pixels data c (w * h))
  have h3 := reference_scan_slots_length (image_pixels data c (w * h))
  rw [image_pixels_length data c (w * h) hlen hc (w * h) (Nat.le_refl _)] at h3
  exact ⟨_, _, h1, rfl, h3, h2⟩

/-- C16. Palette-index truncation. On every well-formed image (a buffer of
`w*h*c` bytes with `c >= 3` that an `int` can index, `w*h*c <= 2^31 - 1`; in
particular one whose palette grows beyond 65536 entries)
`generate_color_indices` returns one record per pixel, its palette is the palette of the first-fit scan of
section 4.2, and the record of a pixel that this scan assigns palette slot `j`
(the first matching entry, or the newly appended one) stores
`paletteIndex = j mod 65536`. -/
theorem generate_color_indices_wraps (data : List Byte) (w h c : Nat)
    (hlen : data.length = w * h * c) (hc : 3 ≤ c) (hint : w * h * c ≤ 2147483647) :
    ∃ P R, generate_color_indices data (w : Int) (h : Int) (c : Int) [] [] = some (P, R)
      ∧ R.length = w * h
      ∧ P = (reference_scan (image_pixels data c (w * h))).1
      ∧ ∀ k, k < w * h → ∃ (x : ColorIndex) (j : Nat),
          R[k]? = some x ∧ (reference_scan (image_pixels data c (w * h))).2[k]? = some j
          ∧ j < P.length ∧ x.colorIndex.val = j % 65536 := by
  obtain ⟨P, S, hgen, href, hS, -, hslot, -⟩ := generate_color_indices_assigned data w h c hlen hc hint
  refine ⟨P, records_from 0 S, hgen, by rw [records_from_length, hS], by rw [href], ?_⟩
  intro k hk
  obtain ⟨j, hj⟩ : ∃ j, S[k]? = some j := ⟨_, List.getElem?_eq_getElem (by omega)⟩
  refine ⟨{ pixelIndex := to_u32 (0 + k), colorIndex := to_u16 j }, j, ?_, by rw [href]; exact hj,
    hslot k j hj, rfl⟩
  rw [records_from_getElem?, hj]
  rfl

/-- Witness for C16: the row of 65537 black pixels, whose palette has 65537
entries (see `generate_color_indices_black_row`). -/
theorem generate_color_indices_wraps_witness :
    ∃ P R, generate_color_indices (List.replicate (65537 * 1 * 3) 0) ((65537 : Nat) : Int)
          ((1 : Nat) : Int) ((3 : Nat) : Int) [] [] = some (P, R)
      ∧ R.length = 65537 * 1
      ∧ P = (reference_scan (image_pixels (List.replicate (65537 * 1 * 3) 0) 3 (65537 * 1))).1
      ∧ ∀ k, k < 65537 * 1 → ∃ (x : ColorIndex) (j : Nat),
          R[k]? = some x
          ∧ (reference_scan (image_pixels (List.replicate (65537 * 1 * 3) 0) 3
              (65537 * 1))).2[k]? = some j
          ∧ j < P.length ∧ x.colorIndex.val = j % 65536 :=
  generate_color_indices_wraps (List.replicate (65537 * 1 * 3) 0) 65537 1 3
    (List.length_replicate _ _) (by decide) (by norm_num)

/-- C20. The palette returned by `generate_color_indices`, started with empty
vectors on a well-formed image (a buffer of `w*h*c` bytes with `c >= 3` that an
`int` can index, `w*h*c <= 2^31 - 1`), is pairwise separated: for slots `i < j`,
`color_equals(palette[j], palette[i])` is false. -/
theorem generate_color_indices_separated (data : List Byte) (w h c : Nat)
    (hlen : data.length = w * h * c) (hc : 3 ≤ c) (hint : w * h * c ≤ 2147483647) :
    ∃ P R, generate_color_indices data (w : Int) (h : Int) (c : Int) [] [] = some (P, R)
      ∧ ∀ (i j : Nat) (qi qj : Color3), i < j → P[i]? = some qi → P[j]? = some qj →
          color_equals qj qi = false := by
  obtain ⟨P, S, hgen, -, -, -, -, hsep, -⟩ := generate_color_indices_assigned data w h c hlen hc hint
  exact ⟨P, _, hgen, hsep⟩

/-- Witness for C20: a 2 x 1 three-channel image. -/
theorem generate_color_indices_separated_witness :
    ∃ P R, generate_color_indices [1, 2, 3, 4, 5, 6] ((2 : Nat) : Int) ((1 : Nat) : Int)
          ((3 : Nat) : Int) [] [] = some (P, R)
      ∧ ∀ (i j : Nat) (qi qj : Color3), i < j → P[i]? = some qi → P[j]? = some qj →
          color_equals qj qi = false :=
  generate_color_indices_separated [1, 2, 3, 4, 5, 6] 2 1 3 (by decide) (by decide) (by decide)

/-- C18. Palette order is first-seen order. For a well-formed image (a buffer
of `w*h*c` bytes with `c >= 3` that an `int` can index, `w*h*c <= 2^31 - 1`)
whose palette `P` has at most 65536 entries there are pixel positions
`first[0] < first[1] < ...`, one per palette slot, such that pixel `first[j]`
is the first pixel whose record has `paletteIndex = j` and `P[j]` is exactly
the colour of that pixel. -/
theorem generate_color_indices_first_seen (data : List Byte) (w h c : Nat)
    (hlen : data.length = w * h * c) (hc : 3 ≤ c) (hint : w * h * c ≤ 2147483647) :
    ∃ P R, generate_color_indices data (w : Int) (h : Int) (c : Int) [] [] = some (P, R)
      ∧ (P.length ≤ 65536 →
          ∃ first : List Nat, first.length = P.length
            ∧ List.Pairwise (fun a b : Nat => a < b) first
            ∧ ∀ j, j < P.length → ∃ (kj : Nat) (x : ColorIndex),
                first[j]? = some kj ∧ kj < w * h
                ∧ R[kj]? = some x ∧ x.colorIndex.val = j
                ∧ pixel_color data c kj = P[j]?
                ∧ ∀ (i : Nat) (y : ColorIndex), i < kj → R[i]? = some y →
                    y.colorIndex.val ≠ j) := by
  obtain ⟨P, S, hgen, -, hS, -, -, -, first, hfl, hfp, hfirst⟩ :=
    generate_color_indices_assigned data w h c hlen hc hint
  simp only at hfl hfirst
  refine ⟨P, records_from 0 S, hgen, fun hP => ⟨first, hfl, hfp, fun j hj => ?_⟩⟩
  obtain ⟨kj, hkj⟩ : ∃ kj, first[j]? = some kj := ⟨_, List.getElem?_eq_getElem (by omega)⟩
  obtain ⟨h1, h2, h3⟩ := hfirst j kj hkj
  have hk : kj < w * h := by
    by_contra hcon
    rw [List.getElem?_eq_none (by omega)] at h1
    exact Option.noConfusion h1
  refine ⟨kj, { pixelIndex := to_u32 (0 + kj), colorIndex := to_u16 j }, hkj, hk, ?_, ?_, ?_, ?_⟩
  · rw [records_from_getElem?, h1]
    rfl
  · simp only [to_u16]
    omega
  · rw [← h2]
    exact (image_pixels_getElem? data c (w * h) hlen hc (w * h) (Nat.le_refl _) kj hk).symm
  · intro i y hi hy
    rw [records_from_getElem?] at hy
    cases hs : S[i]? with
    | none => simp [hs] at hy
    | some s =>
      simp only [hs, Option.map_some', Option.some.injEq] at hy
      have hlt := h3 i s hi hs
      rw [← hy]
      simp only [to_u16]
      omega

/-- Witness for C18: a 2 x 1 three-channel image. -/
theorem generate_color_indices_first_seen_witness :
    ∃ P R, generate_color_indices [1, 2, 3, 4, 5, 6] ((2 : Nat) : Int) ((1 : Nat) : Int)
          ((3 : Nat) : Int) [] [] = some (P, R)
      ∧ (P.length ≤ 65536 →
          ∃ first : List Nat, first.length = P.length
            ∧ List.Pairwise (fun a b : Nat => a < b) first
            ∧ ∀ j, j < P.length → ∃ (kj : Nat) (x : ColorIndex),
                first[j]? = some kj ∧ kj < 2 * 1
                ∧ R[kj]? = some x ∧ x.colorIndex.val = j
                ∧ pixel_color [1, 2, 3, 4, 5, 6] 3 kj = P[j]?
                ∧ ∀ (i : Nat) (y : ColorIndex), i < kj → R[i]? = some y →
                    y.colorIndex.val ≠ j) :=
  generate_color_indices_first_seen [1, 2, 3, 4, 5, 6] 2 1 3 (by decide) (by decide) (by decide)

theorem pixel_color_flatMap (L : List Color3) :
    ∀ k, pixel_color (L.flatMap color_bytes) 3 k = L[k]? := by
  induction L with
  | nil => intro k; simp [pixel_color]
  | cons q L ih =>
    intro k
    cases k with
    | zero => simp [pixel_color, List.flatMap_cons, color_bytes]
    | succ k =>
      have e : (q :: L).flatMap color_bytes = q.r :: q.g :: q.b :: L.flatMap color_bytes := by
        simp [List.flatMap_cons, color_bytes]
      have h0 : (k + 1) * 3 = k * 3 + 1 + 1 + 1 := by omega
      have h1 : (k + 1) * 3 + 1 = (k * 3 + 1) + 1 + 1 + 1 := by omega
      have h2 : (k + 1) * 3 + 2 = (k * 3 + 2) + 1 + 1 + 1 := by omega
      have := ih k
      unfold pixel_color at this ⊢
      rw [e, h1, h2, h0]
      simp only [List.getElem?_cons_succ]
      exact this

theorem image_pixels_congr (data1 data2 : List Byte) (c1 c2 n : Nat)
    (h : ∀ k, k < n → pixel_color data1 c1 k = pixel_color data2 c2 k) :
    image_pixels data1 c1 n = image_pixels data2 c2 n := by
  unfold image_pixels
  apply List.filterMap_congr
  intro k hk
  exact h k (List.mem_range.1 hk)

theorem image_pixels_rgb_only (data : List Byte) (c n : Nat) (hlen : data.length = n * c)
    (hc : 3 ≤ c) : image_pixels (rgb_only data c n) 3 n = image_pixels data c n := by
  have hl := image_pixels_length data c n hlen hc n (Nat.le_refl _)
  have hlen3 : (rgb_only data c n).length = n * 3 := by
    rw [rgb_only, flatMap_color_bytes_length, hl]
    omega
  apply List.ext_getElem?
  intro i
  by_cases hi : i < n
  · rw [image_pixels_getElem? (rgb_only data c n) 3 n hlen3 (Nat.le_refl _) n (Nat.le_refl _) i hi,
      rgb_only, pixel_color_flatMap]
  · rw [List.getElem?_eq_none (by
        rw [image_pixels_length (rgb_only data c n) 3 n hlen3 (Nat.le_refl _) n (Nat.le_refl _)]
        omega),
      List.getElem?_eq_none (by rw [hl]; omega)]

/-- C19. Extra channels do not influence the result. Two well-formed buffers
with the same width, height and channel count `c >= 3` (of `w*h*c` bytes, a
size that an `int` can index: `w*h*c <= 2^31 - 1`) that agree on the first
three samples of every pixel give the same palette and the same index records;
and the result for a buffer equals the result for the 3-channel buffer that
keeps only the first three samples of every pixel. -/
theorem generate_color_indices_ignores_extra (data1 data2 : List Byte) (w h c : Nat)
    (hlen1 : data1.length = w * h * c) (hlen2 : data2.length = w * h * c) (hc : 3 ≤ c)
    (hint : w * h * c ≤ 2147483647)
    (hagree : ∀ (k i : Nat), k < w * h → i < 3 → data1[k * c + i]? = data2[k * c + i]?) :
    (∃ P R, generate_color_indices data1 (w : Int) (h : Int) (c : Int) [] [] = some (P, R)
      ∧ generate_color_indices data2 (w : Int) (h : Int) (c : Int) [] [] = some (P, R))
    ∧ (rgb_only data1 c (w * h)).length = w * h * 3
    ∧ generate_color_indices (rgb_only data1 c (w * h)) (w : Int) (h : Int) ((3 : Nat) : Int) [] []
        = generate_color_indices data1 (w : Int) (h : Int) (c : Int) [] [] := by
  have hpix : image_pixels data1 c (w * h) = image_pixels data2 c (w * h) := by
    apply image_pixels_congr
    intro k hk
    have h0 := hagree k 0 hk (by decide)
    have h1 := hagree k 1 hk (by decide)
    have h2 := hagree k 2 hk (by decide)
    simp only [Nat.add_zero] at h0
    simp only [pixel_color, h0, h1, h2]
  have hl := image_pixels_length data1 c (w * h) hlen1 hc (w * h) (Nat.le_refl _)
  have hlen3 : (rgb_only data1 c (w * h)).length = w * h * 3 := by
    rw [rgb_only, flatMap_color_bytes_length, hl]
    omega
  have hint3 : w * h * 3 ≤ 2147483647 := by
    have : w * h * 3 ≤ w * h * c := Nat.mul_le_mul_left _ hc
    omega
  refine ⟨⟨_, _, generate_color_indices_refines data1 w h c hlen1 hc hint, ?_⟩, hlen3, ?_⟩
  · rw [generate_color_indices_refines data2 w h c hlen2 hc hint, hpix]
  · rw [generate_color_indices_refines data1 w h c hlen1 hc hint,
      generate_color_indices_refines (rgb_only data1 c (w * h)) w h 3 hlen3 (Nat.le_refl _)
        hint3,
      image_pixels_rgb_only data1 c (w * h) hlen1 hc]

/-- Witness for C19: two 2 x 1 images with four channels that differ in the
fourth sample only. -/
theorem generate_color_indices_ignores_extra_witness :
    (∃ P R, generate_color_indices [1, 2, 3, 9, 4, 5, 6, 9] ((2 : Nat) : Int) ((1 : Nat) : Int)
          ((4 : Nat) : Int) [] [] = some (P, R)
      ∧ generate_color_indices [1, 2, 3, 0, 4, 5, 6, 7] ((2 : Nat) : Int) ((1 : Nat) : Int)
          ((4 : Nat) : Int) [] [] = some (P, R))
    ∧ (rgb_only [1, 2, 3, 9, 4, 5, 6, 9] 4 (2 * 1)).length = 2 * 1 * 3
    ∧ generate_color_indices (rgb_only [1, 2, 3, 9, 4, 5, 6, 9] 4 (2 * 1)) ((2 : Nat) : Int)
          ((1 : Nat) : Int) ((3 : Nat) : Int) [] []
        = generate_color_indices [1, 2, 3, 9, 4, 5, 6, 9] ((2 : Nat) : Int) ((1 : Nat) : Int)
          ((4 : Nat) : Int) [] [] :=
  generate_color_indices_ignores_extra [1, 2, 3, 9, 4, 5, 6, 9] [1, 2, 3, 0, 4, 5, 6, 7] 2 1 4
    (by decide) (by decide) (by decide) (by decide)
    (by
      intro k i hk hi
      have hk2 : k = 0 ∨ k = 1 := by omega
      have hi2 : i = 0 ∨ i = 1 ∨ i = 2 := by omega
      rcases hk2 with rfl | rfl <;> rcases hi2 with rfl | rfl | rfl <;> rfl)

theorem color_equals_black : color_equals ⟨0, 0, 0⟩ ⟨0, 0, 0⟩ = false := by
  rw [color_equals_eq_color_close]
  decide

theorem first_match_black (n : Nat) :
    first_match ⟨0, 0, 0⟩ (List.replicate n ⟨0, 0, 0⟩) = none := by
  induction n with
  | zero => rfl
  | succ n ih =>
    rw [List.replicate_succ, first_match, color_equals_black, ih]
    rfl

theorem reference_scan_black (n : Nat) :
    reference_scan (List.replicate n ⟨0, 0, 0⟩) = (List.replicate n ⟨0, 0, 0⟩, List.range n) := by
  induction n with
  | zero => rfl
  | succ n ih =>
    rw [List.replicate_succ', reference_scan_append, ih, reference_step]
    simp only [first_match_black, List.length_replicate, List.range_succ]

theorem image_pixels_black (n : Nat) :
    image_pixels (List.replicate (n * 3) 0) 3 n = List.replicate n ⟨0, 0, 0⟩ := by
  have hlen : (List.replicate (n * 3) (0 : Byte)).length = n * 3 := List.length_replicate _ _
  apply List.ext_getElem?
  intro i
  by_cases hi : i < n
  · rw [image_pixels_getElem? _ 3 n hlen (Nat.le_refl _) n (Nat.le_refl _) i hi]
    have e : ∀ m, m < n * 3 → (List.replicate (n * 3) (0 : Byte))[m]? = some 0 := by
      intro m hm
      rw [List.getElem?_replicate, if_pos hm]
    rw [pixel_color, e (i * 3) (by omega), e (i * 3 + 1) (by omega), e (i * 3 + 2) (by omega),
      List.getElem?_replicate, if_pos hi]
    rfl
  · rw [List.getElem?_eq_none (by
        rw [image_pixels_length _ 3 n hlen (Nat.le_refl _) n (Nat.le_refl _)]
        omega),
      List.getElem?_eq_none (by rw [List.length_replicate]; omega)]

/-- A row of 65537 black pixels: every pixel is appended (a colour with a zero
channel matches nothing), the palette has 65537 entries, and the record of the
last pixel, which is assigned slot 65536, stores `paletteIndex` 0. -/
theorem generate_color_indices_black_row :
    ∃ P R, generate_color_indices (List.replicate (65537 * 1 * 3) 0) ((65537 : Nat) : Int)
          ((1 : Nat) : Int) ((3 : Nat) : Int) [] [] = some (P, R)
      ∧ P.length = 65537
      ∧ (reference_scan (image_pixels (List.replicate (65537 * 1 * 3) 0) 3
            (65537 * 1))).2[65536]? = some 65536
      ∧ ∃ x, R[65536]? = some x ∧ x.colorIndex.val = 0 := by
  have h1 := generate_color_indices_refines (List.replicate (65537 * 1 * 3) 0) 65537 1 3
    (List.length_replicate _ _) (by decide) (by norm_num)
  have h2 : image_pixels (List.replicate (65537 * 1 * 3) 0) 3 (65537 * 1)
      = List.replicate (65537 * 1) ⟨0, 0, 0⟩ := image_pixels_black (65537 * 1)
  rw [h2, reference_scan_black] at h1
  rw [h2, reference_scan_black]
  dsimp only at h1 ⊢
  have hr : (List.range (65537 * 1))[65536]? = some 65536 := by
    rw [List.getElem?_range (by norm_num)]
  refine ⟨List.replicate (65537 * 1) ⟨0, 0, 0⟩, records_from 0 (List.range (65537 * 1)), h1,
    ?_, ?_, ?_⟩
  · rw [List.length_replicate]
  · exact hr
  · refine ⟨{ pixelIndex := to_u32 (0 + 65536), colorIndex := to_u16 65536 }, ?_, by decide⟩
    rw [records_from_getElem?, hr]
    rfl

/-! ## The target width -/

theorem binary64_round_int (n : ℤ) (hn : |n| < 4503599627370496) :
    binary64.round (n : ℚ) = Flt.finite (n : ℚ) := by
  have h := Format.round_half_int binary64 (2 * n) (by decide) (by decide) (by decide)
    (by
      simp only [binary64]
      rw [abs_mul]
      norm_num
      omega)
  have e : (((2 * n : ℤ) : ℚ)) / 2 = (n : ℚ) := by push_cast; ring
  rwa [e] at h

theorem binary64_round_range (x : ℚ) (h1 : 1 / 1099511627776 ≤ x)
    (h2 : x ≤ 1180591620717411303424) :
    ∃ v : ℚ, binary64.round x = Flt.finite v ∧ |v - x| * 9007199254740992 ≤ x := by
  have hx : 0 < x := by linarith
  have hmin : (2 : ℚ) ^ binary64.emin ≤ x := by
    have : (2 : ℚ) ^ binary64.emin ≤ 1 / 1099511627776 := by
      simp only [binary64]
      rw [zpow_neg, inv_le_comm₀ (by positivity) (by norm_num)]
      norm_num
    linarith
  have hmax : x * 2 < (2 : ℚ) ^ (binary64.emax + 1) := by
    have : (2361183241434822606848 : ℚ) < (2 : ℚ) ^ (binary64.emax + 1) := by
      simp only [binary64]
      norm_num
    linarith
  obtain ⟨v, hv, hb⟩ := Format.round_pos_spec binary64 x hx (by decide) hmin hmax
  exact ⟨v, hv, by simpa [binary64] using hb⟩

/-- The width computed at line 81 is the floor of the `double` product `v`, a
non-negative number within the rounding error of two `double` operations of
the exact aspect-preserving width `w / h * dh`, when that width is at most
`2^31 - 1`. -/
theorem desired_width_floor (w h dh : Nat) (hw : 0 < w) (hh : 0 < h) (hd : 0 < dh)
    (hw2 : w < 2147483648) (hh2 : h < 2147483648) (hd2 : dh < 2147483648)
    (hfit : w * dh ≤ 2147483647 * h) :
    ∃ v : ℚ, desired_width (w : Int) (h : Int) (dh : Int) = some ⌊v⌋
      ∧ 0 ≤ v
      ∧ (w : ℚ) / h * dh - (w : ℚ) / h * dh / 2251799813685248 ≤ v
      ∧ v ≤ (w : ℚ) / h * dh + (w : ℚ) / h * dh / 2251799813685248 := by
  have hwq : (1 : ℚ) ≤ w := by exact_mod_cast hw
  have hhq : (1 : ℚ) ≤ h := by exact_mod_cast hh
  have hdq : (1 : ℚ) ≤ dh := by exact_mod_cast hd
  have hwq2 : (w : ℚ) ≤ 2147483648 := by exact_mod_cast hw2.le
  have hhq2 : (h : ℚ) ≤ 2147483648 := by exact_mod_cast hh2.le
  have hdq2 : (dh : ℚ) ≤ 2147483648 := by exact_mod_cast hd2.le
  have hh0 : (h : ℚ) ≠ 0 := by linarith
  have ew : int_to_double (w : Int) = Flt.finite (w : ℚ) := by
    have := binary64_round_int (w : ℤ) (by rw [abs_of_nonneg] <;> omega)
    simpa [int_to_double] using this
  have eh : int_to_double (h : Int) = Flt.finite (h : ℚ) := by
    have := binary64_round_int (h : ℤ) (by rw [abs_of_nonneg] <;> omega)
    simpa [int_to_double] using this
  have ed : int_to_double (dh : Int) = Flt.finite (dh : ℚ) := by
    have := binary64_round_int (dh : ℤ) (by rw [abs_of_nonneg] <;> omega)
    simpa [int_to_double] using this
  set r : ℚ := (w : ℚ) / h with hr
  have hrh : r * h = w := by rw [hr]; field_simp
  have hr1 : 1 / 2147483648 ≤ r := by
    rw [hr, div_le_div_iff₀ (by norm_num) (by linarith)]
    linarith
  have hr2 : r ≤ 2147483648 := by
    rw [hr, div_le_iff₀ (by linarith)]
    have : (2147483648 : ℚ) * 1 ≤ 2147483648 * h := mul_le_mul_of_nonneg_left hhq (by norm_num)
    linarith
  obtain ⟨q1, hq1, hq1b⟩ := binary64_round_range r (by linarith) (by linarith)
  obtain ⟨hq1l, hq1u⟩ := abs_le_of_scaled64 hq1b
  have hq1pos : 0 < q1 := by linarith
  have hq1lo : 1 / 4294967296 ≤ q1 := by linarith
  have hq1hi : q1 ≤ 4294967296 := by linarith
  have hp1 : 1 / 1099511627776 ≤ q1 * dh := by
    have : q1 * 1 ≤ q1 * dh := mul_le_mul_of_nonneg_left hdq hq1pos.le
    linarith
  have hp2 : q1 * dh ≤ 1180591620717411303424 := by
    have : q1 * dh ≤ 4294967296 * 2147483648 :=
      mul_le_mul hq1hi hdq2 (by linarith) (by norm_num)
    linarith
  obtain ⟨v, hv, hvb⟩ := binary64_round_range (q1 * dh) hp1 hp2
  obtain ⟨hvl, hvu⟩ := abs_le_of_scaled64 hvb
  have hvpos : 0 ≤ v := by
    have : 0 ≤ q1 * dh := by positivity
    linarith
  have hx : r * dh - r * dh / 2251799813685248 ≤ v ∧ v ≤ r * dh + r * dh / 2251799813685248 := by
    have hrd : 0 ≤ r * dh := by positivity
    have e1 : q1 * dh ≤ (r + r / 9007199254740992) * dh :=
      mul_le_mul_of_nonneg_right hq1u (by linarith)
    have e2 : (r - r / 9007199254740992) * dh ≤ q1 * dh :=
      mul_le_mul_of_nonneg_right hq1l (by linarith)
    have e3 : (r + r / 9007199254740992) * dh = r * dh * (1 + 1 / 9007199254740992) := by ring
    have e4 : (r - r / 9007199254740992) * dh = r * dh * (1 - 1 / 9007199254740992) := by ring
    rw [e3] at e1
    rw [e4] at e2
    generalize r * dh = x at e1 e2 hrd ⊢
    generalize q1 * dh = p at e1 e2 hvl hvu
    have u1 : p * (1 + 1 / 9007199254740992)
        ≤ x * (1 + 1 / 9007199254740992) * (1 + 1 / 9007199254740992) :=
      mul_le_mul_of_nonneg_right e1 (by norm_num)
    have u2 : x * ((1 + 1 / 9007199254740992) * (1 + 1 / 9007199254740992))
        ≤ x * (1 + 1 / 2251799813685248) :=
      mul_le_mul_of_nonneg_left (by norm_num) hrd
    have l1 : x * (1 - 1 / 9007199254740992) * (1 - 1 / 9007199254740992)
        ≤ p * (1 - 1 / 9007199254740992) :=
      mul_le_mul_of_nonneg_right e2 (by norm_num)
    have l2 : x * (1 - 1 / 2251799813685248)
        ≤ x * ((1 - 1 / 9007199254740992) * (1 - 1 / 9007199254740992)) :=
      mul_le_mul_of_nonneg_left (by norm_num) hrd
    constructor <;> linarith
  have hfitq : r * dh ≤ 2147483647 := by
    have e : r * dh = ((w * dh : Nat) : ℚ) / h := by
      rw [hr]
      push_cast
      ring
    rw [e, div_le_iff₀ (by linarith)]
    exact_mod_cast hfit
  have hvlt : v < 2147483648 := by
    have : r * dh / 2251799813685248 ≤ 2147483647 / 2251799813685248 :=
      div_le_div_of_nonneg_right hfitq (by norm_num)
    have h2 := hx.2
    have : (2147483647 : ℚ) + 2147483647 / 2251799813685248 < 2147483648 := by norm_num
    linarith
  have hfl : (-2147483648 : Int) ≤ ⌊v⌋ ∧ ⌊v⌋ ≤ 2147483647 := by
    have h0 : (0 : Int) ≤ ⌊v⌋ := Int.floor_nonneg.2 hvpos
    have h1 : ⌊v⌋ < 2147483648 := by
      rw [Int.floor_lt]
      exact_mod_cast hvlt
    constructor <;> omega
  have hdw : desired_width (w : Int) (h : Int) (dh : Int) = some ⌊v⌋ := by
    unfold desired_width
    rw [ew, eh, ed]
    show double_to_int (Flt.mul binary64
      (if (h : ℚ) = 0 then _ else binary64.round ((w : ℚ) / h)) (Flt.finite dh)) = _
    rw [if_neg hh0, hq1]
    show double_to_int (binary64.round (q1 * dh)) = _
    rw [hv]
    show checked_int (truncate v) = _
    rw [truncate, if_pos hvpos, checked_int, if_pos hfl]
  exact ⟨v, hdw, hvpos, hx.1, hx.2⟩

/-- C17 (as amended). For a source width, a source height and a desired height
that are positive `int` values whose exact aspect-preserving width
`x = width / height * desiredHeight` is at most `2^31 - 1` (so that the result
fits an `int`), the target width computed at line 81 of `main` is the `double`
product truncated by `static_cast<int>`, not rounded: an integer `D` with
`0 <= D <= 2^31 - 1` that exceeds `x` by no more than the rounding error
`x / 2 ^ 51` of the two `double` operations and lies less than 1 below
`x - x / 2 ^ 51`. -/
theorem desired_width_truncates (w h dh : Nat) (hw : 0 < w) (hh : 0 < h) (hd : 0 < dh)
    (hw2 : w < 2147483648) (hh2 : h < 2147483648) (hd2 : dh < 2147483648)
    (hfit : w * dh ≤ 2147483647 * h) :
    ∃ D : Int, desired_width (w : Int) (h : Int) (dh : Int) = some D
      ∧ 0 ≤ D ∧ D ≤ 2147483647
      ∧ (D : ℚ) ≤ (w : ℚ) / h * dh * (1 + 1 / 2251799813685248)
      ∧ (w : ℚ) / h * dh * (1 - 1 / 2251799813685248) - 1 < D := by
  obtain ⟨v, hdw, hv0, hl, hu⟩ := desired_width_floor w h dh hw hh hd hw2 hh2 hd2 hfit
  have hD : ⌊v⌋ ≤ 2147483647 := by
    have hsome : (double_to_int (Flt.mul binary64
        (Flt.div binary64 (int_to_double (w : Int)) (int_to_double (h : Int)))
        (int_to_double (dh : Int)))) = some ⌊v⌋ := hdw
    cases hm : Flt.mul binary64
        (Flt.div binary64 (int_to_double (w : Int)) (int_to_double (h : Int)))
        (int_to_double (dh : Int)) with
    | finite q =>
      rw [hm] at hsome
      simp only [double_to_int, checked_int] at hsome
      split_ifs at hsome with hq
      simp only [Option.some.injEq] at hsome
      rw [← hsome]
      exact hq.2
    | inf b =>
      rw [hm] at hsome
      exact absurd hsome (by simp [double_to_int])
    | nan =>
      rw [hm] at hsome
      exact absurd hsome (by simp [double_to_int])
  refine ⟨⌊v⌋, hdw, Int.floor_nonneg.2 hv0, hD, ?_, ?_⟩
  · have := Int.floor_le v
    linarith
  · have := Int.lt_floor_add_one v
    linarith

/-- Witness for C17 (as amended): a 4 x 2 image at the desired height 3. -/
theorem desired_width_truncates_witness :
    (0 < 4 ∧ 0 < 2 ∧ 0 < 3 ∧ 4 * 3 ≤ 2147483647 * 2)
      ∧ ∃ D : Int, desired_width ((4 : Nat) : Int) ((2 : Nat) : Int) ((3 : Nat) : Int) = some D
        ∧ 0 ≤ D ∧ D ≤ 2147483647
        ∧ (D : ℚ) ≤ ((4 : Nat) : ℚ) / (2 : Nat) * (3 : Nat) * (1 + 1 / 2251799813685248)
        ∧ ((4 : Nat) : ℚ) / (2 : Nat) * (3 : Nat) * (1 - 1 / 2251799813685248) - 1 < D :=
  ⟨by decide, desired_width_truncates 4 2 3 (by decide) (by decide) (by decide) (by decide)
    (by decide) (by decide) (by decide)⟩

/-- C17, counterexample. For a 5 x 3 image and the desired height 1 the
code computes the width 1, while the nearest integer to `5 / 3 * 1` is 2. -/
theorem desired_width_truncates_counterexample :
    desired_width 5 3 1 = some 1 ∧ round ((5 : ℚ) / 3 * 1) = 2 := by
  constructor
  · obtain ⟨v, hdw, _, hl, hu⟩ := desired_width_floor 5 3 1 (by decide) (by decide) (by decide)
      (by decide) (by decide) (by decide) (by decide)
    have e : ⌊v⌋ = 1 := by
      rw [Int.floor_eq_iff]
      push_cast at hl hu ⊢
      constructor
      · linarith
      · linarith
    rw [e] at hdw
    exact hdw
  · rw [round_eq, Int.floor_eq_iff]
    norm_num

end ImageConverter
